import Mathlib

/-!
# Set-associative LRU cache simulator (`cache.c`)

A shallow embedding of `cache.c` and the properties proved about it.

Modelling conventions.

* The C heap of `line_t` objects is a list; a `line_t *` is a position in that
  list and `NULL` is `none`.  Every line owns its `data` buffer exclusively and
  the pointer to it is never reassigned, so the buffer is stored inside the line.
* `unsigned`/`unsigned long` values are natural numbers.  The program only divides,
  takes remainders and compares, so no operation can wrap around.
* The three operations hand `split_addr` the addresses of their `unsigned int` variables
  `index` and `offset` where it expects `unsigned long *`.  Where `unsigned long` is wider
  than `unsigned int`, each store through these pointers runs over the four bytes that
  follow the variable, and what lies there is the choice of the build.  The operations
  take a `Frame` that says what the caller's `offset` holds afterwards: what `split_addr`
  computed (`separate`), or zero, when `offset` follows `index` and the later store to
  `*index` runs over it (`index_over_offset`).  The index and the tag are the computed
  ones in both (the store to `*tag` has the right width and comes last).  What else
  such a store overwrites is outside the model.
* Undefined behaviour of the C program (division by zero, dereferencing `NULL`
  or a pointer that was never allocated, `memcpy` outside a buffer) and a
  `while` loop that does not terminate are results `Except.error` of type `Fault`.
  They are not error codes of the program: the C functions return `void`.
* `malloc` is assumed to succeed.  The bytes of a fresh buffer are indeterminate;
  `uninit p k` is byte `k` of the buffer of the line allocated at position `p`.
* `load_block_from_next_level` is declared in `main.h` and defined elsewhere; it
  is a parameter `next_level` of the operations that reach it.
-/

namespace CacheSim

/-! ## The data model and the functions of `cache.c` -/

/-- One `char` of a buffer. -/
abbrev Byte := Nat

/-- The tag given to a line that has never been filled (`#define INVALID_TAG 0xFFFFFFFF`). -/
def INVALID_TAG : Nat := 0xFFFFFFFF

/-- Ways in which the C program has no defined result. -/
inductive Fault where
  | div_by_zero
  | null_deref
  | bad_pointer
  | out_of_bounds
  | no_termination
deriving DecidableEq

/-- The struct `line_t`: a tag, the buffer, and the links of the recency list. -/
structure line_t where
  tag : Nat
  data : List Byte
  prev : Option Nat
  next : Option Nat
deriving DecidableEq

/-- The struct `set_t`: most recently used line and least recently used line. -/
structure set_t where
  head : Option Nat
  tail : Option Nat
deriving DecidableEq

/-- The struct `cache_t1`, together with the heap of lines its pointers refer to. -/
structure cache_t1 where
  heap : List line_t
  sets : List set_t
  word_size : Nat
  set_cnt : Nat
  line_cnt : Nat
  line_size : Nat
  clock : Nat
deriving DecidableEq

/-- What a load or store leaves behind: the cache, the bytes copied into the
caller's buffer (none for a store), and the addresses with which
`load_block_from_next_level` was called. -/
structure Result where
  cache : cache_t1
  out : List Byte
  fills : List Nat
deriving DecidableEq

/-- Read the line a pointer refers to. -/
def rd (h : List line_t) (p : Nat) : Except Fault line_t :=
  match h[p]? with
  | some l => .ok l
  | none => .error .bad_pointer

/-- Assign to fields of the line a pointer refers to. -/
def wr (h : List line_t) (p : Nat) (f : line_t → line_t) : Except Fault (List line_t) :=
  match h[p]? with
  | some l => .ok (h.set p (f l))
  | none => .error .bad_pointer

/-- Use of a `line_t *` behind `->`. -/
def deref (line : Option Nat) : Except Fault Nat :=
  match line with
  | some p => .ok p
  | none => .error .null_deref

/-- The set `c->sets[index]`. -/
def get_set (c : cache_t1) (index : Nat) : Except Fault set_t :=
  match c.sets[index]? with
  | some s => .ok s
  | none => .error .bad_pointer

/-- Total update of one position of a list, used where the position is known to exist. -/
def upd {α : Type} (l : List α) (i : Nat) (f : α → α) : List α :=
  match l[i]? with
  | some x => l.set i (f x)
  | none => l

/-- Modelled from the spec: `load_block_from_next_level(addr, buf)` is defined outside
`cache.c`; it overwrites the whole buffer of `line_size` bytes with the block of
backing memory that contains `addr`.  `next_level addr k` is byte `k` of that block. -/
def load_block_from_next_level (next_level : Nat → Nat → Byte) (addr : Nat)
    (buf : List Byte) : List Byte :=
  (List.range buf.length).map (next_level addr)

/-- `split_addr`: the tag, the set index and the byte offset of an address. -/
def split_addr (c : cache_t1) (addr : Nat) : Except Fault (Nat × Nat × Nat) :=
  if c.line_size = 0 then .error .div_by_zero
  else if c.set_cnt = 0 then .error .div_by_zero
  else .ok ((addr / c.line_size) / c.set_cnt, (addr / c.line_size) % c.set_cnt,
    addr % c.line_size)

/-- The `while (current)` loop of `find_line`; `fuel` bounds the number of iterations. -/
def find_line_loop (h : List line_t) (tag : Nat) : Nat → Option Nat → Except Fault (Option Nat)
  | _, none => .ok none
  | 0, some _ => .error .no_termination
  | fuel + 1, some current =>
    match h[current]? with
    | none => .error .bad_pointer
    | some l => if l.tag = tag then .ok (some current) else find_line_loop h tag fuel l.next

/-- `find_line`: the first line of the set, from the head, that carries `tag`.  A walk
longer than the number of allocated lines has entered a cycle without the tag and
would never end. -/
def find_line (h : List line_t) (set : set_t) (tag : Nat) : Except Fault (Option Nat) :=
  find_line_loop h tag h.length set.head

/-- `move_to_head`, statement by statement. -/
def move_to_head (c : cache_t1) (index : Nat) (line : Option Nat) : Except Fault cache_t1 := do
  let s ← get_set c index
  if line = s.head then
    return c
  let p ← deref line
  let l ← rd c.heap p
  let h1 ← match l.next with
    | some n => wr c.heap n (fun x => { x with prev := l.prev })
    | none => pure c.heap
  let l1 ← rd h1 p
  let h2 ← match l1.prev with
    | some q => wr h1 q (fun x => { x with next := l1.next })
    | none => pure h1
  let l2 ← rd h2 p
  let s2 : set_t := if line = s.tail then { s with tail := l2.prev } else s
  let h3 ← wr h2 p (fun x => { x with next := s2.head })
  let h4 ← wr h3 p (fun x => { x with prev := none })
  let l4 ← rd h4 p
  let h5 ← match l4.next with
    | some n => wr h4 n (fun x => { x with prev := some p })
    | none => pure h4
  return { c with heap := h5, sets := c.sets.set index { s2 with head := some p } }

/-- `mishandling`: the tail becomes the head, takes the tag and is refilled. -/
def mishandling (next_level : Nat → Nat → Byte) (c : cache_t1) (index tag addr : Nat) :
    Except Fault cache_t1 := do
  let s ← get_set c index
  let line := s.tail
  let c1 ← move_to_head c index line
  let p ← deref line
  let h1 ← wr c1.heap p (fun x => { x with tag := tag })
  let h2 ← wr h1 p (fun x => { x with data := load_block_from_next_level next_level addr x.data })
  return { c1 with heap := h2 }

/-- The bytes `memcpy(dst, buf + off, n)` copies out of a buffer. -/
def read_bytes (buf : List Byte) (off n : Nat) : Except Fault (List Byte) :=
  if off + n ≤ buf.length then .ok ((buf.drop off).take n) else .error .out_of_bounds

/-- The buffer after `memcpy(buf + off, src, n)`. -/
def write_bytes (buf : List Byte) (off n : Nat) (src : List Byte) : Except Fault (List Byte) :=
  if n ≤ src.length ∧ off + n ≤ buf.length then
    .ok (buf.take off ++ src.take n ++ buf.drop (off + n))
  else .error .out_of_bounds

/-- One iteration of the inner loop of `cache_new`: allocate a line and append it to
the list of set `i`.  The state is the heap, the array of sets and `prev_line`. -/
def cache_new_line (uninit : Nat → Nat → Byte) (line_size i : Nat)
    (st : List line_t × List set_t × Option Nat) (_j : Nat) :
    List line_t × List set_t × Option Nat :=
  let line := st.1.length
  let heap1 := st.1 ++ [{ tag := INVALID_TAG, data := (List.range line_size).map (uninit line),
                           prev := st.2.2, next := none }]
  let heap2 := match st.2.2 with
    | some q => upd heap1 q (fun x => { x with next := some line })
    | none => heap1
  let sets1 := match st.2.2 with
    | some _ => st.2.1
    | none => upd st.2.1 i (fun s => { s with head := some line })
  (heap2, upd sets1 i (fun s => { s with tail := some line }), some line)

/-- One iteration of the outer loop of `cache_new`: initialise set `i`. -/
def cache_new_set (uninit : Nat → Nat → Byte) (lines line_size : Nat)
    (st : List line_t × List set_t) (i : Nat) : List line_t × List set_t :=
  let sets0 := upd (upd st.2 i (fun s => { s with head := none })) i
    (fun s => { s with tail := none })
  let r := (List.range lines).foldl (cache_new_line uninit line_size i) (st.1, sets0, none)
  (r.1, r.2.1)

/-- `cache_new`: `sets` sets of `lines` lines of `line_size` bytes.  There is no check
of the arguments in the C function, and none here. -/
def cache_new (uninit : Nat → Nat → Byte) (word_size sets lines line_size : Nat) : cache_t1 :=
  let r := (List.range sets).foldl (cache_new_set uninit lines line_size)
    ([], List.replicate sets { head := none, tail := none })
  { heap := r.1, sets := r.2, word_size := word_size, set_cnt := sets, line_cnt := lines,
    line_size := line_size, clock := 0 }

/-- How a build lays out the variables `index` and `offset` of the three operations.
They are declared `unsigned int`, and their addresses are handed to `split_addr`, which
stores an `unsigned long` through each of them: `*offset` first, then `*index`, then
`*tag`.
* `separate`: every variable ends up with the value stored for it: `unsigned long` is
  as wide as `unsigned int`, or it is wider and the bytes each store runs over are
  stored again afterwards (`offset`, `index`, `tag` in this order of addresses).
* `index_over_offset`: `unsigned long` is twice as wide as `unsigned int` and the
  variables lie in the order `index`, `offset`, `tag`: the store to `*offset` runs over
  the lower half of `tag`, which is stored last, and the store to `*index`, the later
  of the two, puts the upper half of the index over `offset`. -/
inductive Frame where
  | separate
  | index_over_offset
deriving DecidableEq

/-- The value of the caller's `offset` once `split_addr` has returned, where `offset` is
what `split_addr` stored through `&offset`.  The upper half of the index is zero: the
index is below `set_cnt`, an `unsigned int`. -/
def Frame.offset : Frame → Nat → Nat
  | .separate, offset => offset
  | .index_over_offset, _ => 0

/-- `cache_load_word`; after the call of `split_addr` the caller's `offset` is what the
frame `F` leaves of it. -/
def cache_load_word (F : Frame) (next_level : Nat → Nat → Byte) (c : cache_t1) (address : Nat) :
    Except Fault Result := do
  let (tag, index, offset) ← split_addr c address
  let offset := F.offset offset
  let s ← get_set c index
  let line ← find_line c.heap s tag
  if line ≠ none then
    let c1 ← move_to_head c index line
    let byte_offset := offset % c1.line_size
    let p ← deref line
    let l ← rd c1.heap p
    let word ← read_bytes l.data byte_offset (c1.word_size / 8)
    return { cache := c1, out := word, fills := [] }
  else
    let c1 ← mishandling next_level c index tag address
    let s1 ← get_set c1 index
    let line ← find_line c1.heap s1 tag
    let byte_offset := offset % c1.line_size
    let p ← deref line
    let l ← rd c1.heap p
    let word ← read_bytes l.data byte_offset (c1.word_size / 8)
    return { cache := c1, out := word, fills := [address] }

/-- `cache_load_block`. -/
def cache_load_block (next_level : Nat → Nat → Byte) (c : cache_t1) (address size : Nat) :
    Except Fault Result := do
  let (tag, index, _offset) ← split_addr c address
  let s ← get_set c index
  let line ← find_line c.heap s tag
  if line ≠ none then
    let c1 ← move_to_head c index line
    let p ← deref line
    let l ← rd c1.heap p
    let block ← read_bytes l.data 0 size
    return { cache := c1, out := block, fills := [] }
  else
    let c1 ← mishandling next_level c index tag address
    let s1 ← get_set c1 index
    let line ← find_line c1.heap s1 tag
    let p ← deref line
    let l ← rd c1.heap p
    let block ← read_bytes l.data 0 size
    return { cache := c1, out := block, fills := [address] }

/-- `cache_store_word`; `word` is the caller's buffer, and after the call of `split_addr`
the caller's `offset` is what the frame `F` leaves of it. -/
def cache_store_word (F : Frame) (next_level : Nat → Nat → Byte) (c : cache_t1)
    (address : Nat) (word : List Byte) : Except Fault Result := do
  let (tag, index, offset) ← split_addr c address
  let offset := F.offset offset
  let s ← get_set c index
  let line ← find_line c.heap s tag
  if line ≠ none then
    let c1 ← move_to_head c index line
    let byte_offset := offset % c1.line_size
    let p ← deref line
    let l ← rd c1.heap p
    let data ← write_bytes l.data byte_offset (c1.word_size / 8) word
    let h ← wr c1.heap p (fun x => { x with data := data })
    return { cache := { c1 with heap := h }, out := [], fills := [] }
  else
    let c1 ← mishandling next_level c index tag address
    let s1 ← get_set c1 index
    let line ← find_line c1.heap s1 tag
    let byte_offset := offset % c1.line_size
    let p ← deref line
    let l ← rd c1.heap p
    let data ← write_bytes l.data byte_offset (c1.word_size / 8) word
    let h ← wr c1.heap p (fun x => { x with data := data })
    return { cache := { c1 with heap := h }, out := [], fills := [address] }

/-! ## Observations on a cache -/

/-- The line at a position of the heap; a position outside the heap has no line and
reads as a line without links. -/
def line_at (h : List line_t) (p : Nat) : line_t :=
  (h[p]?).getD { tag := INVALID_TAG, data := [], prev := none, next := none }

/-- The positions met from `start` by following `next`, at most `fuel` of them. -/
def walk (h : List line_t) : Nat → Option Nat → List Nat
  | _, none => []
  | 0, some _ => []
  | fuel + 1, some p =>
    match h[p]? with
    | none => []
    | some l => p :: walk h fuel l.next

/-- The lines of set `i`, from the head along `next`. -/
def set_lines (c : cache_t1) (i : Nat) : List Nat :=
  match c.sets[i]? with
  | some s => walk c.heap c.heap.length s.head
  | none => []

/-- The tags of set `i`, most recently used first. -/
def set_tags (c : cache_t1) (i : Nat) : List Nat :=
  (set_lines c i).map (fun p => (line_at c.heap p).tag)

/-- Neighbours in a recency list: `b` follows `a` and `a` precedes `b`. -/
def Adj (h : List line_t) (a b : Nat) : Prop :=
  (line_at h a).next = some b ∧ (line_at h b).prev = some a

/-- The doubly linked list of set `s` consists of the lines `ps`, head first. -/
structure SetRep (h : List line_t) (s : set_t) (ps : List Nat) : Prop where
  nodup : ps.Nodup
  valid : ∀ p ∈ ps, p < h.length
  head_eq : s.head = ps.head?
  tail_eq : s.tail = ps.getLast?
  chain : ps.Chain' (Adj h)
  first : ∀ p ∈ ps.head?, (line_at h p).prev = none
  last : ∀ p ∈ ps.getLast?, (line_at h p).next = none

/-! ## The three operations as one interface, and the states they reach -/

/-- The first phase shared by the three operations: look the tag up, promote the line
found or replace the tail.  Returns the cache, the line resolved and the addresses
passed to the next level. -/
def resolve (next_level : Nat → Nat → Byte) (c : cache_t1) (address : Nat) :
    Except Fault (cache_t1 × Option Nat × List Nat) := do
  let (tag, index, _offset) ← split_addr c address
  let s ← get_set c index
  let line ← find_line c.heap s tag
  if line ≠ none then
    let c1 ← move_to_head c index line
    return (c1, line, [])
  else
    let c1 ← mishandling next_level c index tag address
    let s1 ← get_set c1 index
    let line ← find_line c1.heap s1 tag
    return (c1, line, [address])

/-! ## Invariants -/

/-- The invariant of a cache: every set is a well-formed recency list of `line_cnt`
lines, no line belongs to two sets, every buffer has `line_size` bytes, and no two
lines of a set carry the same tag unless it is `INVALID_TAG`. -/
structure Inv (c : cache_t1) : Prop where
  sets_len : c.sets.length = c.set_cnt
  rep : ∀ i s, c.sets[i]? = some s → SetRep c.heap s (set_lines c i)
  cnt : ∀ i, i < c.set_cnt → (set_lines c i).length = c.line_cnt
  disj : ∀ i j, i ≠ j → ∀ x, x ∈ set_lines c i → x ∉ set_lines c j
  buf : ∀ p, p < c.heap.length → (line_at c.heap p).data.length = c.line_size
  uniq : ∀ i, ∀ p ∈ set_lines c i, ∀ q ∈ set_lines c i, p ≠ q →
    (line_at c.heap p).tag = (line_at c.heap q).tag → (line_at c.heap p).tag = INVALID_TAG

/-- What one step of an operation on set `i` keeps: the invariant, the geometry, the
other sets and every line outside set `i`; the lines of set `i` are rearranged to `ps`. -/
structure Step (c c1 : cache_t1) (i : Nat) (ps : List Nat) : Prop where
  inv : Inv c1
  word_size : c1.word_size = c.word_size
  set_cnt : c1.set_cnt = c.set_cnt
  line_cnt : c1.line_cnt = c.line_cnt
  line_size : c1.line_size = c.line_size
  heap_len : c1.heap.length = c.heap.length
  lines : set_lines c1 i = ps
  perm : ps.Perm (set_lines c i)
  others : ∀ j, j ≠ i → set_lines c1 j = set_lines c j
  sets_others : ∀ j, j ≠ i → c1.sets[j]? = c.sets[j]?
  frame : ∀ x, x ∉ set_lines c i → line_at c1.heap x = line_at c.heap x

/-- A hit on tag `t` in set `i`: the first line carrying `t` is `p`, between `A` and `B`;
it is promoted and nothing else changes. -/
structure IsHit (c c1 : cache_t1) (i t : Nat) (A : List Nat) (p : Nat) (B : List Nat) : Prop where
  lines : set_lines c i = A ++ p :: B
  before : ∀ x ∈ A, (line_at c.heap x).tag ≠ t
  tag : (line_at c.heap p).tag = t
  step : Step c c1 i (p :: (A ++ B))
  tags : ∀ x, (line_at c1.heap x).tag = (line_at c.heap x).tag
  data : ∀ x, (line_at c1.heap x).data = (line_at c.heap x).data

/-- A miss on tag `t` in set `i`: no line carries `t`; the tail `z` is promoted, takes the
tag and is refilled for address `a`; the other lines keep tag and data. -/
structure IsMiss (next_level : Nat → Nat → Byte) (c c1 : cache_t1) (i t a : Nat)
    (A : List Nat) (z : Nat) : Prop where
  lines : set_lines c i = A ++ [z]
  absent : ∀ x ∈ set_lines c i, (line_at c.heap x).tag ≠ t
  step : Step c c1 i (z :: A)
  tag : (line_at c1.heap z).tag = t
  data : (line_at c1.heap z).data
    = load_block_from_next_level next_level a (line_at c.heap z).data
  rest : ∀ x, x ≠ z → (line_at c1.heap x).tag = (line_at c.heap x).tag ∧
    (line_at c1.heap x).data = (line_at c.heap x).data

/-- The state of the inner loop of `cache_new` after `j` iterations for set `i`, started
with heap `h0` and sets `ss0`: the lines `h0.length, ..., h0.length + j - 1` form the list
of set `i`. -/
structure NewLineInv (line_size i : Nat) (h0 : List line_t) (ss0 : List set_t) (j : Nat)
    (st : List line_t × List set_t × Option Nat) : Prop where
  heap_len : st.1.length = h0.length + j
  sets_len : st.2.1.length = ss0.length
  prev_line : st.2.2 = if j = 0 then none else some (h0.length + j - 1)
  rep : ∃ s, st.2.1[i]? = some s ∧ SetRep st.1 s (List.range' h0.length j)
  others : ∀ k, k ≠ i → st.2.1[k]? = ss0[k]?
  old : ∀ x, x < h0.length → line_at st.1 x = line_at h0 x
  fresh : ∀ x, h0.length ≤ x → x < h0.length + j →
    (line_at st.1 x).tag = INVALID_TAG ∧ (line_at st.1 x).data.length = line_size

/-- The state of the outer loop of `cache_new` after `i` iterations: the first `i` sets
are lists of `lines` consecutive fresh lines. -/
structure NewSetInv (lines line_size n i : Nat) (st : List line_t × List set_t) : Prop where
  heap_len : st.1.length = i * lines
  sets_len : st.2.length = n
  rep : ∀ k, k < i → ∃ s, st.2[k]? = some s ∧ SetRep st.1 s (List.range' (k * lines) lines)
  fresh : ∀ x, x < st.1.length →
    (line_at st.1 x).tag = INVALID_TAG ∧ (line_at st.1 x).data.length = line_size

/-- One call of the interface of the cache. -/
inductive Op where
  | load_word (address : Nat)
  | load_block (address size : Nat)
  | store_word (address : Nat) (word : List Byte)

/-- The address of a call. -/
def Op.address : Op → Nat
  | .load_word a => a
  | .load_block a _ => a
  | .store_word a _ => a

/-- Run one call: `cache_load_word`, `cache_load_block` or `cache_store_word`. -/
def access (F : Frame) (next_level : Nat → Nat → Byte) (c : cache_t1) :
    Op → Except Fault Result
  | .load_word a => cache_load_word F next_level c a
  | .load_block a size => cache_load_block next_level c a size
  | .store_word a w => cache_store_word F next_level c a w

/-- The bytes a call copies lie inside the line whatever the frame (and, for a store,
inside the caller's buffer): the word at the offset of the address ends before the line
does, the block is no bigger than a line. -/
def Op.fits (c : cache_t1) : Op → Prop
  | .load_word a => a % c.line_size + c.word_size / 8 ≤ c.line_size
  | .load_block _ size => size ≤ c.line_size
  | .store_word a w =>
    a % c.line_size + c.word_size / 8 ≤ c.line_size ∧ c.word_size / 8 ≤ w.length

/-- The bytes a call copies lie inside the line on a build with frame `F`: the word at
the offset the caller holds ends before the line does. -/
def Op.fits_at (F : Frame) (c : cache_t1) : Op → Prop
  | .load_word a => F.offset (a % c.line_size) + c.word_size / 8 ≤ c.line_size
  | .load_block _ size => size ≤ c.line_size
  | .store_word a w =>
    F.offset (a % c.line_size) + c.word_size / 8 ≤ c.line_size ∧ c.word_size / 8 ≤ w.length

/-- The result of a call once its line `p` is resolved in cache `c1`. -/
def finish (F : Frame) (c1 : cache_t1) (p : Nat) (fills : List Nat) : Op → Result
  | .load_word a =>
    { cache := c1, fills := fills,
      out := ((line_at c1.heap p).data.drop (F.offset (a % c1.line_size))).take
        (c1.word_size / 8) }
  | .load_block _ size =>
    { cache := c1, fills := fills, out := (line_at c1.heap p).data.take size }
  | .store_word a w =>
    { cache := { c1 with heap := upd c1.heap p (fun x => { x with
        data := x.data.take (F.offset (a % c1.line_size)) ++ w.take (c1.word_size / 8)
          ++ x.data.drop (F.offset (a % c1.line_size) + c1.word_size / 8) }) },
      fills := fills, out := [] }

/-- The states a cache created by `cache_new word_size sets lines line_size` can be in:
any number of calls that returned, each with whatever the next level supplies. -/
inductive Reachable (F : Frame) (word_size sets lines line_size : Nat) : cache_t1 → Prop where
  | new (uninit : Nat → Nat → Byte) :
    Reachable F word_size sets lines line_size (cache_new uninit word_size sets lines line_size)
  | step {c : cache_t1} (next_level : Nat → Nat → Byte) (op : Op) (r : Result) :
    Reachable F word_size sets lines line_size c → access F next_level c op = .ok r →
    Reachable F word_size sets lines line_size r.cache

/-- The outcome of the lookup phase for address `a`: a hit on line `p` of set
`A ++ p :: B`, or a miss that replaces the tail `p` of `A ++ [p]`. -/
def Resolved (next_level : Nat → Nat → Byte) (c c1 : cache_t1) (a : Nat) (A : List Nat) (p : Nat)
    (B : List Nat) (fills : List Nat) : Prop :=
  (IsHit c c1 (a / c.line_size % c.set_cnt) (a / c.line_size / c.set_cnt) A p B ∧ fills = []) ∨
  (B = [] ∧ IsMiss next_level c c1 (a / c.line_size % c.set_cnt) (a / c.line_size / c.set_cnt)
    a A p ∧ fills = [a])

/-- The net effect of a call on set `i` for tag `t`: the line `p` of `A ++ p :: B` is now
the head and carries `t`; no line before it carried `t`; every other line keeps tag
and data. -/
structure Touched (c c2 : cache_t1) (i t : Nat) (A : List Nat) (p : Nat) (B : List Nat) :
    Prop where
  lines : set_lines c i = A ++ p :: B
  step : Step c c2 i (p :: (A ++ B))
  tag : (line_at c2.heap p).tag = t
  rest : ∀ x, x ≠ p → (line_at c2.heap x).tag = (line_at c.heap x).tag ∧
    (line_at c2.heap x).data = (line_at c.heap x).data
  before : ∀ x ∈ A, (line_at c.heap x).tag ≠ t

/-! ## Sequences of calls and the LRU order on tags -/

/-- The tag of an address in cache `c`, as `split_addr` computes it. -/
def tag_of (c : cache_t1) (a : Nat) : Nat := a / c.line_size / c.set_cnt

/-- The set index of an address in cache `c`, as `split_addr` computes it. -/
def index_of (c : cache_t1) (a : Nat) : Nat := a / c.line_size % c.set_cnt

/-- LRU on a list of tags, most recently used first: a tag that is present moves to the
front, a tag that is absent replaces the last one and comes to the front. -/
def lru_touch (t : Nat) (T : List Nat) : List Nat :=
  if t ∈ T then t :: T.erase t else t :: T.dropLast

/-- The tags of a set after a sequence of accessed tags. -/
def lru_run (T : List Nat) (ts : List Nat) : List Nat :=
  ts.foldl (fun T t => lru_touch t T) T

/-- Which accesses of a sequence miss (`true`) on a list of tags. -/
def lru_misses : List Nat → List Nat → List Bool
  | _, [] => []
  | T, t :: ts => decide (t ∉ T) :: lru_misses (lru_touch t T) ts

/-- The cache after a sequence of calls. -/
def run (F : Frame) (next_level : Nat → Nat → Byte) :
    cache_t1 → List Op → Except Fault cache_t1
  | c, [] => .ok c
  | c, op :: ops => do
    let r ← access F next_level c op
    run F next_level r.cache ops

/-- Which calls of a sequence reach the next level (`true` is a miss). -/
def miss_trace (F : Frame) (next_level : Nat → Nat → Byte) :
    cache_t1 → List Op → Except Fault (List Bool)
  | _, [] => .ok []
  | c, op :: ops => do
    let r ← access F next_level c op
    let rest ← miss_trace F next_level r.cache ops
    return (decide (r.fills ≠ []) :: rest)

/-- A fresh buffer that happens to hold zeros. -/
def blank : Nat → Nat → Byte := fun _ _ => 0

/-- A next level whose byte `k` of the block fetched for `addr` is `addr + k`. -/
def plain_memory : Nat → Nat → Byte := fun addr k => addr + k

instance Op.fits_decidable (c : cache_t1) : (op : Op) → Decidable (op.fits c)
  | .load_word a =>
    inferInstanceAs (Decidable (a % c.line_size + c.word_size / 8 ≤ c.line_size))
  | .load_block _ size => inferInstanceAs (Decidable (size ≤ c.line_size))
  | .store_word a w =>
    inferInstanceAs (Decidable (a % c.line_size + c.word_size / 8 ≤ c.line_size ∧
      c.word_size / 8 ≤ w.length))

/-- The cache of geometry (32, 1, 2, 8) after loading the words at 0 and at 8 from
`plain_memory`: line 0 holds block 1 and is the head, line 1 holds block 0. -/
def two_blocks : cache_t1 :=
  { heap := [{ tag := 1, data := [8, 9, 10, 11, 12, 13, 14, 15], prev := none, next := some 1 },
             { tag := 0, data := [0, 1, 2, 3, 4, 5, 6, 7], prev := some 0, next := none }],
    sets := [{ head := some 0, tail := some 1 }],
    word_size := 32, set_cnt := 1, line_cnt := 2, line_size := 8, clock := 0 }

/-- The results of `n` successive `cache_load_word` calls on the same address. -/
def loads (F : Frame) (next_level : Nat → Nat → Byte) (a : Nat) :
    Nat → cache_t1 → Except Fault (List Result)
  | 0, _ => .ok []
  | n + 1, c => do
    let r ← cache_load_word F next_level c a
    let rest ← loads F next_level a n r.cache
    return r :: rest

/-- The result of loading the word at 8 into a fresh cache of geometry (32, 2, 2, 8) with
zeroed buffers from `plain_memory`: address 8 maps to set 1, whose tail (line 3) is
filled and becomes the head; set 0 (lines 0 and 1) is as `cache_new` left it. -/
def second_set_loaded : Result :=
  { cache :=
      { heap := [{ tag := INVALID_TAG, data := [0, 0, 0, 0, 0, 0, 0, 0], prev := none, next := some 1 },
                 { tag := INVALID_TAG, data := [0, 0, 0, 0, 0, 0, 0, 0], prev := some 0, next := none },
                 { tag := INVALID_TAG, data := [0, 0, 0, 0, 0, 0, 0, 0], prev := some 3, next := none },
                 { tag := 0, data := [8, 9, 10, 11, 12, 13, 14, 15], prev := none, next := some 2 }],
        sets := [{ head := some 0, tail := some 1 }, { head := some 3, tail := some 2 }],
        word_size := 32, set_cnt := 2, line_cnt := 2, line_size := 8, clock := 0 },
    out := [8, 9, 10, 11],
    fills := [8] }

/-- Modelled from the spec: `load_block_from_next_level` is not in cache.c.  The next
level over a memory `M` of bytes: the fill for `addr` supplies the bytes of the block of
`line_size` bytes that contains `addr`. -/
def block_memory (M : Nat → Byte) (line_size : Nat) : Nat → Nat → Byte :=
  fun addr k => M (addr / line_size * line_size + k)

/-- A direct read of `n` bytes of the memory `M` at address `a`. -/
def direct_read (M : Nat → Byte) (a n : Nat) : List Byte :=
  (List.range n).map (fun k => M (a + k))

/-- The call is a load (`cache_load_word` or `cache_load_block`). -/
def Op.is_load : Op → Bool
  | .load_word _ => true
  | .load_block _ _ => true
  | .store_word _ _ => false

/-- The cache agrees with the memory `M`: a line of set `i` whose tag `t` is not the
sentinel holds the bytes of block `t * set_cnt + i`. -/
def Coherent (M : Nat → Byte) (c : cache_t1) : Prop :=
  ∀ i, i < c.set_cnt → ∀ p ∈ set_lines c i, (line_at c.heap p).tag ≠ INVALID_TAG →
    (line_at c.heap p).data = (List.range c.line_size).map
      (fun k => M (((line_at c.heap p).tag * c.set_cnt + i) * c.line_size + k))

/-! ## The heap and the recency list -/

theorem Frame.offset_le (F : Frame) (n : Nat) : F.offset n ≤ n := by
  cases F
  · exact Nat.le_refl n
  · exact Nat.zero_le n

theorem Frame.offset_mod (F : Frame) (a ls : Nat) :
    F.offset (a % ls) % ls = F.offset (a % ls) := by
  cases F
  · exact Nat.mod_mod a ls
  · exact Nat.zero_mod ls

theorem fits_at_of_fits (F : Frame) {c : cache_t1} {op : Op} (h : op.fits c) :
    op.fits_at F c := by
  cases op with
  | load_word a =>
    have := F.offset_le (a % c.line_size)
    simp only [Op.fits, Op.fits_at] at h ⊢
    omega
  | load_block a size => exact h
  | store_word a w =>
    have := F.offset_le (a % c.line_size)
    simp only [Op.fits, Op.fits_at] at h ⊢
    omega

theorem ok_bind {α β : Type} (a : α) (f : α → Except Fault β) :
    (Except.ok a >>= f) = f a := rfl

theorem error_bind {α β : Type} (e : Fault) (f : α → Except Fault β) :
    ((Except.error e : Except Fault α) >>= f) = Except.error e := rfl

theorem pure_eq_ok {α : Type} (a : α) : (pure a : Except Fault α) = Except.ok a := rfl

theorem line_at_of_lt {h : List line_t} {p : Nat} (hp : p < h.length) :
    h[p]? = some (line_at h p) := by
  simp [line_at, List.getElem?_eq_getElem hp]

theorem rd_ok {h : List line_t} {p : Nat} (hp : p < h.length) :
    rd h p = .ok (line_at h p) := by
  simp [rd, line_at_of_lt hp]

theorem wr_ok {h : List line_t} {p : Nat} (hp : p < h.length) (f : line_t → line_t) :
    wr h p f = .ok (upd h p f) := by
  simp [wr, upd, line_at_of_lt hp]

theorem length_upd {α : Type} (l : List α) (i : Nat) (f : α → α) :
    (upd l i f).length = l.length := by
  unfold upd
  split <;> simp

theorem line_at_upd {h : List line_t} {q : Nat} (hq : q < h.length) (f : line_t → line_t)
    (p : Nat) : line_at (upd h q f) p = if p = q then f (line_at h q) else line_at h p := by
  unfold upd
  rw [line_at_of_lt hq]
  by_cases hpq : p = q
  · subst hpq
    simp [line_at, List.getElem?_set_self hq]
  · have : q ≠ p := fun e => hpq e.symm
    simp [line_at, List.getElem?_set_ne this, hpq]

theorem getElem?_upd {α : Type} (l : List α) (i j : Nat) (f : α → α) :
    (upd l i f)[j]? = if j = i then (l[i]?).map f else l[j]? := by
  unfold upd
  cases hi : l[i]? with
  | none =>
    by_cases hji : j = i
    · subst hji; simp [hi]
    · simp [hji]
  | some x =>
    have hlt : i < l.length := by
      rcases Nat.lt_or_ge i l.length with h | h
      · exact h
      · rw [List.getElem?_eq_none h] at hi; cases hi
    by_cases hji : j = i
    · subst hji; simp [List.getElem?_set_self hlt]
    · have : i ≠ j := fun e => hji e.symm
      simp [List.getElem?_set_ne this, hji]

theorem walk_chain (h : List line_t) : ∀ (ps : List Nat) (fuel : Nat), ps.length ≤ fuel →
    (∀ p ∈ ps, p < h.length) → ps.Chain' (Adj h) →
    (∀ p ∈ ps.getLast?, (line_at h p).next = none) → walk h fuel ps.head? = ps := by
  intro ps
  induction ps with
  | nil => intro fuel _ _ _ _; cases fuel <;> simp [walk]
  | cons p rest ih =>
    intro fuel hlen hval hch hlast
    cases fuel with
    | zero => simp at hlen
    | succ fuel =>
      have hp : p < h.length := hval p (by simp)
      have hnext : (line_at h p).next = rest.head? := by
        cases rest with
        | nil => simpa using hlast
        | cons q rest2 =>
          have := (List.chain'_cons.mp hch).1
          simpa using this.1
      have hrec := ih fuel (by simpa using hlen) (fun x hx => hval x (by simp [hx]))
        (List.Chain'.tail hch) (by
          intro x hx
          apply hlast
          cases rest with
          | nil => simp at hx
          | cons q rest2 => simpa [List.getLast?_cons_cons] using hx)
      simp [walk, line_at_of_lt hp, hnext, hrec]

theorem find_line_loop_chain (h : List line_t) (t : Nat) : ∀ (ps : List Nat) (fuel : Nat),
    ps.length ≤ fuel → (∀ p ∈ ps, p < h.length) → ps.Chain' (Adj h) →
    (∀ p ∈ ps.getLast?, (line_at h p).next = none) →
    find_line_loop h t fuel ps.head? = .ok (ps.find? (fun p => decide ((line_at h p).tag = t))) := by
  intro ps
  induction ps with
  | nil => intro fuel _ _ _ _; cases fuel <;> simp [find_line_loop]
  | cons p rest ih =>
    intro fuel hlen hval hch hlast
    cases fuel with
    | zero => simp at hlen
    | succ fuel =>
      have hp : p < h.length := hval p (by simp)
      have hnext : (line_at h p).next = rest.head? := by
        cases rest with
        | nil => simpa using hlast
        | cons q rest2 =>
          have := (List.chain'_cons.mp hch).1
          simpa using this.1
      have hrec := ih fuel (by simpa using hlen) (fun x hx => hval x (by simp [hx]))
        (List.Chain'.tail hch) (by
          intro x hx
          apply hlast
          cases rest with
          | nil => simp at hx
          | cons q rest2 => simpa [List.getLast?_cons_cons] using hx)
      by_cases htag : (line_at h p).tag = t
      · simp [find_line_loop, line_at_of_lt hp, htag, List.find?]
      · simp [find_line_loop, line_at_of_lt hp, htag, List.find?, hnext, hrec]

theorem length_le_of_valid {ps : List Nat} {n : Nat} (hnd : ps.Nodup)
    (hval : ∀ p ∈ ps, p < n) : ps.length ≤ n := by
  have hsub : ps ⊆ List.range n := fun x hx => List.mem_range.mpr (hval x hx)
  simpa using (List.subperm_of_subset hnd hsub).length_le

theorem SetRep.walk_eq {h : List line_t} {s : set_t} {ps : List Nat} (r : SetRep h s ps) :
    walk h h.length s.head = ps := by
  rw [r.head_eq]
  exact walk_chain h ps h.length (length_le_of_valid r.nodup r.valid) r.valid r.chain r.last

theorem SetRep.find_line_eq {h : List line_t} {s : set_t} {ps : List Nat} (r : SetRep h s ps)
    (t : Nat) :
    find_line h s t = .ok (ps.find? (fun p => decide ((line_at h p).tag = t))) := by
  unfold find_line
  rw [r.head_eq]
  exact find_line_loop_chain h t ps h.length (length_le_of_valid r.nodup r.valid) r.valid
    r.chain r.last

theorem rd_eq (h : List line_t) (p : Nat) :
    rd h p = if p < h.length then .ok (line_at h p) else .error .bad_pointer := by
  by_cases hp : p < h.length
  · simp [hp, rd_ok hp]
  · simp [hp, rd, List.getElem?_eq_none (Nat.le_of_not_lt hp)]

theorem wr_eq (h : List line_t) (p : Nat) (f : line_t → line_t) :
    wr h p f = if p < h.length then .ok (upd h p f) else .error .bad_pointer := by
  by_cases hp : p < h.length
  · simp [hp, wr_ok hp]
  · simp [hp, wr, List.getElem?_eq_none (Nat.le_of_not_lt hp)]

theorem line_at_upd_eq (h : List line_t) (q : Nat) (f : line_t → line_t) (p : Nat) :
    line_at (upd h q f) p
      = if p = q ∧ q < h.length then f (line_at h q) else line_at h p := by
  by_cases hq : q < h.length
  · simp [hq, line_at_upd hq]
  · simp [hq, upd, List.getElem?_eq_none (Nat.le_of_not_lt hq)]

set_option maxHeartbeats 2000000 in
theorem move_to_head_ok (c : cache_t1) (i : Nat) (s : set_t) (p : Nat)
    (hs : c.sets[i]? = some s) (hne : s.head ≠ some p) (hp : p < c.heap.length)
    (hn : ∀ n, (line_at c.heap p).next = some n → n < c.heap.length ∧ n ≠ p)
    (hq : ∀ q, (line_at c.heap p).prev = some q → q < c.heap.length ∧ q ≠ p)
    (hh : ∀ x, s.head = some x → x < c.heap.length) :
    ∃ H, move_to_head c i (some p) = .ok { c with
        heap := H
        sets := c.sets.set i ⟨some p, if some p = s.tail then (line_at c.heap p).prev else s.tail⟩ } ∧
      H.length = c.heap.length ∧
      (∀ x, (line_at H x).tag = (line_at c.heap x).tag) ∧
      (∀ x, (line_at H x).data = (line_at c.heap x).data) ∧
      (∀ x, (line_at H x).next = if x = p then s.head
        else if (line_at c.heap p).prev = some x then (line_at c.heap p).next
        else (line_at c.heap x).next) ∧
      (∀ x, (line_at H x).prev = if s.head = some x then some p
        else if x = p then none
        else if (line_at c.heap p).next = some x then (line_at c.heap p).prev
        else (line_at c.heap x).prev) := by
  have hne2 : ¬ (some p = s.head) := fun e => hne e.symm
  have hT : (some p = s.tail) = (s.tail = some p) := propext eq_comm
  have hn1 : ∀ n, (line_at c.heap p).next = some n → n < c.heap.length := fun n e => (hn n e).1
  have hn2 : ∀ n, (line_at c.heap p).next = some n → ¬ (n = p) := fun n e => (hn n e).2
  have hn3 : ∀ n, (line_at c.heap p).next = some n → ¬ (p = n) := fun n e e2 => (hn n e).2 e2.symm
  have hq1 : ∀ n, (line_at c.heap p).prev = some n → n < c.heap.length := fun n e => (hq n e).1
  have hq2 : ∀ n, (line_at c.heap p).prev = some n → ¬ (n = p) := fun n e => (hq n e).2
  have hq3 : ∀ n, (line_at c.heap p).prev = some n → ¬ (p = n) := fun n e e2 => (hq n e).2 e2.symm
  have hh2 : ∀ x, s.head = some x → ¬ (x = p) := fun x e e2 => hne (e2 ▸ e)
  have hh3 : ∀ x, s.head = some x → ¬ (p = x) := fun x e e2 => hne (e2 ▸ e)
  clear hn hq
  unfold move_to_head
  rcases hN : (line_at c.heap p).next with _ | n <;>
  rcases hQ : (line_at c.heap p).prev with _ | q <;>
  rcases hH : s.head with _ | hd <;>
  by_cases hT2 : s.tail = some p
  all_goals simp only [hN, hQ, hH, forall_eq', reduceCtorEq, false_implies, implies_true,
    Option.some.injEq] at hn1 hn2 hn3 hq1 hq2 hq3 hh hh2 hh3 hne hne2
  all_goals simp only [get_set, hs, ok_bind, pure_eq_ok, deref, rd_eq, wr_eq, hp, hN, hQ, hH, hT,
    hT2, length_upd, line_at_upd_eq, if_true, if_false, and_true, and_false, ite_true, ite_false,
    Option.some.injEq, reduceCtorEq, *]
  all_goals refine ⟨_, rfl, by simp only [length_upd], ?_, ?_, ?_, ?_⟩
  all_goals clear hT hs
  all_goals intro x
  all_goals simp only [length_upd, line_at_upd_eq, hp, and_true, true_and, Option.some.injEq,
    reduceCtorEq, ↓reduceIte, *]
  all_goals (split_ifs <;> subst_vars <;> simp_all)

theorem chain_frame {h h2 : List line_t} : ∀ (l : List Nat), l.Chain' (Adj h) →
    (∀ x ∈ l.dropLast, (line_at h2 x).next = (line_at h x).next) →
    (∀ y ∈ l.tail, (line_at h2 y).prev = (line_at h y).prev) → l.Chain' (Adj h2) := by
  intro l
  induction l with
  | nil => intro _ _ _; exact List.chain'_nil
  | cons x rest ih =>
    intro hch hn hp
    cases rest with
    | nil => exact List.chain'_singleton x
    | cons y rest2 =>
      rw [List.chain'_cons] at hch ⊢
      refine ⟨⟨?_, ?_⟩, ih hch.2 ?_ ?_⟩
      · rw [hn x (by simp)]; exact hch.1.1
      · rw [hp y (by simp)]; exact hch.1.2
      · intro z hz; exact hn z (by simp [hz])
      · intro z hz; exact hp z (by simp at hz ⊢; exact Or.inr hz)

theorem ne_last_of_mem_dropLast {l : List Nat} {a x : Nat} (hnd : l.Nodup)
    (hl : l.getLast? = some a) (hx : x ∈ l.dropLast) : x ≠ a := by
  obtain ⟨ys, rfl⟩ := List.getLast?_eq_some_iff.mp hl
  rw [List.dropLast_concat] at hx
  rintro rfl
  have := (List.nodup_append.mp hnd).2.2
  exact this hx (by simp)

theorem ne_head_of_mem_tail {l : List Nat} {a x : Nat} (hnd : l.Nodup)
    (hl : l.head? = some a) (hx : x ∈ l.tail) : x ≠ a := by
  cases l with
  | nil => simp at hl
  | cons b rest =>
    simp at hl hx
    subst hl
    rintro rfl
    exact (List.nodup_cons.mp hnd).1 hx

theorem mem_of_mem_dropLast {l : List Nat} {x : Nat} (hx : x ∈ l.dropLast) : x ∈ l :=
  List.mem_of_mem_dropLast hx

theorem getLast?_cons_some {l : List Nat} {a : Nat} (p : Nat) (h : l.getLast? = some a) :
    (p :: l).getLast? = some a := by
  cases l with
  | nil => simp at h
  | cons b t => rw [List.getLast?_cons_cons]; exact h

theorem getLast?_append_cons (l : List Nat) (b : Nat) (t : List Nat) :
    (l ++ b :: t).getLast? = (b :: t).getLast? := by
  rw [List.getLast?_append]
  cases hB : (b :: t).getLast? with
  | none => simp at hB
  | some z => simp

theorem line_t_ext {l1 l2 : line_t} (h1 : l1.tag = l2.tag) (h2 : l1.data = l2.data)
    (h3 : l1.prev = l2.prev) (h4 : l1.next = l2.next) : l1 = l2 := by
  cases l1; cases l2; simp_all

theorem move_to_head_rep (c : cache_t1) (i : Nat) (s : set_t) (A B : List Nat) (p : Nat)
    (hs : c.sets[i]? = some s) (r : SetRep c.heap s (A ++ p :: B)) (hA : A ≠ []) :
    ∃ H s1, move_to_head c i (some p) = .ok { c with heap := H, sets := c.sets.set i s1 } ∧
      H.length = c.heap.length ∧
      (∀ x, (line_at H x).tag = (line_at c.heap x).tag) ∧
      (∀ x, (line_at H x).data = (line_at c.heap x).data) ∧
      (∀ x, x ∉ A ++ p :: B → line_at H x = line_at c.heap x) ∧
      SetRep H s1 (p :: (A ++ B)) := by
  obtain ⟨hd, hhd⟩ : ∃ hd, A.head? = some hd := by
    cases A with
    | nil => exact absurd rfl hA
    | cons x _ => exact ⟨x, rfl⟩
  obtain ⟨a, ha⟩ : ∃ a, A.getLast? = some a := by
    rcases List.eq_nil_or_concat A with h | ⟨L, b, h⟩
    · exact absurd h hA
    · exact ⟨b, by simp [h]⟩
  have hnd := r.nodup
  have hndA : A.Nodup := (List.nodup_append.mp hnd).1
  have hndpB : (p :: B).Nodup := (List.nodup_append.mp hnd).2.1
  have hndB : B.Nodup := (List.nodup_cons.mp hndpB).2
  have hpB : p ∉ B := (List.nodup_cons.mp hndpB).1
  have hdisj : ∀ x, x ∈ A → x ∉ p :: B := fun x hx hx2 => (List.nodup_append.mp hnd).2.2 hx hx2
  have hpA : p ∉ A := fun hx => hdisj p hx (by simp)
  have hAB : ∀ x, x ∈ A → x ∉ B := fun x hx hx2 => hdisj x hx (by simp [hx2])
  have hhdA : hd ∈ A := List.mem_of_mem_head? hhd
  have haA : a ∈ A := List.mem_of_mem_getLast? ha
  have hprev : (line_at c.heap p).prev = some a :=
    ((List.chain'_append.mp r.chain).2.2 a ha p (by simp)).2
  have hnext : (line_at c.heap p).next = B.head? := by
    cases B with
    | nil => apply r.last; simp [List.getLast?_append]
    | cons b B2 =>
      have := (List.chain'_append.mp r.chain).2.1
      rw [List.chain'_cons] at this
      simpa using this.1.1
  have hhead : s.head = some hd := by rw [r.head_eq]; simp [List.head?_append, hhd]
  have htail : s.tail = (p :: B).getLast? := by
    rw [r.tail_eq, List.getLast?_append]
    cases hB : (p :: B).getLast? with
    | none => simp at hB
    | some z => simp
  have hvalid := r.valid
  obtain ⟨H, hmv, hlen, htag, hdata, hnx, hpv⟩ := move_to_head_ok c i s p hs
    (by rw [hhead]; intro e; cases e; exact hpA hhdA) (hvalid p (by simp))
    (by
      intro n hn
      rw [hnext] at hn
      have hnB : n ∈ B := List.mem_of_mem_head? hn
      exact ⟨hvalid n (by simp [hnB]), fun e => hpB (e ▸ hnB)⟩)
    (by
      intro q hq
      rw [hprev] at hq
      cases hq
      exact ⟨hvalid a (by simp [haA]), fun e => hpA (e ▸ haA)⟩)
    (by
      intro x hx
      rw [hhead] at hx
      cases hx
      exact hvalid hd (by simp [hhdA]))
  have hnx_A : ∀ x, x ∈ A.dropLast → (line_at H x).next = (line_at c.heap x).next := by
    intro x hx
    have hxA : x ∈ A := List.mem_of_mem_dropLast hx
    have h1 : x ≠ p := fun e => hpA (e ▸ hxA)
    have h2 : a ≠ x := fun e => ne_last_of_mem_dropLast hndA ha hx e.symm
    simp [hnx, h1, hprev, h2]
  have hnx_B : ∀ x, x ∈ B → (line_at H x).next = (line_at c.heap x).next := by
    intro x hx
    have h1 : x ≠ p := fun e => hpB (e ▸ hx)
    have h2 : a ≠ x := fun e => hAB a haA (e ▸ hx)
    simp [hnx, h1, hprev, h2]
  have hpv_A : ∀ y, y ∈ A.tail → (line_at H y).prev = (line_at c.heap y).prev := by
    intro y hy
    have hyA : y ∈ A := List.mem_of_mem_tail hy
    have h1 : y ≠ p := fun e => hpA (e ▸ hyA)
    have h2 : hd ≠ y := fun e => ne_head_of_mem_tail hndA hhd hy e.symm
    have h3 : ¬ (B.head? = some y) := fun e => hAB y hyA (List.mem_of_mem_head? e)
    simp [hpv, h1, hhead, h2, hnext, h3]
  have hpv_B : ∀ y, y ∈ B.tail → (line_at H y).prev = (line_at c.heap y).prev := by
    intro y hy
    have hyB : y ∈ B := List.mem_of_mem_tail hy
    have h1 : y ≠ p := fun e => hpB (e ▸ hyB)
    have h2 : hd ≠ y := fun e => hAB hd hhdA (e ▸ hyB)
    have h3 : ¬ (B.head? = some y) := fun e => ne_head_of_mem_tail hndB e hy rfl
    simp [hpv, h1, hhead, h2, hnext, h3]
  refine ⟨H, _, hmv, hlen, htag, hdata, ?_, ?_⟩
  · intro x hx
    have h1 : x ≠ p := fun e => hx (by simp [e])
    have h2 : a ≠ x := fun e => hx (by simp [← e, haA])
    have h3 : hd ≠ x := fun e => hx (by simp [← e, hhdA])
    have h4 : ¬ (B.head? = some x) := fun e => hx (by simp [List.mem_of_mem_head? e])
    exact line_t_ext (htag x) (hdata x) (by simp [hpv, h1, hhead, h3, hnext, h4])
      (by simp [hnx, h1, hprev, h2])
  · have hch := List.chain'_append.mp r.chain
    refine ⟨?_, ?_, rfl, ?_, ?_, ?_, ?_⟩
    · exact (List.perm_middle.nodup_iff).mp hnd
    · intro x hx
      rw [hlen]
      exact hvalid x (by simp at hx ⊢; tauto)
    · show (if some p = s.tail then (line_at c.heap p).prev else s.tail) = _
      cases B with
      | nil =>
        have : (p :: (A ++ [])).getLast? = some a := by
          rw [List.append_nil]; exact getLast?_cons_some p ha
        rw [this]
        simp [htail, hprev]
      | cons b B2 =>
        have hne : ¬ (some p = s.tail) := by
          rw [htail, List.getLast?_cons_cons]
          intro e
          exact hpB (List.mem_of_mem_getLast? e.symm)
        have : (p :: (A ++ b :: B2)).getLast? = (b :: B2).getLast? := by
          rw [← List.cons_append]; exact getLast?_append_cons _ b B2
        rw [if_neg hne, htail, this, List.getLast?_cons_cons]
    · rw [List.chain'_cons']
      refine ⟨?_, ?_⟩
      · intro y hy
        have hy2 : y = hd := by
          simp [List.head?_append, hhd] at hy
          exact hy.symm
        subst hy2
        refine ⟨?_, ?_⟩
        · simp [hnx, hhead]
        · simp [hpv, hhead]
      · rw [List.chain'_append]
        refine ⟨chain_frame A hch.1 hnx_A hpv_A, ?_, ?_⟩
        · exact chain_frame B (List.Chain'.tail hch.2.1)
            (fun x hx => hnx_B x (List.mem_of_mem_dropLast hx)) hpv_B
        · intro x hx y hy
          have hxa : x = a := by rw [ha] at hx; simpa using hx.symm
          subst hxa
          have hyB : y ∈ B := List.mem_of_mem_head? hy
          have h1 : x ≠ p := fun e => hpA (e ▸ haA)
          have h2 : y ≠ p := fun e => hpB (e ▸ hyB)
          have h3 : hd ≠ y := fun e => hAB hd hhdA (e ▸ hyB)
          have hy3 : B.head? = some y := hy
          refine ⟨?_, ?_⟩
          · simp [hnx, h1, hprev, hnext, hy3]
          · simp [hpv, h2, hhead, h3, hnext, hy3, hprev]
    · intro x hx
      have hxp : x = p := by simpa using hx.symm
      subst hxp
      have h3 : hd ≠ x := fun e => hpA (e ▸ hhdA)
      simp [hpv, hhead, h3]
    · intro z hz
      cases B with
      | nil =>
        have : (p :: (A ++ [])).getLast? = some a := by
          rw [List.append_nil]; exact getLast?_cons_some p ha
        rw [this] at hz
        have hza : z = a := by simpa using hz.symm
        subst hza
        have h1 : z ≠ p := fun e => hpA (e ▸ haA)
        simp [hnx, h1, hprev, hnext]
      | cons b B2 =>
        have : (p :: (A ++ b :: B2)).getLast? = (b :: B2).getLast? := by
          rw [← List.cons_append]; exact getLast?_append_cons _ b B2
        rw [this] at hz
        have hzB : z ∈ b :: B2 := List.mem_of_mem_getLast? hz
        rw [hnx_B z hzB]
        apply r.last
        rw [List.getLast?_append]
        have : (p :: b :: B2).getLast? = some z := by rw [List.getLast?_cons_cons]; exact hz
        simp [this]

theorem set_lines_eq_of_rep {c : cache_t1} {i : Nat} {s : set_t} {ps : List Nat}
    (hs : c.sets[i]? = some s) (r : SetRep c.heap s ps) : set_lines c i = ps := by
  unfold set_lines
  rw [hs]
  exact r.walk_eq

theorem SetRep.frame {h h2 : List line_t} {s : set_t} {ps : List Nat} (r : SetRep h s ps)
    (hlen : h2.length = h.length)
    (hfr : ∀ x ∈ ps, (line_at h2 x).next = (line_at h x).next ∧
      (line_at h2 x).prev = (line_at h x).prev) :
    SetRep h2 s ps := by
  refine ⟨r.nodup, ?_, r.head_eq, r.tail_eq, ?_, ?_, ?_⟩
  · intro p hp; rw [hlen]; exact r.valid p hp
  · exact chain_frame ps r.chain
      (fun x hx => (hfr x (List.mem_of_mem_dropLast hx)).1)
      (fun y hy => (hfr y (List.mem_of_mem_tail hy)).2)
  · intro p hp; rw [(hfr p (List.mem_of_mem_head? hp)).2]; exact r.first p hp
  · intro p hp; rw [(hfr p (List.mem_of_mem_getLast? hp)).1]; exact r.last p hp

theorem Inv.of_reorder {c c1 : cache_t1} (hinv : Inv c) (i : Nat) (s1 : set_t) (ps : List Nat)
    (hsc : c1.set_cnt = c.set_cnt) (hlc : c1.line_cnt = c.line_cnt)
    (hls : c1.line_size = c.line_size)
    (hlen : c1.heap.length = c.heap.length) (hslen : c1.sets.length = c.sets.length)
    (hs1 : c1.sets[i]? = some s1) (hrep : SetRep c1.heap s1 ps)
    (hperm : ps.Perm (set_lines c i))
    (hoth : ∀ j, j ≠ i → c1.sets[j]? = c.sets[j]?)
    (hframe : ∀ x, x ∉ set_lines c i → line_at c1.heap x = line_at c.heap x)
    (hbuf : ∀ x, (line_at c1.heap x).data.length = (line_at c.heap x).data.length)
    (huniq : ∀ p ∈ ps, ∀ q ∈ ps, p ≠ q →
      (line_at c1.heap p).tag = (line_at c1.heap q).tag → (line_at c1.heap p).tag = INVALID_TAG) :
    Inv c1 ∧ set_lines c1 i = ps ∧ ∀ j, j ≠ i → set_lines c1 j = set_lines c j := by
  have hi : set_lines c1 i = ps := set_lines_eq_of_rep hs1 hrep
  have hj : ∀ j, j ≠ i → set_lines c1 j = set_lines c j := by
    intro j hji
    cases hsj : c.sets[j]? with
    | none => simp [set_lines, hoth j hji, hsj]
    | some s =>
      have r := hinv.rep j s hsj
      have r2 : SetRep c1.heap s (set_lines c j) := r.frame hlen
        (fun x hx => by rw [hframe x (fun hxi => hinv.disj j i hji x hx hxi)]; exact ⟨rfl, rfl⟩)
      exact set_lines_eq_of_rep ((hoth j hji).trans hsj) r2
  have hlines : ∀ j, set_lines c1 j = if j = i then ps else set_lines c j := by
    intro j
    by_cases hji : j = i
    · subst hji; simp [hi]
    · simp [hji, hj j hji]
  refine ⟨⟨?_, ?_, ?_, ?_, ?_, ?_⟩, hi, hj⟩
  · rw [hslen, hsc]; exact hinv.sets_len
  · intro j s hs
    by_cases hji : j = i
    · subst hji
      rw [hs1] at hs; cases hs
      rw [hi]; exact hrep
    · rw [hj j hji]
      rw [hoth j hji] at hs
      exact (hinv.rep j s hs).frame hlen
        (fun x hx => by rw [hframe x (fun hxi => hinv.disj j i hji x hx hxi)]; exact ⟨rfl, rfl⟩)
  · intro j hjlt
    rw [hsc] at hjlt
    rw [hlc, hlines]
    split_ifs with hji
    · rw [hperm.length_eq]; subst hji; exact hinv.cnt _ hjlt
    · exact hinv.cnt j hjlt
  · intro j k hjk x hx hx2
    rw [hlines] at hx hx2
    split_ifs at hx hx2 with h1 h2 h2
    · exact hjk (h1.trans h2.symm)
    · exact hinv.disj i k (fun e => h2 e.symm) x (hperm.subset hx) hx2
    · exact hinv.disj j i h1 x hx (hperm.subset hx2)
    · exact hinv.disj j k hjk x hx hx2
  · intro p hp
    rw [hbuf, hls]
    exact hinv.buf p (hlen ▸ hp)
  · intro j p hp q hq hpq htag
    rw [hlines] at hp hq
    split_ifs at hp hq with hji
    · exact huniq p hp q hq hpq htag
    · have hp2 : p ∉ set_lines c i := fun h => hinv.disj j i hji p hp h
      have hq2 : q ∉ set_lines c i := fun h => hinv.disj j i hji q hq h
      rw [hframe p hp2] at htag ⊢
      rw [hframe q hq2] at htag
      exact hinv.uniq j p hp q hq hpq htag

theorem Step.refl {c : cache_t1} (hinv : Inv c) (i : Nat) : Step c c i (set_lines c i) :=
  ⟨hinv, rfl, rfl, rfl, rfl, rfl, rfl, List.Perm.refl _, fun _ _ => rfl, fun _ _ => rfl,
    fun _ _ => rfl⟩

theorem move_to_head_inv {c : cache_t1} (hinv : Inv c) (i : Nat) (s : set_t)
    (hs : c.sets[i]? = some s) (A B : List Nat) (p : Nat) (hps : set_lines c i = A ++ p :: B) :
    ∃ c1, move_to_head c i (some p) = .ok c1 ∧ Step c c1 i (p :: (A ++ B)) ∧
      (∀ x, (line_at c1.heap x).tag = (line_at c.heap x).tag) ∧
      (∀ x, (line_at c1.heap x).data = (line_at c.heap x).data) := by
  have r := hinv.rep i s hs
  rw [hps] at r
  by_cases hA : A = []
  · subst hA
    refine ⟨c, ?_, ?_, fun _ => rfl, fun _ => rfl⟩
    · have : s.head = some p := by rw [r.head_eq]; simp
      simp [move_to_head, get_set, hs, ok_bind, this, pure_eq_ok]
    · have := Step.refl hinv i
      rw [hps] at this
      simpa using this
  · obtain ⟨H, s1, hmv, hlen, htag, hdata, hfr, hrep⟩ := move_to_head_rep c i s A B p hs r hA
    have hilt : i < c.sets.length := by
      rcases Nat.lt_or_ge i c.sets.length with h | h
      · exact h
      · rw [List.getElem?_eq_none h] at hs; cases hs
    have hperm : (p :: (A ++ B)).Perm (set_lines c i) := by
      rw [hps]; exact List.perm_middle.symm
    have hoth : ∀ j, j ≠ i → (c.sets.set i s1)[j]? = c.sets[j]? := by
      intro j hji
      exact List.getElem?_set_ne (fun e => hji e.symm)
    have hframe : ∀ x, x ∉ set_lines c i → line_at H x = line_at c.heap x := by
      intro x hx; rw [hps] at hx; exact hfr x hx
    obtain ⟨hinv1, hl1, hl2⟩ := @Inv.of_reorder c { c with heap := H, sets := c.sets.set i s1 }
      hinv i s1 (p :: (A ++ B)) rfl rfl rfl hlen (by simp)
      (by simp [List.getElem?_set_self hilt]) hrep hperm hoth hframe
      (fun x => by rw [hdata])
      (by
        intro x hx y hy hxy hxt
        simp only [htag] at hxt ⊢
        exact hinv.uniq i x (hperm.subset hx) y (hperm.subset hy) hxy hxt)
    exact ⟨_, hmv, ⟨hinv1, rfl, rfl, rfl, rfl, hlen, hl1, hperm, hl2, hoth, hframe⟩, htag, hdata⟩

theorem Inv.of_upd {c : cache_t1} (hinv : Inv c) (i : Nat) (z : Nat) (hz : z ∈ set_lines c i)
    (f : line_t → line_t) (hprev : ∀ l, (f l).prev = l.prev) (hnext : ∀ l, (f l).next = l.next)
    (hbuf : (f (line_at c.heap z)).data.length = c.line_size)
    (huniq : ∀ q ∈ set_lines c i, q ≠ z → (line_at c.heap q).tag = (f (line_at c.heap z)).tag →
      (f (line_at c.heap z)).tag = INVALID_TAG) :
    Step c { c with heap := upd c.heap z f } i (set_lines c i) := by
  obtain ⟨s, hs⟩ : ∃ s, c.sets[i]? = some s := by
    cases h : c.sets[i]? with
    | none => simp [set_lines, h] at hz
    | some s => exact ⟨s, rfl⟩
  have r := hinv.rep i s hs
  have hzlt : z < c.heap.length := r.valid z hz
  have hframe : ∀ x, x ∉ set_lines c i → line_at (upd c.heap z f) x = line_at c.heap x := by
    intro x hx
    have : x ≠ z := fun e => hx (e ▸ hz)
    simp [line_at_upd hzlt, this]
  have hrep : SetRep (upd c.heap z f) s (set_lines c i) := r.frame (length_upd _ _ _) (by
    intro x _
    rw [line_at_upd hzlt]
    split_ifs with h
    · subst h; exact ⟨hnext _, hprev _⟩
    · exact ⟨rfl, rfl⟩)
  obtain ⟨hinv1, hl1, hl2⟩ := @Inv.of_reorder c { c with heap := upd c.heap z f }
    hinv i s (set_lines c i) rfl rfl rfl (length_upd _ _ _) rfl hs hrep (List.Perm.refl _)
    (fun _ _ => rfl) hframe
    (by
      intro x
      rw [line_at_upd hzlt]
      split_ifs with h
      · subst h; rw [hbuf, hinv.buf x hzlt]
      · rfl)
    (by
      intro x hx y hy hxy
      simp only [line_at_upd hzlt]
      split_ifs with h1 h2 h2
      · exact fun _ => absurd (h1.trans h2.symm) hxy
      · intro e; exact huniq y hy h2 e.symm
      · intro e; rw [e]; exact huniq x hx h1 e
      · exact hinv.uniq i x hx y hy hxy)
  exact ⟨hinv1, rfl, rfl, rfl, rfl, length_upd _ _ _, hl1, List.Perm.refl _, hl2, fun _ _ => rfl,
    hframe⟩

theorem Step.trans {c c1 c2 : cache_t1} {i : Nat} {ps ps2 : List Nat} (h1 : Step c c1 i ps)
    (h2 : Step c1 c2 i ps2) : Step c c2 i ps2 := by
  have hl := h1.lines
  refine ⟨h2.inv, h2.word_size.trans h1.word_size, h2.set_cnt.trans h1.set_cnt,
    h2.line_cnt.trans h1.line_cnt, h2.line_size.trans h1.line_size,
    h2.heap_len.trans h1.heap_len, h2.lines, ?_, ?_, ?_, ?_⟩
  · exact (h2.perm.trans (hl ▸ h1.perm))
  · intro j hj; rw [h2.others j hj, h1.others j hj]
  · intro j hj; rw [h2.sets_others j hj, h1.sets_others j hj]
  · intro x hx
    have hx1 : x ∉ set_lines c1 i := by
      rw [hl]; exact fun h => hx (h1.perm.subset h)
    rw [h2.frame x hx1, h1.frame x hx]

theorem upd_upd (h : List line_t) (z : Nat) (f g : line_t → line_t) :
    upd (upd h z f) z g = upd h z (fun l => g (f l)) := by
  apply List.ext_getElem?
  intro n
  simp only [getElem?_upd]
  split_ifs with hn
  · simp; rfl
  · rfl

theorem mishandling_inv (next_level : Nat → Nat → Byte) {c : cache_t1} (hinv : Inv c) (i : Nat)
    (s : set_t) (hs : c.sets[i]? = some s) (hne : set_lines c i ≠ []) (t a : Nat)
    (hmiss : ∀ x ∈ set_lines c i, (line_at c.heap x).tag ≠ t) :
    ∃ c1 A z, set_lines c i = A ++ [z] ∧ mishandling next_level c i t a = .ok c1 ∧
      Step c c1 i (z :: A) ∧
      (line_at c1.heap z).tag = t ∧
      (line_at c1.heap z).data = load_block_from_next_level next_level a (line_at c.heap z).data ∧
      (∀ x, x ≠ z → (line_at c1.heap x).tag = (line_at c.heap x).tag ∧
        (line_at c1.heap x).data = (line_at c.heap x).data) := by
  obtain ⟨A, z, hAz⟩ : ∃ A z, set_lines c i = A ++ [z] := by
    rcases List.eq_nil_or_concat (set_lines c i) with h | ⟨L, b, h⟩
    · exact absurd h hne
    · exact ⟨L, b, by simpa using h⟩
  have r := hinv.rep i s hs
  have htail : s.tail = some z := by rw [r.tail_eq, hAz]; simp
  obtain ⟨c1, hmv, hstep, htag, hdata⟩ := move_to_head_inv hinv i s hs A [] z hAz
  rw [List.append_nil] at hstep
  have hz1 : z ∈ set_lines c1 i := by rw [hstep.lines]; simp
  have hzc : z ∈ set_lines c i := by rw [hAz]; simp
  have hzlt : z < c1.heap.length := by rw [hstep.heap_len]; exact r.valid z hzc
  let f : line_t → line_t := fun l =>
    { tag := t, data := load_block_from_next_level next_level a l.data, prev := l.prev,
      next := l.next }
  have hstep2 := Inv.of_upd hstep.inv i z hz1 f (fun _ => rfl) (fun _ => rfl)
    (by
      show (load_block_from_next_level next_level a (line_at c1.heap z).data).length = _
      simp only [load_block_from_next_level, List.length_map, List.length_range]
      rw [hstep.inv.buf z hzlt])
    (by
      intro q hq _ hqt
      exfalso
      rw [hstep.lines] at hq
      rw [htag] at hqt
      exact hmiss q (hstep.perm.subset hq) hqt)
  refine ⟨{ c1 with heap := upd c1.heap z f }, A, z, hAz, ?_, hstep.trans (hstep.lines ▸ hstep2), ?_, ?_, ?_⟩
  · unfold mishandling
    simp only [get_set, hs, ok_bind, htail, hmv, deref, wr_eq, hzlt, length_upd, if_true,
      pure_eq_ok, upd_upd]
  · show (line_at (upd c1.heap z f) z).tag = t
    simp [line_at_upd hzlt, f]
  · show (line_at (upd c1.heap z f) z).data = _
    simp [line_at_upd hzlt, f, hdata]
  · intro x hx
    show (line_at (upd c1.heap z f) x).tag = _ ∧ (line_at (upd c1.heap z f) x).data = _
    simp [line_at_upd hzlt, hx, htag, hdata]

theorem split_addr_ok {c : cache_t1} (hsc : 1 ≤ c.set_cnt) (hls : 1 ≤ c.line_size) (a : Nat) :
    split_addr c a = .ok (a / c.line_size / c.set_cnt, a / c.line_size % c.set_cnt,
      a % c.line_size) := by
  unfold split_addr
  rw [if_neg (by omega), if_neg (by omega)]

theorem Inv.get_set_ok {c : cache_t1} (hinv : Inv c) {i : Nat} (hi : i < c.set_cnt) :
    ∃ s, c.sets[i]? = some s ∧ get_set c i = .ok s := by
  have hlt : i < c.sets.length := by rw [hinv.sets_len]; exact hi
  refine ⟨c.sets[i], List.getElem?_eq_getElem hlt, ?_⟩
  simp [get_set, List.getElem?_eq_getElem hlt]

theorem resolve_spec (next_level : Nat → Nat → Byte) {c : cache_t1} (hinv : Inv c)
    (hsc : 1 ≤ c.set_cnt) (hlc : 1 ≤ c.line_cnt) (hls : 1 ≤ c.line_size) (a : Nat) :
    (∃ A p B c1, resolve next_level c a = .ok (c1, some p, []) ∧
      IsHit c c1 (a / c.line_size % c.set_cnt) (a / c.line_size / c.set_cnt) A p B) ∨
    (∃ A z c1, resolve next_level c a = .ok (c1, some z, [a]) ∧
      IsMiss next_level c c1 (a / c.line_size % c.set_cnt) (a / c.line_size / c.set_cnt) a A z) := by
  have hi : a / c.line_size % c.set_cnt < c.set_cnt := Nat.mod_lt _ (by omega)
  obtain ⟨s, hs, hgs⟩ := hinv.get_set_ok hi
  have r := hinv.rep _ s hs
  have hfl := r.find_line_eq (a / c.line_size / c.set_cnt)
  cases hf : (set_lines c (a / c.line_size % c.set_cnt)).find?
      (fun p => decide ((line_at c.heap p).tag = a / c.line_size / c.set_cnt)) with
  | some p =>
    left
    obtain ⟨hp, A, B, hAB, hbefore⟩ := List.find?_eq_some.mp hf
    obtain ⟨c1, hmv, hstep, htags, hdata⟩ := move_to_head_inv hinv _ s hs A B p hAB
    refine ⟨A, p, B, c1, ?_, hAB, ?_, by simpa using hp, hstep, htags, hdata⟩
    · unfold resolve
      simp only [split_addr_ok hsc hls, ok_bind, hgs, hfl, hf, hmv, pure_eq_ok]
      simp
    · intro x hx
      simpa using hbefore x hx
  | none =>
    right
    have habs : ∀ x ∈ set_lines c (a / c.line_size % c.set_cnt),
        (line_at c.heap x).tag ≠ a / c.line_size / c.set_cnt := by
      intro x hx
      simpa using List.find?_eq_none.mp hf x hx
    have hne : set_lines c (a / c.line_size % c.set_cnt) ≠ [] := by
      intro h
      have := hinv.cnt _ hi
      rw [h] at this
      simp at this
      omega
    obtain ⟨c1, A, z, hAz, hmis, hstep, htag, hdata, hrest⟩ :=
      mishandling_inv next_level hinv _ s hs hne (a / c.line_size / c.set_cnt) a habs
    have hi1 : a / c.line_size % c.set_cnt < c1.set_cnt := by rw [hstep.set_cnt]; exact hi
    obtain ⟨s1, hs1, hgs1⟩ := hstep.inv.get_set_ok hi1
    have r1 := hstep.inv.rep _ s1 hs1
    have hfl1 := r1.find_line_eq (a / c.line_size / c.set_cnt)
    rw [hstep.lines] at hfl1
    refine ⟨A, z, c1, ?_, hAz, habs, hstep, htag, hdata, hrest⟩
    unfold resolve
    simp only [split_addr_ok hsc hls, ok_bind, hgs, hfl, hf, hmis, pure_eq_ok, hgs1, hfl1]
    simp [List.find?, htag]

/-! ## The operations -/

theorem cache_load_word_eq {F : Frame} (next_level : Nat → Nat → Byte) (c : cache_t1) (a : Nat) :
    cache_load_word F next_level c a = (do
      let (_, _, offset) ← split_addr c a
      let (c1, line, fills) ← resolve next_level c a
      let p ← deref line
      let l ← rd c1.heap p
      let word ← read_bytes l.data (F.offset offset % c1.line_size) (c1.word_size / 8)
      return { cache := c1, out := word, fills := fills }) := by
  unfold cache_load_word resolve
  rcases h1 : split_addr c a with e | ⟨t, i, off⟩
  · rfl
  simp only [ok_bind]
  rcases h2 : get_set c i with e | s
  · rfl
  simp only [ok_bind]
  rcases h3 : find_line c.heap s t with e | line
  · rfl
  simp only [ok_bind]
  cases line with
  | some p =>
    simp only [ne_eq, reduceCtorEq, not_false_eq_true, if_true]
    rcases h4 : move_to_head c i (some p) with e | c1
    · rfl
    rfl
  | none =>
    simp only [ne_eq, not_true_eq_false, if_false]
    rcases h4 : mishandling next_level c i t a with e | c1
    · rfl
    simp only [ok_bind]
    rcases h5 : get_set c1 i with e | s1
    · rfl
    simp only [ok_bind]
    rcases h6 : find_line c1.heap s1 t with e | line
    · rfl
    rfl

theorem cache_load_block_eq (next_level : Nat → Nat → Byte) (c : cache_t1) (a size : Nat) :
    cache_load_block next_level c a size = (do
      let (c1, line, fills) ← resolve next_level c a
      let p ← deref line
      let l ← rd c1.heap p
      let block ← read_bytes l.data 0 size
      return { cache := c1, out := block, fills := fills }) := by
  unfold cache_load_block resolve
  rcases h1 : split_addr c a with e | ⟨t, i, off⟩
  · rfl
  simp only [ok_bind]
  rcases h2 : get_set c i with e | s
  · rfl
  simp only [ok_bind]
  rcases h3 : find_line c.heap s t with e | line
  · rfl
  simp only [ok_bind]
  cases line with
  | some p =>
    simp only [ne_eq, reduceCtorEq, not_false_eq_true, if_true]
    rcases h4 : move_to_head c i (some p) with e | c1
    · rfl
    rfl
  | none =>
    simp only [ne_eq, not_true_eq_false, if_false]
    rcases h4 : mishandling next_level c i t a with e | c1
    · rfl
    simp only [ok_bind]
    rcases h5 : get_set c1 i with e | s1
    · rfl
    simp only [ok_bind]
    rcases h6 : find_line c1.heap s1 t with e | line
    · rfl
    rfl

theorem cache_store_word_eq {F : Frame} (next_level : Nat → Nat → Byte) (c : cache_t1) (a : Nat)
    (w : List Byte) :
    cache_store_word F next_level c a w = (do
      let (_, _, offset) ← split_addr c a
      let (c1, line, fills) ← resolve next_level c a
      let p ← deref line
      let l ← rd c1.heap p
      let data ← write_bytes l.data (F.offset offset % c1.line_size) (c1.word_size / 8) w
      let h ← wr c1.heap p (fun x => { x with data := data })
      return { cache := { c1 with heap := h }, out := [], fills := fills }) := by
  unfold cache_store_word resolve
  rcases h1 : split_addr c a with e | ⟨t, i, off⟩
  · rfl
  simp only [ok_bind]
  rcases h2 : get_set c i with e | s
  · rfl
  simp only [ok_bind]
  rcases h3 : find_line c.heap s t with e | line
  · rfl
  simp only [ok_bind]
  cases line with
  | some p =>
    simp only [ne_eq, reduceCtorEq, not_false_eq_true, if_true]
    rcases h4 : move_to_head c i (some p) with e | c1
    · rfl
    rfl
  | none =>
    simp only [ne_eq, not_true_eq_false, if_false]
    rcases h4 : mishandling next_level c i t a with e | c1
    · rfl
    simp only [ok_bind]
    rcases h5 : get_set c1 i with e | s1
    · rfl
    simp only [ok_bind]
    rcases h6 : find_line c1.heap s1 t with e | line
    · rfl
    rfl

/-! ## `cache_new` -/

theorem line_at_append (h : List line_t) (l : line_t) (x : Nat) :
    line_at (h ++ [l]) x = if x < h.length then line_at h x
      else if x = h.length then l else line_at h x := by
  unfold line_at
  split_ifs with h1 h2
  · rw [List.getElem?_append_left h1]
  · subst h2; simp
  · have h3 : h.length < x := by omega
    rw [List.getElem?_eq_none (by simp; omega), List.getElem?_eq_none (by omega)]

theorem SetRep.singleton (h : List line_t) (new : line_t) (hp : new.prev = none)
    (hn : new.next = none) :
    SetRep (h ++ [new]) { head := some h.length, tail := some h.length } [h.length] := by
  have hl : line_at (h ++ [new]) h.length = new := by simp [line_at_append]
  refine ⟨by simp, by simp, rfl, rfl, List.chain'_singleton _, ?_, ?_⟩
  · intro p hp2
    have : p = h.length := by simpa using hp2.symm
    subst this; rw [hl]; exact hp
  · intro p hp2
    have : p = h.length := by simpa using hp2.symm
    subst this; rw [hl]; exact hn

theorem SetRep.snoc {h : List line_t} {s : set_t} {ps : List Nat} (r : SetRep h s ps) (q : Nat)
    (hq : ps.getLast? = some q) (new : line_t) (hp : new.prev = some q) (hn : new.next = none) :
    SetRep (upd (h ++ [new]) q (fun x => { x with next := some h.length }))
      { s with tail := some h.length } (ps ++ [h.length]) := by
  have hqm : q ∈ ps := List.mem_of_mem_getLast? hq
  have hqlt : q < h.length := r.valid q hqm
  have hqlt2 : q < (h ++ [new]).length := by simp; omega
  have hne : ps ≠ [] := fun e => by simp [e] at hqm
  have hline : ∀ x, line_at (upd (h ++ [new]) q (fun x => { x with next := some h.length })) x
      = if x = q then { line_at h q with next := some h.length }
        else if x = h.length then new else line_at h x := by
    intro x
    rw [line_at_upd hqlt2, line_at_append, line_at_append]
    by_cases hxq : x = q
    · subst hxq; simp [hqlt]
    · simp only [hxq, if_false]
      split_ifs <;> first | rfl | omega
  have hnot : h.length ∉ ps := fun hm => Nat.lt_irrefl _ (r.valid _ hm)
  refine ⟨?_, ?_, ?_, ?_, ?_, ?_, ?_⟩
  · rw [List.nodup_append]
    refine ⟨r.nodup, by simp, ?_⟩
    intro x hx hx2
    have : x = h.length := by simpa using hx2
    exact hnot (this ▸ hx)
  · intro x hx
    rw [length_upd]
    simp at hx ⊢
    rcases hx with hx | hx
    · have := r.valid x hx; omega
    · omega
  · show s.head = _
    rw [r.head_eq, List.head?_append]
    cases hh : ps.head? with
    | none => cases ps with
      | nil => exact absurd rfl hne
      | cons a t => simp at hh
    | some a => simp
  · show some h.length = _
    simp
  · rw [List.chain'_append]
    refine ⟨chain_frame ps r.chain ?_ ?_, List.chain'_singleton _, ?_⟩
    · intro x hx
      have hxq : x ≠ q := ne_last_of_mem_dropLast r.nodup hq hx
      have hxl : x ≠ h.length := fun e => hnot (e ▸ List.mem_of_mem_dropLast hx)
      rw [hline]; simp [hxq, hxl]
    · intro y hy
      have hyl : y ≠ h.length := fun e => hnot (e ▸ List.mem_of_mem_tail hy)
      rw [hline]
      by_cases hyq : y = q
      · subst hyq; simp
      · simp [hyq, hyl]
    · intro x hx y hy
      have hxq : x = q := by rw [hq] at hx; simpa using hx.symm
      have hyl : y = h.length := by simpa using hy.symm
      subst hxq hyl
      refine ⟨?_, ?_⟩
      · rw [hline]; simp
      · rw [hline]
        have : h.length ≠ x := fun e => hnot (e ▸ hqm)
        simp [this, hp]
  · intro x hx
    have hx2 : ps.head? = some x := by
      rw [List.head?_append] at hx
      cases hh : ps.head? with
      | none => cases ps with
        | nil => exact absurd rfl hne
        | cons a t => simp at hh
      | some a => rw [hh] at hx; simpa using hx
    have hxm : x ∈ ps := List.mem_of_mem_head? hx2
    have hxl : x ≠ h.length := fun e => hnot (e ▸ hxm)
    rw [hline]
    by_cases hxq : x = q
    · subst hxq; simpa using r.first x hx2
    · simpa [hxq, hxl] using r.first x hx2
  · intro x hx
    have hxl : x = h.length := by simpa using hx.symm
    subst hxl
    rw [hline]
    have : h.length ≠ q := fun e => hnot (e ▸ hqm)
    simp [this, hn]

theorem cache_new_line_inv (uninit : Nat → Nat → Byte) (line_size i : Nat) (h0 : List line_t)
    (ss0 : List set_t) (j : Nat) (st : List line_t × List set_t × Option Nat)
    (hi : i < ss0.length) (hst : NewLineInv line_size i h0 ss0 j st) (jj : Nat) :
    NewLineInv line_size i h0 ss0 (j + 1) (cache_new_line uninit line_size i st jj) := by
  obtain ⟨heap, sets, prev_line⟩ := st
  obtain ⟨hlen, hslen, hprev, ⟨s, hs, r⟩, hoth, hold, hfresh⟩ := hst
  simp only at hlen hslen hprev hs r hoth hold hfresh
  have hilt : i < sets.length := by rw [hslen]; exact hi
  by_cases hj : j = 0
  · subst hj
    simp only [if_true] at hprev
    subst hprev
    have h0l : h0.length = heap.length := by omega
    refine ⟨by simp [cache_new_line]; omega, by simp [cache_new_line, length_upd, hslen],
      by simp [cache_new_line, h0l], ?_, ?_, ?_, ?_⟩
    · refine ⟨{ head := some heap.length, tail := some heap.length }, ?_, ?_⟩
      · simp [cache_new_line, getElem?_upd, hs]
      · simp only [cache_new_line, h0l]
        exact SetRep.singleton heap _ rfl rfl
    · intro k hk
      simp [cache_new_line, getElem?_upd, hk, hoth k hk]
    · intro x hx
      simp only [cache_new_line, line_at_append]
      rw [if_pos (by omega)]
      exact hold x hx
    · intro x hx1 hx2
      have : x = heap.length := by omega
      subst this
      simp [cache_new_line, line_at_append]
  · simp only [hj, if_false] at hprev
    subst hprev
    have hq : (List.range' h0.length j).getLast? = some (h0.length + j - 1) := by
      obtain ⟨k, rfl⟩ : ∃ k, j = k + 1 := ⟨j - 1, by omega⟩
      rw [List.range'_concat]
      simp
    have hqlt : ∀ l : line_t, h0.length + j - 1 < (heap ++ [l]).length := by
      intro l; simp; omega
    refine ⟨by simp [cache_new_line, length_upd]; omega, by simp [cache_new_line, length_upd, hslen],
      ?_, ?_, ?_, ?_, ?_⟩
    · simp [cache_new_line]; omega
    · refine ⟨{ s with tail := some heap.length }, ?_, ?_⟩
      · simp [cache_new_line, getElem?_upd, hs]
      · simp only [cache_new_line]
        have := r.snoc (h0.length + j - 1) hq
          ⟨INVALID_TAG, (List.range line_size).map (uninit heap.length),
            some (h0.length + j - 1), none⟩ rfl rfl
        rw [List.range'_concat]
        simpa [hlen] using this
    · intro k hk
      simp [cache_new_line, getElem?_upd, hk, hoth k hk]
    · intro x hx
      simp only [cache_new_line]
      rw [line_at_upd (hqlt _), line_at_append, line_at_append]
      have hxl : x < heap.length := by omega
      by_cases hxq : x = h0.length + j - 1
      · omega
      · simp only [hxq, if_false, hxl, if_true]
        exact hold x hx
    · intro x hx1 hx2
      simp only [cache_new_line]
      rw [line_at_upd (hqlt _), line_at_append, line_at_append]
      by_cases hxq : x = h0.length + j - 1
      · have hxl : h0.length + j - 1 < heap.length := by omega
        simp only [hxq, if_true, hxl]
        exact hfresh (h0.length + j - 1) (by omega) (by omega)
      · simp only [hxq, if_false]
        by_cases hxl : x < heap.length
        · simp only [hxl, if_true]
          exact hfresh x hx1 (by omega)
        · have : x = heap.length := by omega
          subst this
          simp

theorem cache_new_lines_inv (uninit : Nat → Nat → Byte) (line_size i : Nat) (h0 : List line_t)
    (ss0 : List set_t) (hi : i < ss0.length)
    (h00 : NewLineInv line_size i h0 ss0 0 (h0, ss0, none)) (n : Nat) :
    NewLineInv line_size i h0 ss0 n
      ((List.range n).foldl (cache_new_line uninit line_size i) (h0, ss0, none)) := by
  induction n with
  | zero => simpa using h00
  | succ n ih =>
    rw [List.range_succ, List.foldl_append]
    exact cache_new_line_inv uninit line_size i h0 ss0 n _ hi ih n

theorem cache_new_set_inv (uninit : Nat → Nat → Byte) (lines line_size n i : Nat)
    (st : List line_t × List set_t) (hi : i < n) (hst : NewSetInv lines line_size n i st) :
    NewSetInv lines line_size n (i + 1) (cache_new_set uninit lines line_size st i) := by
  obtain ⟨heap, sets⟩ := st
  obtain ⟨hlen, hslen, hrep, hfresh⟩ := hst
  simp only at hlen hslen hrep hfresh
  have hilt : i < sets.length := by omega
  have hs0 : (upd (upd sets i (fun s => { s with head := none })) i
      (fun s => { s with tail := none }))[i]? = some { head := none, tail := none } := by
    simp [getElem?_upd, List.getElem?_eq_getElem hilt]
  have h00 : NewLineInv line_size i heap (upd (upd sets i (fun s => { s with head := none })) i
      (fun s => { s with tail := none })) 0 (heap, upd (upd sets i (fun s => { s with head := none })) i
      (fun s => { s with tail := none }), none) := by
    refine ⟨rfl, rfl, rfl, ⟨_, hs0, ?_⟩, fun _ _ => rfl, fun _ _ => rfl, ?_⟩
    · exact ⟨List.nodup_nil, by simp, rfl, rfl, List.chain'_nil, by simp, by simp⟩
    · intro x h1 h2; omega
  have hin := cache_new_lines_inv uninit line_size i heap _ (by simp [length_upd]; exact hilt)
    h00 lines
  obtain ⟨R, hR⟩ : ∃ R, R = (List.range lines).foldl (cache_new_line uninit line_size i)
      (heap, upd (upd sets i (fun s => { s with head := none })) i
        (fun s => { s with tail := none }), none) := ⟨_, rfl⟩
  have hcs : cache_new_set uninit lines line_size (heap, sets) i = (R.1, R.2.1) := by
    rw [hR]; rfl
  rw [hcs]
  rw [← hR] at hin
  obtain ⟨hl, hsl, _, ⟨s, hs, r⟩, hoth, hold, hfr⟩ := hin
  refine ⟨?_, ?_, ?_, ?_⟩
  · show R.1.length = _
    rw [hl, hlen, Nat.succ_mul]
  · show R.2.1.length = _
    rw [hsl]; simp [length_upd, hslen]
  · intro k hk
    by_cases hki : k = i
    · subst hki
      refine ⟨s, hs, ?_⟩
      rw [← hlen]; exact r
    · obtain ⟨s2, hs2, r2⟩ := hrep k (by omega)
      refine ⟨s2, ?_, ?_⟩
      · show R.2.1[k]? = _
        rw [hoth k hki]
        simp [getElem?_upd, hki, hs2]
      · have hxlt : ∀ x ∈ List.range' (k * lines) lines, x < heap.length := by
          intro x hx
          rw [List.mem_range'] at hx
          obtain ⟨m, hm, rfl⟩ := hx
          have : (k + 1) * lines ≤ i * lines := Nat.mul_le_mul_right lines (by omega)
          rw [Nat.succ_mul] at this
          omega
        refine ⟨r2.nodup, ?_, r2.head_eq, r2.tail_eq, ?_, ?_, ?_⟩
        · intro x hx
          show x < R.1.length
          rw [hl]; have := hxlt x hx; omega
        · exact chain_frame _ r2.chain
            (fun x hx => by
              show (line_at R.1 x).next = _
              rw [hold x (hxlt x (List.mem_of_mem_dropLast hx))])
            (fun x hx => by
              show (line_at R.1 x).prev = _
              rw [hold x (hxlt x (List.mem_of_mem_tail hx))])
        · intro x hx
          show (line_at R.1 x).prev = _
          rw [hold x (hxlt x (List.mem_of_mem_head? hx))]; exact r2.first x hx
        · intro x hx
          show (line_at R.1 x).next = _
          rw [hold x (hxlt x (List.mem_of_mem_getLast? hx))]; exact r2.last x hx
  · intro x hx
    show (line_at R.1 x).tag = _ ∧ _
    by_cases hx2 : x < heap.length
    · rw [hold x hx2]; exact hfresh x hx2
    · have hx3 : x < R.1.length := hx
      rw [hl] at hx3
      exact hfr x (by omega) hx3

theorem cache_new_sets_inv (uninit : Nat → Nat → Byte) (lines line_size n : Nat) (i : Nat)
    (hi : i ≤ n) :
    NewSetInv lines line_size n i ((List.range i).foldl (cache_new_set uninit lines line_size)
      ([], List.replicate n { head := none, tail := none })) := by
  induction i with
  | zero =>
    refine ⟨by simp, by simp, ?_, ?_⟩
    · intro k hk; omega
    · intro x hx; simp at hx
  | succ i ih =>
    rw [List.range_succ, List.foldl_append]
    exact cache_new_set_inv uninit lines line_size n i _ (by omega) (ih (by omega))

theorem cache_new_state (uninit : Nat → Nat → Byte) (word_size sets lines line_size : Nat) :
    NewSetInv lines line_size sets sets
      ((cache_new uninit word_size sets lines line_size).heap,
        (cache_new uninit word_size sets lines line_size).sets) :=
  cache_new_sets_inv uninit lines line_size sets sets (Nat.le_refl _)

theorem cache_new_lines (uninit : Nat → Nat → Byte) (word_size sets lines line_size : Nat)
    (i : Nat) (hi : i < sets) :
    set_lines (cache_new uninit word_size sets lines line_size) i
      = List.range' (i * lines) lines := by
  obtain ⟨s, hs, r⟩ := (cache_new_state uninit word_size sets lines line_size).rep i hi
  exact set_lines_eq_of_rep hs r

theorem cache_new_fresh (uninit : Nat → Nat → Byte) (word_size sets lines line_size : Nat)
    (x : Nat) (hx : x < (cache_new uninit word_size sets lines line_size).heap.length) :
    (line_at (cache_new uninit word_size sets lines line_size).heap x).tag = INVALID_TAG ∧
    (line_at (cache_new uninit word_size sets lines line_size).heap x).data.length = line_size :=
  (cache_new_state uninit word_size sets lines line_size).fresh x hx

theorem cache_new_inv (uninit : Nat → Nat → Byte) (word_size sets lines line_size : Nat) :
    Inv (cache_new uninit word_size sets lines line_size) := by
  have hst := cache_new_state uninit word_size sets lines line_size
  have hslen : (cache_new uninit word_size sets lines line_size).sets.length = sets :=
    hst.sets_len
  have hlines := cache_new_lines uninit word_size sets lines line_size
  have hnone : ∀ i, sets ≤ i →
      set_lines (cache_new uninit word_size sets lines line_size) i = [] := by
    intro i hi
    unfold set_lines
    rw [List.getElem?_eq_none (by rw [hslen]; exact hi)]
  refine ⟨hslen, ?_, ?_, ?_, ?_, ?_⟩
  · intro i s hs
    have hi : i < sets := by
      rcases Nat.lt_or_ge i sets with h | h
      · exact h
      · rw [List.getElem?_eq_none (by rw [hslen]; exact h)] at hs; cases hs
    obtain ⟨s2, hs2, r⟩ := hst.rep i hi
    rw [hs] at hs2; cases hs2
    rw [hlines i hi]; exact r
  · intro i hi
    rw [hlines i hi]; simp; rfl
  · intro i j hij x hx hx2
    rcases Nat.lt_or_ge i sets with hi | hi
    · rcases Nat.lt_or_ge j sets with hj | hj
      · rw [hlines i hi, List.mem_range'] at hx
        rw [hlines j hj, List.mem_range'] at hx2
        obtain ⟨m, hm, rfl⟩ := hx
        obtain ⟨m2, hm2, he⟩ := hx2
        rcases Nat.lt_or_ge i j with h | h
        · have : (i + 1) * lines ≤ j * lines := Nat.mul_le_mul_right lines (by omega)
          rw [Nat.succ_mul] at this
          omega
        · have : (j + 1) * lines ≤ i * lines := Nat.mul_le_mul_right lines (by omega)
          rw [Nat.succ_mul] at this
          omega
      · rw [hnone j hj] at hx2; simp at hx2
    · rw [hnone i hi] at hx; simp at hx
  · intro p hp
    exact (hst.fresh p hp).2
  · intro i p hp q _ _ _
    have hi : i < sets := by
      rcases Nat.lt_or_ge i sets with h | h
      · exact h
      · rw [hnone i h] at hp; simp at hp
    have r := (hst.rep i hi)
    obtain ⟨s, hs, r⟩ := r
    rw [hlines i hi] at hp
    exact (hst.fresh p (r.valid p hp)).1

/-! ## Hits and misses -/

theorem Resolved.lines {next_level : Nat → Nat → Byte} {c c1 : cache_t1} {a : Nat}
    {A B fills : List Nat} {p : Nat} (h : Resolved next_level c c1 a A p B fills) :
    set_lines c (a / c.line_size % c.set_cnt) = A ++ p :: B := by
  rcases h with ⟨h, _⟩ | ⟨rfl, h, _⟩
  · exact h.lines
  · exact h.lines

theorem Resolved.step {next_level : Nat → Nat → Byte} {c c1 : cache_t1} {a : Nat}
    {A B fills : List Nat} {p : Nat} (h : Resolved next_level c c1 a A p B fills) :
    Step c c1 (a / c.line_size % c.set_cnt) (p :: (A ++ B)) := by
  rcases h with ⟨h, _⟩ | ⟨rfl, h, _⟩
  · exact h.step
  · simpa using h.step

theorem Resolved.tag {next_level : Nat → Nat → Byte} {c c1 : cache_t1} {a : Nat}
    {A B fills : List Nat} {p : Nat} (h : Resolved next_level c c1 a A p B fills) :
    (line_at c1.heap p).tag = a / c.line_size / c.set_cnt := by
  rcases h with ⟨h, _⟩ | ⟨rfl, h, _⟩
  · rw [h.tags]; exact h.tag
  · exact h.tag

theorem Resolved.rest {next_level : Nat → Nat → Byte} {c c1 : cache_t1} {a : Nat}
    {A B fills : List Nat} {p : Nat} (h : Resolved next_level c c1 a A p B fills) (x : Nat)
    (hx : x ≠ p) : (line_at c1.heap x).tag = (line_at c.heap x).tag ∧
      (line_at c1.heap x).data = (line_at c.heap x).data := by
  rcases h with ⟨h, _⟩ | ⟨rfl, h, _⟩
  · exact ⟨h.tags x, h.data x⟩
  · exact h.rest x hx

theorem Resolved.before {next_level : Nat → Nat → Byte} {c c1 : cache_t1} {a : Nat}
    {A B fills : List Nat} {p : Nat} (h : Resolved next_level c c1 a A p B fills) (x : Nat)
    (hx : x ∈ A) : (line_at c.heap x).tag ≠ a / c.line_size / c.set_cnt := by
  rcases h with ⟨h, _⟩ | ⟨rfl, h, _⟩
  · exact h.before x hx
  · exact h.absent x (by rw [h.lines]; simp [hx])

theorem resolve_resolved (next_level : Nat → Nat → Byte) {c : cache_t1} (hinv : Inv c)
    (hsc : 1 ≤ c.set_cnt) (hlc : 1 ≤ c.line_cnt) (hls : 1 ≤ c.line_size) (a : Nat) :
    ∃ A p B c1 fills, resolve next_level c a = .ok (c1, some p, fills) ∧
      Resolved next_level c c1 a A p B fills := by
  rcases resolve_spec next_level hinv hsc hlc hls a with ⟨A, p, B, c1, h1, h2⟩ | ⟨A, z, c1, h1, h2⟩
  · exact ⟨A, p, B, c1, [], h1, Or.inl ⟨h2, rfl⟩⟩
  · exact ⟨A, z, [], c1, [a], h1, Or.inr ⟨rfl, h2, rfl⟩⟩

theorem upd_congr (h : List line_t) (p : Nat) (f g : line_t → line_t)
    (hfg : f (line_at h p) = g (line_at h p)) : upd h p f = upd h p g := by
  unfold upd
  cases hp : h[p]? with
  | none => rfl
  | some l =>
    have : line_at h p = l := by simp [line_at, hp]
    rw [this] at hfg
    simp [hfg]

theorem access_spec (F : Frame) (next_level : Nat → Nat → Byte) {c : cache_t1} (hinv : Inv c)
    (hsc : 1 ≤ c.set_cnt) (hlc : 1 ≤ c.line_cnt) (hls : 1 ≤ c.line_size) (op : Op) :
    ∃ A p B c1 fills, Resolved next_level c c1 op.address A p B fills ∧
      (op.fits_at F c → access F next_level c op = .ok (finish F c1 p fills op)) ∧
      (¬ op.fits_at F c → access F next_level c op = .error .out_of_bounds) := by
  obtain ⟨A, p, B, c1, fills, hres, hR⟩ := resolve_resolved next_level hinv hsc hlc hls op.address
  refine ⟨A, p, B, c1, fills, hR, ?_⟩
  have hstep := hR.step
  have hpm : p ∈ set_lines c1 (op.address / c.line_size % c.set_cnt) := by
    rw [hstep.lines]; simp
  have hi : op.address / c.line_size % c.set_cnt < c1.set_cnt := by
    rw [hstep.set_cnt]; exact Nat.mod_lt _ (by omega)
  obtain ⟨s1, hs1, _⟩ := hstep.inv.get_set_ok hi
  have hplt : p < c1.heap.length := (hstep.inv.rep _ s1 hs1).valid p hpm
  have hbuf : (line_at c1.heap p).data.length = c.line_size := by
    rw [hstep.inv.buf p hplt, hstep.line_size]
  cases op with
  | load_word a =>
    simp only [Op.address] at hres
    simp only [access, Op.fits_at, finish, cache_load_word_eq, split_addr_ok hsc hls, ok_bind, hres,
      deref, rd_eq, hplt, if_true, read_bytes, hbuf, hstep.line_size, hstep.word_size,
      Frame.offset_mod, pure_eq_ok]
    constructor
    · intro h; rw [if_pos h]; rfl
    · intro h; rw [if_neg h]; rfl
  | load_block a size =>
    simp only [Op.address] at hres
    simp only [access, Op.fits_at, finish, cache_load_block_eq, ok_bind, hres,
      deref, rd_eq, hplt, if_true, read_bytes, hbuf, pure_eq_ok, Nat.zero_add, List.drop_zero]
    constructor
    · intro h; rw [if_pos h]; rfl
    · intro h; rw [if_neg h]; rfl
  | store_word a w =>
    simp only [Op.address] at hres
    simp only [access, Op.fits_at, finish, cache_store_word_eq, split_addr_ok hsc hls, ok_bind,
        hres,
      deref, rd_eq, hplt, if_true, write_bytes, hbuf, hstep.line_size, hstep.word_size,
      Frame.offset_mod, pure_eq_ok]
    constructor
    · intro h; rw [if_pos ⟨h.2, h.1⟩]; simp only [ok_bind, wr_eq, hplt, if_true]
      congr 3
      exact upd_congr _ _ _ _ rfl
    · intro h; rw [if_neg (fun h2 => h ⟨h2.2, h2.1⟩)]; rfl

theorem access_div_by_zero {F : Frame} (next_level : Nat → Nat → Byte) (c : cache_t1) (op : Op)
    (h : c.line_size = 0 ∨ c.set_cnt = 0) : access F next_level c op = .error .div_by_zero := by
  have hs : ∀ a, split_addr c a = .error .div_by_zero := by
    intro a
    unfold split_addr
    rcases h with h | h
    · rw [if_pos h]
    · split_ifs <;> rfl
  cases op with
  | load_word a => simp only [access, cache_load_word, hs]; rfl
  | load_block a size => simp only [access, cache_load_block, hs]; rfl
  | store_word a w => simp only [access, cache_store_word, hs]; rfl

theorem resolve_no_lines (next_level : Nat → Nat → Byte) {c : cache_t1} (hinv : Inv c)
    (hsc : 1 ≤ c.set_cnt) (hls : 1 ≤ c.line_size) (hlc : c.line_cnt = 0) (a : Nat) :
    resolve next_level c a = .error .null_deref := by
  have hi : a / c.line_size % c.set_cnt < c.set_cnt := Nat.mod_lt _ (by omega)
  obtain ⟨s, hs, hgs⟩ := hinv.get_set_ok hi
  have r := hinv.rep _ s hs
  have hnil : set_lines c (a / c.line_size % c.set_cnt) = [] := by
    have := hinv.cnt _ hi
    rw [hlc] at this
    exact List.length_eq_zero.mp this
  rw [hnil] at r
  have hfl := r.find_line_eq (a / c.line_size / c.set_cnt)
  have hh : s.head = none := r.head_eq
  have ht : s.tail = none := r.tail_eq
  unfold resolve
  simp only [split_addr_ok hsc hls, ok_bind, hgs, hfl, List.find?, ne_eq, not_true_eq_false,
    if_false, mishandling, ht, move_to_head, hh, if_true, pure_eq_ok, deref]
  rfl

theorem access_no_lines {F : Frame} (next_level : Nat → Nat → Byte) {c : cache_t1} (hinv : Inv c)
    (hsc : 1 ≤ c.set_cnt) (hls : 1 ≤ c.line_size) (hlc : c.line_cnt = 0) (op : Op) :
    access F next_level c op = .error .null_deref := by
  cases op with
  | load_word a =>
    simp only [access, cache_load_word_eq, split_addr_ok hsc hls, ok_bind,
      resolve_no_lines next_level hinv hsc hls hlc]
    rfl
  | load_block a size =>
    simp only [access, cache_load_block_eq, resolve_no_lines next_level hinv hsc hls hlc]
    rfl
  | store_word a w =>
    simp only [access, cache_store_word_eq, split_addr_ok hsc hls, ok_bind,
      resolve_no_lines next_level hinv hsc hls hlc]
    rfl

theorem finish_step {F : Frame} {c1 : cache_t1} (hinv : Inv c1) (i p : Nat) (hp : p ∈ set_lines c1
    i)
    (fills : List Nat) (op : Op) (hfit : op.fits_at F c1) :
    Step c1 (finish F c1 p fills op).cache i (set_lines c1 i) ∧
    (∀ x, (line_at (finish F c1 p fills op).cache.heap x).tag = (line_at c1.heap x).tag) ∧
    (∀ x, x ≠ p → (line_at (finish F c1 p fills op).cache.heap x).data = (line_at c1.heap x).data)
        := by
  cases op with
  | load_word a => exact ⟨Step.refl hinv i, fun _ => rfl, fun _ _ => rfl⟩
  | load_block a size => exact ⟨Step.refl hinv i, fun _ => rfl, fun _ _ => rfl⟩
  | store_word a w =>
    obtain ⟨s, hs⟩ : ∃ s, c1.sets[i]? = some s := by
      cases h : c1.sets[i]? with
      | none => simp [set_lines, h] at hp
      | some s => exact ⟨s, rfl⟩
    have hplt : p < c1.heap.length := (hinv.rep i s hs).valid p hp
    have hbuf := hinv.buf p hplt
    simp only [Op.fits_at] at hfit
    refine ⟨?_, ?_, ?_⟩
    · refine Inv.of_upd hinv i p hp _ (fun _ => rfl) (fun _ => rfl) ?_ ?_
      · simp only [List.length_append, List.length_take, List.length_drop, hbuf]
        omega
      · intro q hq hqp ht
        exact hinv.uniq i p hp q hq (fun e => hqp e.symm) ht.symm
    · intro x
      simp only [finish, line_at_upd hplt]
      split_ifs with h
      · subst h; rfl
      · rfl
    · intro x hx
      simp only [finish, line_at_upd hplt, hx, if_false]

theorem access_touched {F : Frame} (next_level : Nat → Nat → Byte) {c : cache_t1} (hinv : Inv c)
    (hsc : 1 ≤ c.set_cnt) (hlc : 1 ≤ c.line_cnt) (hls : 1 ≤ c.line_size) (op : Op) (r : Result)
    (hr : access F next_level c op = .ok r) :
    ∃ A p B, Touched c r.cache (op.address / c.line_size % c.set_cnt)
        (op.address / c.line_size / c.set_cnt) A p B ∧
      ((r.fills = [] ∧ (line_at c.heap p).tag = op.address / c.line_size / c.set_cnt) ∨
       (r.fills = [op.address] ∧ B = [] ∧
        ∀ x ∈ A ++ [p], (line_at c.heap x).tag ≠ op.address / c.line_size / c.set_cnt)) ∧
      op.fits_at F c := by
  obtain ⟨A, p, B, c1, fills, hR, hok, herr⟩ := access_spec F next_level hinv hsc hlc hls op
  have hfit : op.fits_at F c := by
    by_contra hn
    rw [herr hn] at hr
    cases hr
  rw [hok hfit] at hr
  cases hr
  have hstep := hR.step
  have hpm : p ∈ set_lines c1 (op.address / c.line_size % c.set_cnt) := by
    rw [hstep.lines]; simp
  have hfit1 : op.fits_at F c1 := by
    cases op <;> simp only [Op.fits_at, hstep.line_size, hstep.word_size] at hfit ⊢ <;> exact hfit
  obtain ⟨hst2, htag2, hdata2⟩ := finish_step hstep.inv _ p hpm fills op hfit1
  rw [hstep.lines] at hst2
  refine ⟨A, p, B, ⟨hR.lines, hstep.trans hst2, ?_, ?_, hR.before⟩, ?_, hfit⟩
  · rw [htag2]; exact hR.tag
  · intro x hx
    rw [htag2, hdata2 x hx]
    exact hR.rest x hx
  · have hf : (finish F c1 p fills op).fills = fills := by cases op <;> rfl
    rw [hf]
    rcases hR with ⟨h, hfl⟩ | ⟨rfl, h, hfl⟩
    · exact Or.inl ⟨hfl, h.tag⟩
    · refine Or.inr ⟨hfl, rfl, ?_⟩
      intro x hx
      exact h.absent x (by rw [h.lines]; exact hx)

/-! ## Reachable states and the order of tags -/

theorem Reachable.inv {F : Frame} {word_size sets lines line_size : Nat} {c : cache_t1}
    (h : Reachable F word_size sets lines line_size c) :
    Inv c ∧ c.word_size = word_size ∧ c.set_cnt = sets ∧ c.line_cnt = lines ∧
      c.line_size = line_size ∧
      ∀ i, i < sets → (set_lines c i).Perm (List.range' (i * lines) lines) := by
  induction h with
  | new uninit =>
    refine ⟨cache_new_inv uninit word_size sets lines line_size, rfl, rfl, rfl, rfl, ?_⟩
    intro i hi
    rw [cache_new_lines uninit word_size sets lines line_size i hi]
  | @step c next_level op r hc hr ih =>
    obtain ⟨hinv, hws, hsc, hlc, hls, hperm⟩ := ih
    by_cases hz : c.line_size = 0 ∨ c.set_cnt = 0
    · rw [access_div_by_zero next_level c op hz] at hr; cases hr
    · have h1 : 1 ≤ c.line_size := by omega
      have h2 : 1 ≤ c.set_cnt := by omega
      by_cases hl : c.line_cnt = 0
      · rw [access_no_lines next_level hinv h2 h1 hl op] at hr; cases hr
      · obtain ⟨A, p, B, ht, _, _⟩ :=
          access_touched next_level hinv h2 (by omega) h1 op r hr
        have hs := ht.step
        refine ⟨hs.inv, hs.word_size.trans hws, hs.set_cnt.trans hsc, hs.line_cnt.trans hlc,
          hs.line_size.trans hls, ?_⟩
        intro i hi
        by_cases hii : i = op.address / c.line_size % c.set_cnt
        · subst hii
          rw [hs.lines]
          exact hs.perm.trans (hperm _ hi)
        · rw [hs.others i hii]
          exact hperm i hi

theorem Touched.tags_before {c c2 : cache_t1} {i t : Nat} {A B : List Nat} {p : Nat}
    (h : Touched c c2 i t A p B) :
    set_tags c i = A.map (fun x => (line_at c.heap x).tag) ++ (line_at c.heap p).tag ::
      B.map (fun x => (line_at c.heap x).tag) := by
  simp [set_tags, h.lines]

theorem Touched.tags_after {c c2 : cache_t1} {i t : Nat} {A B : List Nat} {p : Nat}
    (hinv : Inv c) (h : Touched c c2 i t A p B) :
    set_tags c2 i = t :: (A.map (fun x => (line_at c.heap x).tag) ++
      B.map (fun x => (line_at c.heap x).tag)) := by
  have hnd : (A ++ p :: B).Nodup := by
    have hl := h.lines
    cases hs : c.sets[i]? with
    | none => simp [set_lines, hs] at hl
    | some s => rw [← hl]; exact (hinv.rep i s hs).nodup
  have hpA : p ∉ A := fun hx => (List.nodup_append.mp hnd).2.2 hx (by simp)
  have hpB : p ∉ B := (List.nodup_cons.mp (List.nodup_append.mp hnd).2.1).1
  simp only [set_tags, h.step.lines, List.map_cons, h.tag, List.map_append, List.cons.injEq,
    true_and]
  congr 1
  · apply List.map_congr_left
    intro x hx
    exact (h.rest x (fun e => hpA (e ▸ hx))).1
  · apply List.map_congr_left
    intro x hx
    exact (h.rest x (fun e => hpB (e ▸ hx))).1

theorem access_tags {F : Frame} (next_level : Nat → Nat → Byte) {c : cache_t1} (hinv : Inv c)
    (hsc : 1 ≤ c.set_cnt) (hlc : 1 ≤ c.line_cnt) (hls : 1 ≤ c.line_size) (op : Op) (r : Result)
    (hr : access F next_level c op = .ok r) :
    set_tags r.cache (index_of c op.address)
      = lru_touch (tag_of c op.address) (set_tags c (index_of c op.address)) ∧
    r.fills = (if tag_of c op.address ∈ set_tags c (index_of c op.address) then []
      else [op.address]) := by
  obtain ⟨A, p, B, ht, hkind, _⟩ := access_touched next_level hinv hsc hlc hls op r hr
  have hb := ht.tags_before
  have ha := ht.tags_after hinv
  have hnA : tag_of c op.address ∉ A.map (fun x => (line_at c.heap x).tag) := by
    intro hm
    obtain ⟨x, hx, he⟩ := List.mem_map.mp hm
    exact ht.before x hx he
  unfold index_of tag_of at *
  rcases hkind with ⟨hf, htag⟩ | ⟨hf, rfl, habs⟩
  · have hmem : op.address / c.line_size / c.set_cnt ∈
        set_tags c (op.address / c.line_size % c.set_cnt) := by
      rw [hb, htag]; simp
    rw [ha, hf, if_pos hmem, lru_touch, if_pos hmem, hb, htag]
    rw [List.erase_append_right _ (by rw [← htag] at hnA ⊢; exact hnA)]
    simp
  · have hmem : op.address / c.line_size / c.set_cnt ∉
        set_tags c (op.address / c.line_size % c.set_cnt) := by
      rw [hb]
      intro hm
      simp only [List.map_nil, List.mem_append, List.mem_map, List.mem_singleton] at hm
      rcases hm with ⟨x, hx, he⟩ | he
      · exact habs x (by simp [hx]) he
      · exact habs p (by simp) he.symm
    rw [ha, hf, if_neg hmem, lru_touch, if_neg hmem, hb]
    simp [List.dropLast_concat]

theorem SetRep.links {h : List line_t} {s : set_t} {A B : List Nat} {p : Nat}
    (r : SetRep h s (A ++ p :: B)) :
    (line_at h p).prev = A.getLast? ∧ (line_at h p).next = B.head? := by
  constructor
  · rcases List.eq_nil_or_concat A with hA | ⟨L, b, hA⟩
    · subst hA
      simpa using r.first p (by simp)
    · subst hA
      have := (List.chain'_append.mp r.chain).2.2 b (by simp) p (by simp)
      simpa using this.2
  · cases B with
    | nil => simpa using r.last p (by simp [List.getLast?_append])
    | cons b B2 =>
      have := (List.chain'_append.mp r.chain).2.1
      rw [List.chain'_cons] at this
      simpa using this.1.1

theorem resolve_head (next_level : Nat → Nat → Byte) {c : cache_t1} (hinv : Inv c)
    (hsc : 1 ≤ c.set_cnt) (hls : 1 ≤ c.line_size) (a p : Nat) (rest : List Nat)
    (hl : set_lines c (a / c.line_size % c.set_cnt) = p :: rest)
    (ht : (line_at c.heap p).tag = a / c.line_size / c.set_cnt) :
    resolve next_level c a = .ok (c, some p, []) := by
  have hi : a / c.line_size % c.set_cnt < c.set_cnt := Nat.mod_lt _ (by omega)
  obtain ⟨s, hs, hgs⟩ := hinv.get_set_ok hi
  have r := hinv.rep _ s hs
  have hfl := r.find_line_eq (a / c.line_size / c.set_cnt)
  rw [hl] at hfl r
  have hh : s.head = some p := r.head_eq
  unfold resolve
  simp only [split_addr_ok hsc hls, ok_bind, hgs, hfl, List.find?, ht, decide_True, ne_eq,
    reduceCtorEq, not_false_eq_true, if_true, move_to_head, hh, pure_eq_ok]

theorem lru_touch_append (t : Nat) (D R : List Nat) (hD : t ∉ D) (hR : R ≠ []) :
    ∃ R2, lru_touch t (D ++ R) = t :: D ++ R2 ∧ R2.length + 1 = R.length := by
  unfold lru_touch
  by_cases hm : t ∈ D ++ R
  · have hmR : t ∈ R := by
      rcases List.mem_append.mp hm with h | h
      · exact absurd h hD
      · exact h
    refine ⟨R.erase t, ?_, ?_⟩
    · rw [if_pos hm, List.erase_append_right _ hD]; rfl
    · rw [List.length_erase_of_mem hmR]
      have : 0 < R.length := List.length_pos.mpr hR
      omega
  · refine ⟨R.dropLast, ?_, ?_⟩
    · rw [if_neg hm, List.dropLast_append_of_ne_nil _ hR]; rfl
    · rw [List.length_dropLast]
      have : 0 < R.length := List.length_pos.mpr hR
      omega

theorem lru_run_append (ts : List Nat) : ∀ (D R : List Nat), ts.Nodup → (∀ t ∈ ts, t ∉ D) →
    ts.length ≤ R.length →
    ∃ R2, lru_run (D ++ R) ts = ts.reverse ++ D ++ R2 ∧ R2.length + ts.length = R.length := by
  induction ts with
  | nil => intro D R _ _ _; exact ⟨R, by simp [lru_run], by simp⟩
  | cons t ts ih =>
    intro D R hnd hD hlen
    have hR : R ≠ [] := by
      intro e; subst e; simp at hlen
    obtain ⟨R1, h1, hl1⟩ := lru_touch_append t D R (hD t (by simp)) hR
    have hnd2 := List.nodup_cons.mp hnd
    obtain ⟨R2, h2, hl2⟩ := ih (t :: D) R1 hnd2.2
      (by
        intro x hx hx2
        rcases List.mem_cons.mp hx2 with e | e
        · subst e; exact hnd2.1 hx
        · exact hD x (by simp [hx]) e)
      (by simp at hlen; omega)
    refine ⟨R2, ?_, by simp; omega⟩
    show lru_run (lru_touch t (D ++ R)) ts = _
    rw [h1]
    have : t :: D ++ R1 = (t :: D) ++ R1 := rfl
    rw [this, h2]
    simp

theorem lru_run_full (T ts : List Nat) (hnd : ts.Nodup) (hlen : ts.length = T.length) :
    lru_run T ts = ts.reverse := by
  obtain ⟨R2, h, hl⟩ := lru_run_append ts [] T hnd (by simp) (by omega)
  have : R2 = [] := List.length_eq_zero.mp (by omega)
  subst this
  simpa using h

theorem run_tags (F : Frame) (next_level : Nat → Nat → Byte) (i : Nat) : ∀ (ops : List Op) {c :
    cache_t1},
    Inv c → 1 ≤ c.set_cnt → 1 ≤ c.line_cnt → 1 ≤ c.line_size →
    (∀ op ∈ ops, index_of c op.address = i ∧ op.fits_at F c) →
    ∃ c1, run F next_level c ops = .ok c1 ∧ Inv c1 ∧ c1.word_size = c.word_size ∧
      c1.set_cnt = c.set_cnt ∧ c1.line_cnt = c.line_cnt ∧ c1.line_size = c.line_size ∧
      set_tags c1 i = lru_run (set_tags c i) (ops.map (fun op => tag_of c op.address)) ∧
      miss_trace F next_level c ops
        = .ok (lru_misses (set_tags c i) (ops.map (fun op => tag_of c op.address))) := by
  intro ops
  induction ops with
  | nil =>
    intro c hinv _ _ _ _
    exact ⟨c, rfl, hinv, rfl, rfl, rfl, rfl, rfl, rfl⟩
  | cons op ops ih =>
    intro c hinv hsc hlc hls hops
    obtain ⟨hidx, hfit⟩ := hops op (by simp)
    obtain ⟨A, p, B, c1, fills, hR, hok, _⟩ := access_spec F next_level hinv hsc hlc hls op
    have hacc := hok hfit
    obtain ⟨A2, p2, B2, ht, _, _⟩ := access_touched next_level hinv hsc hlc hls op _ hacc
    obtain ⟨htags, hfills⟩ := access_tags next_level hinv hsc hlc hls op _ hacc
    have hs := ht.step
    rw [hidx] at htags hfills
    have hgeo : ∀ a, tag_of (finish F c1 p fills op).cache a = tag_of c a ∧
        index_of (finish F c1 p fills op).cache a = index_of c a := by
      intro a; simp [tag_of, index_of, hs.line_size, hs.set_cnt]
    obtain ⟨c2, hrun, hinv2, g1, g2, g3, g4, htags2, hmt⟩ := ih (c := (finish F c1 p fills
        op).cache)
      hs.inv (by rw [hs.set_cnt]; exact hsc) (by rw [hs.line_cnt]; exact hlc)
      (by rw [hs.line_size]; exact hls)
      (by
        intro o ho
        obtain ⟨h1, h2⟩ := hops o (by simp [ho])
        refine ⟨by rw [(hgeo _).2]; exact h1, ?_⟩
        cases o <;> simp only [Op.fits_at, hs.line_size, hs.word_size] at h2 ⊢ <;> exact h2)
    refine ⟨c2, ?_, hinv2, g1.trans hs.word_size, g2.trans hs.set_cnt, g3.trans hs.line_cnt,
      g4.trans hs.line_size, ?_, ?_⟩
    · simp only [run, hacc, ok_bind, hrun]
    · rw [htags2, htags]
      simp only [List.map_cons, lru_run, List.foldl_cons, hgeo]
    · simp only [miss_trace, hacc, ok_bind, hmt, pure_eq_ok, List.map_cons, lru_misses, hgeo,
        htags, hfills]
      congr 2
      by_cases hm : tag_of c op.address ∈ set_tags c i
      · simp [hm]
      · simp [hm]

theorem run_fits {F : Frame} (next_level : Nat → Nat → Byte) : ∀ (ops : List Op) {c c1 : cache_t1},
    Inv c → 1 ≤ c.set_cnt → 1 ≤ c.line_cnt → 1 ≤ c.line_size →
    run F next_level c ops = .ok c1 → ∀ op ∈ ops, op.fits_at F c := by
  intro ops
  induction ops with
  | nil => intro c c1 _ _ _ _ _ op hop; simp at hop
  | cons o ops ih =>
    intro c c1 hinv hsc hlc hls hrun op hop
    simp only [run] at hrun
    rcases hr : access F next_level c o with e | r
    · rw [hr] at hrun; cases hrun
    · rw [hr, ok_bind] at hrun
      obtain ⟨A, p, B, ht, _, hfit⟩ := access_touched next_level hinv hsc hlc hls o r hr
      rcases List.mem_cons.mp hop with e | e
      · subst e; exact hfit
      · have hs := ht.step
        have := ih hs.inv (by rw [hs.set_cnt]; exact hsc) (by rw [hs.line_cnt]; exact hlc)
          (by rw [hs.line_size]; exact hls) hrun op e
        cases op <;> simp only [Op.fits_at, hs.line_size, hs.word_size] at this ⊢ <;> exact this

theorem Reachable.run {F : Frame} {word_size sets lines line_size : Nat} (next_level : Nat → Nat →
    Byte) :
    ∀ (ops : List Op) {c c1 : cache_t1}, Reachable F word_size sets lines line_size c →
    run F next_level c ops = .ok c1 → Reachable F word_size sets lines line_size c1 := by
  intro ops
  induction ops with
  | nil => intro c c1 hc h; cases h; exact hc
  | cons op ops ih =>
    intro c c1 hc h
    simp only [CacheSim.run] at h
    rcases hr : access F next_level c op with e | r
    · rw [hr] at h; cases h
    · rw [hr, ok_bind] at h
      exact ih (Reachable.step next_level op r hc hr) h

theorem run_two_blocks {F : Frame} :
    run F plain_memory (cache_new blank 32 1 2 8) [Op.load_word 0, Op.load_word 8]
      = .ok two_blocks := by
  cases F <;> rfl

theorem reachable_two_blocks {F : Frame} : Reachable F 32 1 2 8 two_blocks :=
  Reachable.run plain_memory _ (Reachable.new blank) run_two_blocks

/-! ## The properties of the specification -/

/-- C4: for `line_size ≥ 1` and `set_cnt ≥ 1`, `split_addr` returns
`offset = a mod line_size`, `index = (a / line_size) mod set_cnt` and
`tag = (a / line_size) / set_cnt`; they recombine to the block number
`a / line_size = tag * set_cnt + index` and to the address, and `offset < line_size`,
`index < set_cnt`. -/
theorem split_addr_recombines (c : cache_t1) (a : Nat) (hls : 1 ≤ c.line_size)
    (hsc : 1 ≤ c.set_cnt) :
    ∃ tag index offset, split_addr c a = .ok (tag, index, offset) ∧
      offset = a % c.line_size ∧ index = a / c.line_size % c.set_cnt ∧
      tag = a / c.line_size / c.set_cnt ∧
      a / c.line_size = tag * c.set_cnt + index ∧
      a = (tag * c.set_cnt + index) * c.line_size + offset ∧
      offset < c.line_size ∧ index < c.set_cnt := by
  refine ⟨_, _, _, split_addr_ok hsc hls a, rfl, rfl, rfl, ?_, ?_, ?_, ?_⟩
  · rw [Nat.mul_comm]; exact (Nat.div_add_mod _ _).symm
  · have h1 : a / c.line_size / c.set_cnt * c.set_cnt + a / c.line_size % c.set_cnt
        = a / c.line_size := by
      rw [Nat.mul_comm]; exact Nat.div_add_mod _ _
    rw [h1, Nat.mul_comm]; exact (Nat.div_add_mod _ _).symm
  · exact Nat.mod_lt _ (by omega)
  · exact Nat.mod_lt _ (by omega)

theorem split_addr_recombines_witness :
    1 ≤ (cache_new blank 32 4 2 16).line_size ∧ 1 ≤ (cache_new blank 32 4 2 16).set_cnt ∧
    ∃ tag index offset, split_addr (cache_new blank 32 4 2 16) 1000 = .ok (tag, index, offset) ∧
      offset = 1000 % (cache_new blank 32 4 2 16).line_size ∧
      index = 1000 / (cache_new blank 32 4 2 16).line_size % (cache_new blank 32 4 2 16).set_cnt ∧
      tag = 1000 / (cache_new blank 32 4 2 16).line_size / (cache_new blank 32 4 2 16).set_cnt ∧
      1000 / (cache_new blank 32 4 2 16).line_size
        = tag * (cache_new blank 32 4 2 16).set_cnt + index ∧
      1000 = (tag * (cache_new blank 32 4 2 16).set_cnt + index)
        * (cache_new blank 32 4 2 16).line_size + offset ∧
      offset < (cache_new blank 32 4 2 16).line_size ∧
      index < (cache_new blank 32 4 2 16).set_cnt :=
  ⟨by decide, by decide,
    split_addr_recombines (cache_new blank 32 4 2 16) 1000 (by decide) (by decide)⟩

/-- C2: in a state reachable from `cache_new` with `sets`, `lines`, `line_size ≥ 1`,
after a `cache_load_word`, `cache_load_block` or `cache_store_word` on any address `a`
(hit or miss) the head line of set `index(a)` carries `tag(a)`: `find_line` on that set
for `tag(a)` returns the head.  The call returns whenever the bytes it copies lie
inside the line.  The frame `F` is arbitrary. -/
theorem head_carries_tag (F : Frame) (word_size sets lines line_size : Nat) (c : cache_t1)
    (h1 : 1 ≤ sets) (h2 : 1 ≤ lines) (h3 : 1 ≤ line_size)
    (hc : Reachable F word_size sets lines line_size c) (next_level : Nat → Nat → Byte) (op : Op) :
    (op.fits c → ∃ r, access F next_level c op = .ok r) ∧
    ∀ r, access F next_level c op = .ok r →
      ∃ s p l, r.cache.sets[index_of c op.address]? = some s ∧ s.head = some p ∧
        r.cache.heap[p]? = some l ∧ l.tag = tag_of c op.address ∧
        find_line r.cache.heap s (tag_of c op.address) = .ok s.head := by
  obtain ⟨hinv, _, hsc, hlc, hls, _⟩ := hc.inv
  obtain ⟨A, p, B, c1, fills, hR, hok, _⟩ := access_spec F next_level hinv (by omega) (by omega)
    (by omega) op
  refine ⟨fun hfit => ⟨_, hok (fits_at_of_fits F hfit)⟩, ?_⟩
  intro r hacc
  obtain ⟨A2, p2, B2, ht, _, _⟩ := access_touched next_level hinv (by omega) (by omega)
    (by omega) op r hacc
  have hs := ht.step
  have hi : index_of c op.address < r.cache.set_cnt := by
    rw [hs.set_cnt]; exact Nat.mod_lt _ (by omega)
  obtain ⟨s, hss, _⟩ := hs.inv.get_set_ok hi
  have hrep := hs.inv.rep _ s hss
  have hfl := hrep.find_line_eq (tag_of c op.address)
  have hl : set_lines r.cache (index_of c op.address) = p2 :: (A2 ++ B2) := hs.lines
  rw [hl] at hrep hfl
  have hh : s.head = some p2 := hrep.head_eq
  have hp2 : p2 < r.cache.heap.length := hrep.valid p2 (by simp)
  refine ⟨s, p2, _, hss, hh, line_at_of_lt hp2, ht.tag, ?_⟩
  rw [hfl, hh]
  have : (line_at r.cache.heap p2).tag = tag_of c op.address := ht.tag
  simp [List.find?, this]

theorem head_carries_tag_witness :
    1 ≤ 1 ∧ 1 ≤ 2 ∧ 1 ≤ 8 ∧ Reachable Frame.index_over_offset 32 1 2 8 two_blocks ∧
    ((Op.store_word 20 [1, 2, 3, 4]).fits two_blocks →
      ∃ r, access Frame.index_over_offset plain_memory two_blocks (Op.store_word 20 [1, 2, 3, 4]) =
          .ok r) ∧
    ∀ r, access Frame.index_over_offset plain_memory two_blocks (Op.store_word 20 [1, 2, 3, 4]) =
        .ok r →
      ∃ s p l, r.cache.sets[index_of two_blocks (Op.store_word 20 [1, 2, 3, 4]).address]?
          = some s ∧ s.head = some p ∧
        r.cache.heap[p]? = some l ∧
        l.tag = tag_of two_blocks (Op.store_word 20 [1, 2, 3, 4]).address ∧
        find_line r.cache.heap s (tag_of two_blocks (Op.store_word 20 [1, 2, 3, 4]).address)
          = .ok s.head :=
  ⟨by decide, by decide, by decide, reachable_two_blocks,
    head_carries_tag Frame.index_over_offset 32 1 2 8 two_blocks (by decide) (by decide) (by decide)
      reachable_two_blocks plain_memory (Op.store_word 20 [1, 2, 3, 4])⟩

/-- C5: tag uniqueness is an invariant.  In every state reachable from `cache_new` by
any sequence of `cache_load_word`, `cache_load_block` and `cache_store_word` calls, no
set contains two different lines whose tags are equal and different from `INVALID_TAG`.
The frame `F` is arbitrary. -/
theorem tags_unique (F : Frame) (word_size sets lines line_size : Nat) (c : cache_t1)
    (hc : Reachable F word_size sets lines line_size c) (i p q : Nat)
    (hp : p ∈ set_lines c i) (hq : q ∈ set_lines c i) (hpq : p ≠ q) :
    ¬ ((line_at c.heap p).tag = (line_at c.heap q).tag ∧
       (line_at c.heap p).tag ≠ INVALID_TAG) := by
  rintro ⟨h1, h2⟩
  exact h2 (hc.inv.1.uniq i p hp q hq hpq h1)

theorem tags_unique_witness :
    Reachable Frame.index_over_offset 32 1 2 8 two_blocks ∧ 0 ∈ set_lines two_blocks 0 ∧ 1 ∈
        set_lines two_blocks 0 ∧
    0 ≠ 1 ∧
    ¬ ((line_at two_blocks.heap 0).tag = (line_at two_blocks.heap 1).tag ∧
       (line_at two_blocks.heap 0).tag ≠ INVALID_TAG) :=
  ⟨reachable_two_blocks, by decide, by decide, by decide,
    tags_unique Frame.index_over_offset 32 1 2 8 two_blocks reachable_two_blocks 0 0 1 (by decide)
        (by decide)
      (by decide)⟩

theorem SetRep.next_iff_prev {h : List line_t} {s : set_t} {ps : List Nat} (r : SetRep h s ps)
    (p q : Nat) (hp : p ∈ ps) (hq : q ∈ ps) :
    (line_at h p).next = some q ↔ (line_at h q).prev = some p := by
  constructor
  · intro hn
    obtain ⟨A, B, rfl⟩ := List.append_of_mem hp
    have hl := r.links
    rw [hl.2] at hn
    cases B with
    | nil => simp at hn
    | cons b B2 =>
      simp at hn
      subst hn
      have r2 : SetRep h s ((A ++ [p]) ++ b :: B2) := by simpa using r
      have := r2.links.1
      simpa using this
  · intro hn
    obtain ⟨A, B, rfl⟩ := List.append_of_mem hq
    have hl := r.links
    rw [hl.1] at hn
    obtain ⟨A2, rfl⟩ := List.getLast?_eq_some_iff.mp hn
    have r2 : SetRep h s (A2 ++ p :: (q :: B)) := by simpa using r
    have := r2.links.2
    simpa using this

/-- C6: the recency list is well formed in every reachable state.  For every set `i`,
the walk from the head along `next` visits exactly `lines` distinct lines, the very
lines `cache_new` allocated for set `i` (in some order), starts at `head`, ends at
`tail`; `head.prev` and `tail.next` are `NULL`; within the set `prev` is the inverse of
`next`, and no link leaves the set.  Reachable states are closed under the operations,
so every load and store preserves this.  The frame `F` is arbitrary. -/
theorem recency_list_well_formed (F : Frame) (word_size sets lines line_size : Nat) (c : cache_t1)
    (hc : Reachable F word_size sets lines line_size c) (i : Nat) (hi : i < sets) :
    ∃ s, c.sets[i]? = some s ∧
      (set_lines c i).length = lines ∧ (set_lines c i).Nodup ∧
      (set_lines c i).Perm (List.range' (i * lines) lines) ∧
      (∀ p ∈ set_lines c i, p < c.heap.length) ∧
      s.head = (set_lines c i).head? ∧ s.tail = (set_lines c i).getLast? ∧
      (∀ p, s.head = some p → (line_at c.heap p).prev = none) ∧
      (∀ p, s.tail = some p → (line_at c.heap p).next = none) ∧
      (∀ p ∈ set_lines c i, ∀ q ∈ set_lines c i,
        ((line_at c.heap p).next = some q ↔ (line_at c.heap q).prev = some p)) ∧
      (∀ p ∈ set_lines c i, ∀ q, (line_at c.heap p).next = some q → q ∈ set_lines c i) ∧
      (∀ p ∈ set_lines c i, ∀ q, (line_at c.heap p).prev = some q → q ∈ set_lines c i) ∧
      (∀ next_level op r, access F next_level c op = .ok r →
        Reachable F word_size sets lines line_size r.cache) := by
  obtain ⟨hinv, _, hsc, hlc, _, hperm⟩ := hc.inv
  obtain ⟨s, hs, _⟩ := hinv.get_set_ok (by rw [hsc]; exact hi)
  have r := hinv.rep i s hs
  refine ⟨s, hs, by rw [hinv.cnt i (by rw [hsc]; exact hi), hlc], r.nodup, hperm i hi, r.valid,
    r.head_eq, r.tail_eq, ?_, ?_, ?_, ?_, ?_, ?_⟩
  · intro p hp; exact r.first p (by rw [← r.head_eq]; exact hp)
  · intro p hp; exact r.last p (by rw [← r.tail_eq]; exact hp)
  · intro p hp q hq; exact r.next_iff_prev p q hp hq
  · intro p hp q hn
    obtain ⟨A, B, hAB⟩ := List.append_of_mem hp
    have r2 := r
    rw [hAB] at r2
    have := r2.links.2
    rw [hn] at this
    rw [hAB]
    have hq : q ∈ B := List.mem_of_mem_head? this.symm
    simp [hq]
  · intro p hp q hn
    obtain ⟨A, B, hAB⟩ := List.append_of_mem hp
    have r2 := r
    rw [hAB] at r2
    have := r2.links.1
    rw [hn] at this
    rw [hAB]
    have hq : q ∈ A := List.mem_of_mem_getLast? this.symm
    simp [hq]
  · intro next_level op r hr
    exact Reachable.step next_level op r hc hr

theorem recency_list_well_formed_witness :
    Reachable Frame.index_over_offset 32 1 2 8 two_blocks ∧ 0 < 1 ∧
    ∃ s, two_blocks.sets[0]? = some s ∧
      (set_lines two_blocks 0).length = 2 ∧ (set_lines two_blocks 0).Nodup ∧
      (set_lines two_blocks 0).Perm (List.range' (0 * 2) 2) ∧
      (∀ p ∈ set_lines two_blocks 0, p < two_blocks.heap.length) ∧
      s.head = (set_lines two_blocks 0).head? ∧ s.tail = (set_lines two_blocks 0).getLast? ∧
      (∀ p, s.head = some p → (line_at two_blocks.heap p).prev = none) ∧
      (∀ p, s.tail = some p → (line_at two_blocks.heap p).next = none) ∧
      (∀ p ∈ set_lines two_blocks 0, ∀ q ∈ set_lines two_blocks 0,
        ((line_at two_blocks.heap p).next = some q ↔ (line_at two_blocks.heap q).prev = some p)) ∧
      (∀ p ∈ set_lines two_blocks 0, ∀ q, (line_at two_blocks.heap p).next = some q →
        q ∈ set_lines two_blocks 0) ∧
      (∀ p ∈ set_lines two_blocks 0, ∀ q, (line_at two_blocks.heap p).prev = some q →
        q ∈ set_lines two_blocks 0) ∧
      (∀ next_level op r, access Frame.index_over_offset next_level two_blocks op = .ok r →
        Reachable Frame.index_over_offset 32 1 2 8 r.cache) :=
  ⟨reachable_two_blocks, by decide,
    recency_list_well_formed Frame.index_over_offset 32 1 2 8 two_blocks reachable_two_blocks 0 (by
        decide)⟩

theorem load_word_at_head (F : Frame) (next_level : Nat → Nat → Byte) {c : cache_t1} (hinv : Inv c)
    (hsc : 1 ≤ c.set_cnt) (hls : 1 ≤ c.line_size) (a p : Nat) (rest : List Nat)
    (hl : set_lines c (a / c.line_size % c.set_cnt) = p :: rest)
    (ht : (line_at c.heap p).tag = a / c.line_size / c.set_cnt)
    (hfit : F.offset (a % c.line_size) + c.word_size / 8 ≤ c.line_size) :
    cache_load_word F next_level c a = .ok
      ⟨c, ((line_at c.heap p).data.drop (F.offset (a % c.line_size))).take (c.word_size / 8), []⟩
          := by
  have hi : a / c.line_size % c.set_cnt < c.set_cnt := Nat.mod_lt _ (by omega)
  obtain ⟨s, hs, _⟩ := hinv.get_set_ok hi
  have hplt : p < c.heap.length := (hinv.rep _ s hs).valid p (by rw [hl]; simp)
  have hbuf := hinv.buf p hplt
  simp only [cache_load_word_eq, split_addr_ok hsc hls, ok_bind,
    resolve_head next_level hinv hsc hls a p rest hl ht, deref, rd_eq, hplt, if_true,
    read_bytes, hbuf, Frame.offset_mod, hfit, pure_eq_ok]

theorem loads_at_head (F : Frame) (next_level : Nat → Nat → Byte) {c : cache_t1} (hinv : Inv c)
    (hsc : 1 ≤ c.set_cnt) (hls : 1 ≤ c.line_size) (a p : Nat) (rest : List Nat)
    (hl : set_lines c (a / c.line_size % c.set_cnt) = p :: rest)
    (ht : (line_at c.heap p).tag = a / c.line_size / c.set_cnt)
    (hfit : F.offset (a % c.line_size) + c.word_size / 8 ≤ c.line_size) (n : Nat) :
    loads F next_level a n c = .ok (List.replicate n
      ⟨c, ((line_at c.heap p).data.drop (F.offset (a % c.line_size))).take (c.word_size / 8), []⟩)
          := by
  induction n with
  | zero => rfl
  | succ n ih =>
    simp only [loads, load_word_at_head F next_level hinv hsc hls a p rest hl ht hfit, ok_bind, ih,
      pure_eq_ok, List.replicate_succ]

theorem take_drop_written (D w : List Byte) (off n : Nat) (hoff : off ≤ D.length)
    (hw : w.length = n) :
    ((D.take off ++ w.take n ++ D.drop (off + n)).drop off).take n = w := by
  have h1 : (D.take off).length = off := by simp [hoff]
  have h2 : w.take n = w := by rw [← hw]; exact List.take_length w
  rw [h2, List.append_assoc, List.drop_append_of_le_length (by omega)]
  rw [List.drop_of_length_le (by omega), List.nil_append, List.take_append_of_le_length (by omega)]
  rw [← hw]; exact List.take_length w

/-- C3: store/load round trip.  In every state reachable from `cache_new` with `sets`,
`lines`, `line_size ≥ 1`, for every address `a` whose word lies inside its line and
every word `w` of `word_size/8` bytes, `cache_store_word(a, w)` returns and the
`cache_load_word(a)` that follows writes exactly `w` into the output buffer, whether
the store hit or missed; the load is a hit.  The frame `F` is arbitrary. -/
theorem store_then_load (F : Frame) (word_size sets lines line_size : Nat) (c : cache_t1)
    (h1 : 1 ≤ sets) (h2 : 1 ≤ lines) (h3 : 1 ≤ line_size)
    (hc : Reachable F word_size sets lines line_size c) (next_level next_level2 : Nat → Nat → Byte)
    (a : Nat) (w : List Byte) (hfit : a % line_size + word_size / 8 ≤ line_size)
    (hw : w.length = word_size / 8) :
    ∃ r1 r2, cache_store_word F next_level c a w = .ok r1 ∧
      cache_load_word F next_level2 r1.cache a = .ok r2 ∧ r2.out = w ∧ r2.fills = [] := by
  obtain ⟨hinv, hws, hsc, hlc, hls, _⟩ := hc.inv
  have hoff := F.offset_le (a % line_size)
  have hfit0 : (Op.store_word a w).fits_at F c := by
    simp only [Op.fits_at, hls, hws]; exact ⟨by omega, by omega⟩
  obtain ⟨A, p, B, c1, fills, hR, hok, _⟩ := access_spec F next_level hinv (by omega) (by omega)
    (by omega) (Op.store_word a w)
  have hacc := hok hfit0
  have hs := hR.step
  simp only [Op.address] at hs
  have hpm : p ∈ set_lines c1 (a / c.line_size % c.set_cnt) := by rw [hs.lines]; simp
  have hfit1 : (Op.store_word a w).fits_at F c1 := by
    simp only [Op.fits_at, hs.line_size, hs.word_size] at hfit0 ⊢; exact hfit0
  obtain ⟨hs2, htag2, _⟩ := finish_step hs.inv _ p hpm fills (Op.store_word a w) hfit1
  have hi : a / c.line_size % c.set_cnt < c1.set_cnt := by
    rw [hs.set_cnt]; exact Nat.mod_lt _ (by omega)
  obtain ⟨s1, hs1, _⟩ := hs.inv.get_set_ok hi
  have hplt : p < c1.heap.length := (hs.inv.rep _ s1 hs1).valid p hpm
  have hbuf := hs.inv.buf p hplt
  have hl2 : set_lines (finish F c1 p fills (Op.store_word a w)).cache
      (a / (finish F c1 p fills (Op.store_word a w)).cache.line_size
        % (finish F c1 p fills (Op.store_word a w)).cache.set_cnt) = p :: (A ++ B) := by
    rw [hs2.line_size, hs2.set_cnt, hs.line_size, hs.set_cnt, hs2.lines, hs.lines]
  have ht2 : (line_at (finish F c1 p fills (Op.store_word a w)).cache.heap p).tag
      = a / (finish F c1 p fills (Op.store_word a w)).cache.line_size
        / (finish F c1 p fills (Op.store_word a w)).cache.set_cnt := by
    rw [htag2, hs2.line_size, hs2.set_cnt, hs.line_size, hs.set_cnt]; exact hR.tag
  have hload := load_word_at_head F next_level2 hs2.inv
    (by rw [hs2.set_cnt, hs.set_cnt]; omega) (by rw [hs2.line_size, hs.line_size]; omega)
    a p (A ++ B) hl2 ht2
    (by rw [hs2.line_size, hs2.word_size, hs.line_size, hs.word_size, hls, hws]; omega)
  refine ⟨_, _, hacc, hload, ?_, rfl⟩
  show (((line_at (upd c1.heap p _) p).data.drop (F.offset (a % c1.line_size))).take
    (c1.word_size / 8)) = w
  rw [line_at_upd hplt, if_pos rfl]
  have hpos : 0 < c1.line_size := by rw [hs.line_size, hls]; omega
  exact take_drop_written _ w _ _
    (by rw [hbuf]; exact Nat.le_trans (F.offset_le _) (Nat.le_of_lt (Nat.mod_lt _ hpos)))
    (by rw [hw, hs.word_size, hws])

theorem store_then_load_witness :
    1 ≤ 1 ∧ 1 ≤ 2 ∧ 1 ≤ 8 ∧ Reachable Frame.index_over_offset 32 1 2 8 two_blocks ∧ 20 % 8 + 32 / 8
        ≤ 8 ∧
    [7, 7, 7, 7].length = 32 / 8 ∧
    ∃ r1 r2, cache_store_word Frame.index_over_offset plain_memory two_blocks 20 [7, 7, 7, 7] = .ok
        r1 ∧
      cache_load_word Frame.index_over_offset plain_memory r1.cache 20 = .ok r2 ∧ r2.out = [7, 7,
          7, 7] ∧
      r2.fills = [] :=
  ⟨by decide, by decide, by decide, reachable_two_blocks, by decide, by decide,
    store_then_load Frame.index_over_offset 32 1 2 8 two_blocks (by decide) (by decide) (by decide)
        reachable_two_blocks
      plain_memory plain_memory 20 [7, 7, 7, 7] (by decide) (by decide)⟩

/-- C8: in a reachable state (geometry `≥ 1`), when address `a` misses (`find_line` on
set `index(a)` for `tag(a)` returns `NULL`), `cache_load_block(a, out, line_size)`
returns and `out` holds exactly the `line_size` bytes that
`load_block_from_next_level`, called with `a`, wrote into the victim's buffer.
The frame `F` is arbitrary. -/
theorem load_block_returns_fill (F : Frame) (word_size sets lines line_size : Nat) (c : cache_t1)
    (h1 : 1 ≤ sets) (h2 : 1 ≤ lines) (h3 : 1 ≤ line_size)
    (hc : Reachable F word_size sets lines line_size c) (next_level : Nat → Nat → Byte)
    (a : Nat) (s : set_t) (hs : c.sets[index_of c a]? = some s)
    (hmiss : find_line c.heap s (tag_of c a) = .ok none) :
    ∃ r buf, cache_load_block next_level c a line_size = .ok r ∧ r.fills = [a] ∧
      buf.length = line_size ∧ r.out = load_block_from_next_level next_level a buf ∧
      r.out = (List.range line_size).map (next_level a) := by
  obtain ⟨hinv, hws, hsc, hlc, hls, _⟩ := hc.inv
  have hfit0 : (Op.load_block a line_size).fits c := by
    simp only [Op.fits, hls]; exact Nat.le_refl _
  obtain ⟨A, p, B, c1, fills, hR, hok, _⟩ := access_spec F next_level hinv (by omega) (by omega)
    (by omega) (Op.load_block a line_size)
  have hacc := hok hfit0
  have hrep := hinv.rep _ s hs
  have hfl := hrep.find_line_eq (tag_of c a)
  rw [hmiss] at hfl
  have hnone := List.find?_eq_none.mp (Except.ok.inj hfl).symm
  have hpm : p ∈ set_lines c (index_of c a) := by
    have := hR.lines
    simp only [Op.address] at this
    unfold index_of
    rw [this]; simp
  have hplt : p < c.heap.length := hrep.valid p hpm
  rcases hR with ⟨hhit, _⟩ | ⟨_, hm, hf⟩
  · exfalso
    have := hnone p hpm
    simp only [decide_eq_true_eq] at this
    exact this hhit.tag
  · have hlen : (line_at c.heap p).data.length = line_size := by
      rw [hinv.buf p hplt, hls]
    have hd := hm.data
    simp only [Op.address] at hd
    refine ⟨_, (line_at c.heap p).data, hacc, hf, hlen, ?_, ?_⟩
    · show (line_at c1.heap p).data.take line_size = _
      rw [hd]
      apply List.take_of_length_le
      simp [load_block_from_next_level, hlen]
    · show (line_at c1.heap p).data.take line_size = _
      rw [hd]
      simp only [load_block_from_next_level, hlen]
      apply List.take_of_length_le
      simp

theorem load_block_returns_fill_witness :
    1 ≤ 1 ∧ 1 ≤ 2 ∧ 1 ≤ 8 ∧ Reachable Frame.index_over_offset 32 1 2 8 two_blocks ∧
    two_blocks.sets[index_of two_blocks 16]? = some { head := some 0, tail := some 1 } ∧
    find_line two_blocks.heap { head := some 0, tail := some 1 } (tag_of two_blocks 16)
      = .ok none ∧
    ∃ r buf, cache_load_block plain_memory two_blocks 16 8 = .ok r ∧ r.fills = [16] ∧
      buf.length = 8 ∧ r.out = load_block_from_next_level plain_memory 16 buf ∧
      r.out = (List.range 8).map (plain_memory 16) :=
  ⟨by decide, by decide, by decide, reachable_two_blocks, rfl, rfl,
    load_block_returns_fill Frame.index_over_offset 32 1 2 8 two_blocks (by decide) (by decide) (by
        decide)
      reachable_two_blocks plain_memory 16 ⟨some 0, some 1⟩ rfl rfl⟩

/-- C9: repeated loads are idempotent.  In a reachable state (geometry `≥ 1`), for an
address `a` whose word lies inside its line, `cache_load_word(a)` returns; a second
`cache_load_word(a)` right after it returns the same bytes, is a hit that does not
call the next level, and leaves the whole cache (every tag, buffer, link, head and
tail) exactly as the first call left it, with the line of `a` at the head of its set;
so does any number of repetitions.  The frame `F` is arbitrary. -/
theorem repeated_load (F : Frame) (word_size sets lines line_size : Nat) (c : cache_t1)
    (h1 : 1 ≤ sets) (h2 : 1 ≤ lines) (h3 : 1 ≤ line_size)
    (hc : Reachable F word_size sets lines line_size c) (next_level next_level2 : Nat → Nat → Byte)
    (a : Nat) (hfit : a % line_size + word_size / 8 ≤ line_size) :
    ∃ r1 s p l, cache_load_word F next_level c a = .ok r1 ∧
      cache_load_word F next_level2 r1.cache a = .ok ⟨r1.cache, r1.out, []⟩ ∧
      (∀ n, loads F next_level2 a n r1.cache = .ok (List.replicate n ⟨r1.cache, r1.out, []⟩)) ∧
      r1.cache.sets[index_of c a]? = some s ∧ s.head = some p ∧
      r1.cache.heap[p]? = some l ∧ l.tag = tag_of c a := by
  obtain ⟨hinv, hws, hsc, hlc, hls, _⟩ := hc.inv
  have hoff := F.offset_le (a % line_size)
  have hfit0 : (Op.load_word a).fits_at F c := by
    simp only [Op.fits_at, hls, hws]; omega
  obtain ⟨A, p, B, c1, fills, hR, hok, _⟩ := access_spec F next_level hinv (by omega) (by omega)
    (by omega) (Op.load_word a)
  have hacc := hok hfit0
  have hs := hR.step
  simp only [Op.address] at hs
  have hi : a / c.line_size % c.set_cnt < c1.set_cnt := by
    rw [hs.set_cnt]; exact Nat.mod_lt _ (by omega)
  obtain ⟨s1, hs1, _⟩ := hs.inv.get_set_ok hi
  have hrep := hs.inv.rep _ s1 hs1
  rw [hs.lines] at hrep
  have hplt : p < c1.heap.length := hrep.valid p (by simp)
  have hl2 : set_lines c1 (a / c1.line_size % c1.set_cnt) = p :: (A ++ B) := by
    rw [hs.line_size, hs.set_cnt, hs.lines]
  have ht2 : (line_at c1.heap p).tag = a / c1.line_size / c1.set_cnt := by
    rw [hs.line_size, hs.set_cnt]; exact hR.tag
  have hsc1 : 1 ≤ c1.set_cnt := by rw [hs.set_cnt]; omega
  have hls1 : 1 ≤ c1.line_size := by rw [hs.line_size]; omega
  have hfit1 : F.offset (a % c1.line_size) + c1.word_size / 8 ≤ c1.line_size := by
    rw [hs.line_size, hs.word_size, hls, hws]; omega
  refine ⟨_, s1, p, _, hacc, ?_, ?_, hs1, hrep.head_eq, line_at_of_lt hplt, hR.tag⟩
  · exact load_word_at_head F next_level2 hs.inv hsc1 hls1 a p (A ++ B) hl2 ht2 hfit1
  · intro n
    exact loads_at_head F next_level2 hs.inv hsc1 hls1 a p (A ++ B) hl2 ht2 hfit1 n

theorem repeated_load_witness :
    1 ≤ 1 ∧ 1 ≤ 2 ∧ 1 ≤ 8 ∧ Reachable Frame.index_over_offset 32 1 2 8 two_blocks ∧ 2 % 8 + 32 / 8
        ≤ 8 ∧
    ∃ r1 s p l, cache_load_word Frame.index_over_offset plain_memory two_blocks 2 = .ok r1 ∧
      cache_load_word Frame.index_over_offset blank r1.cache 2 = .ok ⟨r1.cache, r1.out, []⟩ ∧
      (∀ n, loads Frame.index_over_offset blank 2 n r1.cache = .ok (List.replicate n ⟨r1.cache,
          r1.out, []⟩)) ∧
      r1.cache.sets[index_of two_blocks 2]? = some s ∧ s.head = some p ∧
      r1.cache.heap[p]? = some l ∧ l.tag = tag_of two_blocks 2 :=
  ⟨by decide, by decide, by decide, reachable_two_blocks, by decide,
    repeated_load Frame.index_over_offset 32 1 2 8 two_blocks (by decide) (by decide) (by decide)
        reachable_two_blocks
      plain_memory blank 2 (by decide)⟩

theorem length_set_tags (c : cache_t1) (i : Nat) :
    (set_tags c i).length = (set_lines c i).length := by
  simp [set_tags]

/-- C1: classic LRU eviction.  In a state reachable from `cache_new` with `sets`,
`lines`, `line_size ≥ 1`, after `lines` calls (any mix of the three operations) whose
addresses map to set `s` and carry pairwise distinct tags `t1 .. tn`, the tail of `s`
holds `t1`; the next call to `s` with a tag distinct from `t1 .. tn` is a miss whose
victim is the line holding `t1`: that line becomes the head with the new tag, `t1`
is absent from `s` afterwards, and `t2 .. tn` and the new tag are all present.  The
calls return whenever the bytes they copy lie inside the line.  The frame `F` is arbitrary. -/
theorem lru_eviction (F : Frame) (word_size sets lines line_size : Nat) (c : cache_t1)
    (h1 : 1 ≤ sets) (h2 : 1 ≤ lines) (h3 : 1 ≤ line_size)
    (hc : Reachable F word_size sets lines line_size c) (next_level next_level2 : Nat → Nat → Byte)
    (s : Nat) (first : Op) (rest : List Op) (hlen : (first :: rest).length = lines)
    (hmap : ∀ op ∈ first :: rest, index_of c op.address = s)
    (hdist : ((first :: rest).map (fun op => tag_of c op.address)).Nodup)
    (last : Op) (hlast : index_of c last.address = s)
    (hnew : tag_of c last.address ∉ (first :: rest).map (fun op => tag_of c op.address)) :
    ((∀ op ∈ first :: rest, op.fits c) → ∃ c1, run F next_level c (first :: rest) = .ok c1) ∧
    ∀ c1, run F next_level c (first :: rest) = .ok c1 →
      ∃ st z l, c1.sets[s]? = some st ∧ st.tail = some z ∧ c1.heap[z]? = some l ∧
        l.tag = tag_of c first.address ∧
        (last.fits c → ∃ r, access F next_level2 c1 last = .ok r) ∧
        ∀ r, access F next_level2 c1 last = .ok r →
          ∃ st2 l2, r.fills = [last.address] ∧
            r.cache.sets[s]? = some st2 ∧ st2.head = some z ∧ r.cache.heap[z]? = some l2 ∧
            l2.tag = tag_of c last.address ∧
            tag_of c first.address ∉ set_tags r.cache s ∧
            (∀ op ∈ rest, tag_of c op.address ∈ set_tags r.cache s) ∧
            tag_of c last.address ∈ set_tags r.cache s := by
  obtain ⟨hinv, hws, hsc, hlc, hls, _⟩ := hc.inv
  have hs : s < c.set_cnt := by
    rw [← hlast]; exact Nat.mod_lt _ (by omega)
  refine ⟨?_, ?_⟩
  · intro hfits
    obtain ⟨c1, hrun, _⟩ := run_tags F next_level s (first :: rest) hinv (by omega) (by omega)
      (by omega) (fun op hop => ⟨hmap op hop, fits_at_of_fits F (hfits op hop)⟩)
    exact ⟨c1, hrun⟩
  intro c1 hrun0
  have hfits := run_fits next_level (first :: rest) hinv (by omega) (by omega) (by omega) hrun0
  obtain ⟨c1b, hrun, hinv1, g1, g2, g3, g4, htags, _⟩ :=
    run_tags F next_level s (first :: rest) hinv (by omega) (by omega) (by omega)
      (fun op hop => ⟨hmap op hop, hfits op hop⟩)
  have hcc : c1b = c1 := Except.ok.inj (hrun.symm.trans hrun0)
  subst hcc
  have hfull : set_tags c1b s = ((first :: rest).map (fun op => tag_of c op.address)).reverse := by
    rw [htags]
    apply lru_run_full _ _ hdist
    rw [length_set_tags, hinv.cnt s hs, hlc, List.length_map, hlen]
  -- the tail of `s` after the calls
  obtain ⟨st, hst, _⟩ := hinv1.get_set_ok (by rw [g2]; exact hs)
  have hrep := hinv1.rep s st hst
  obtain ⟨L, z, hLz⟩ : ∃ L z, set_lines c1b s = L ++ [z] := by
    rcases List.eq_nil_or_concat (set_lines c1b s) with h | ⟨L, b, h⟩
    · have := hinv1.cnt s (by rw [g2]; exact hs)
      rw [h] at this
      simp at this
      omega
    · exact ⟨L, b, by simpa using h⟩
  have hz_tag : (line_at c1b.heap z).tag = tag_of c first.address := by
    have := hfull
    simp only [set_tags, hLz, List.map_append, List.map_cons, List.map_nil,
      List.reverse_cons] at this
    exact (List.append_inj' this (by simp)).2 |> fun h => by simpa using h
  have hzlt : z < c1b.heap.length := hrep.valid z (by rw [hLz]; simp)
  have htail : st.tail = some z := by rw [hrep.tail_eq, hLz]; simp
  -- the next call
  have hgeo : tag_of c1b last.address = tag_of c last.address ∧
      index_of c1b last.address = s := by
    refine ⟨by simp [tag_of, g2, g4], ?_⟩
    rw [← hlast]; simp [index_of, g2, g4]
  obtain ⟨A, p, B, c2, fills, _, hok, _⟩ := access_spec F next_level2 hinv1 (by omega) (by omega)
    (by omega) last
  refine ⟨st, z, _, hst, htail, line_at_of_lt hzlt, hz_tag, ?_, ?_⟩
  · intro hfit
    have hfit1 : last.fits c1b := by
      cases last <;> simp only [Op.fits, g1, g4] at hfit ⊢ <;> exact hfit
    exact ⟨_, hok (fits_at_of_fits F hfit1)⟩
  intro r hacc
  obtain ⟨A2, p2, B2, ht, hkind, _⟩ := access_touched next_level2 hinv1 (by omega) (by omega)
    (by omega) last r hacc
  obtain ⟨htags2, _⟩ := access_tags next_level2 hinv1 (by omega) (by omega) (by omega) last r hacc
  rw [hgeo.1, hgeo.2] at htags2
  have hidx : last.address / c1b.line_size % c1b.set_cnt = s := hgeo.2
  have htg : last.address / c1b.line_size / c1b.set_cnt = tag_of c last.address := hgeo.1
  rw [hidx, htg] at ht
  rw [htg] at hkind
  have hnot : tag_of c last.address ∉ set_tags c1b s := by
    rw [hfull, List.mem_reverse]; exact hnew
  rcases hkind with ⟨_, hhit⟩ | ⟨hf, hB, _⟩
  · exfalso
    apply hnot
    rw [ht.tags_before, hhit]; simp
  · subst hB
    have hl := ht.lines
    rw [hLz] at hl
    obtain ⟨hA, hp⟩ := List.append_inj' hl (by simp)
    have hp2 : z = p2 := by simpa using hp
    subst hp2
    have hstep := ht.step
    obtain ⟨st2, hst2, _⟩ := hstep.inv.get_set_ok (by rw [hstep.set_cnt, g2]; exact hs)
    have hrep2 := hstep.inv.rep s st2 hst2
    rw [hstep.lines] at hrep2
    have hzlt2 : z < r.cache.heap.length := hrep2.valid z (by simp)
    have hafter : set_tags r.cache s
        = tag_of c last.address :: (rest.map (fun op => tag_of c op.address)).reverse := by
      rw [htags2, lru_touch, if_neg hnot, hfull]
      simp [List.dropLast_concat]
    have hnd := List.nodup_cons.mp (show (tag_of c first.address ::
      rest.map (fun op => tag_of c op.address)).Nodup from hdist)
    refine ⟨st2, _, hf, hst2, hrep2.head_eq, line_at_of_lt hzlt2, ht.tag, ?_, ?_, ?_⟩
    · rw [hafter]
      simp only [List.mem_cons, List.mem_reverse, List.mem_map, not_or]
      refine ⟨?_, ?_⟩
      · intro e
        apply hnew
        rw [← e]; simp
      · rintro ⟨op, hop, he⟩
        exact hnd.1 (List.mem_map.mpr ⟨op, hop, he⟩)
    · intro op hop
      rw [hafter]
      simp only [List.mem_cons, List.mem_reverse, List.mem_map]
      exact Or.inr ⟨op, hop, rfl⟩
    · rw [hafter]; simp

theorem lru_eviction_witness :
    1 ≤ 1 ∧ 1 ≤ 2 ∧ 1 ≤ 8 ∧ Reachable Frame.index_over_offset 32 1 2 8 two_blocks ∧
    [Op.load_word 32, Op.store_word 16 [1, 2, 3, 4]].length = 2 ∧
    (∀ op ∈ [Op.load_word 32, Op.store_word 16 [1, 2, 3, 4]],
      index_of two_blocks op.address = 0) ∧
    ([Op.load_word 32, Op.store_word 16 [1, 2, 3, 4]].map
      (fun op => tag_of two_blocks op.address)).Nodup ∧
    index_of two_blocks (Op.load_block 8 8).address = 0 ∧
    tag_of two_blocks (Op.load_block 8 8).address ∉
      [Op.load_word 32, Op.store_word 16 [1, 2, 3, 4]].map
        (fun op => tag_of two_blocks op.address) ∧
    ((∀ op ∈ [Op.load_word 32, Op.store_word 16 [1, 2, 3, 4]], op.fits two_blocks) →
      ∃ c1, run Frame.index_over_offset plain_memory two_blocks [Op.load_word 32, Op.store_word 16
          [1, 2, 3, 4]]
        = .ok c1) ∧
    ∀ c1, run Frame.index_over_offset plain_memory two_blocks [Op.load_word 32, Op.store_word 16
        [1, 2, 3, 4]]
        = .ok c1 →
      ∃ st z l, c1.sets[0]? = some st ∧ st.tail = some z ∧ c1.heap[z]? = some l ∧
        l.tag = tag_of two_blocks (Op.load_word 32).address ∧
        ((Op.load_block 8 8).fits two_blocks →
          ∃ r, access Frame.index_over_offset plain_memory c1 (Op.load_block 8 8) = .ok r) ∧
        ∀ r, access Frame.index_over_offset plain_memory c1 (Op.load_block 8 8) = .ok r →
          ∃ st2 l2, r.fills = [(Op.load_block 8 8).address] ∧
            r.cache.sets[0]? = some st2 ∧ st2.head = some z ∧ r.cache.heap[z]? = some l2 ∧
            l2.tag = tag_of two_blocks (Op.load_block 8 8).address ∧
            tag_of two_blocks (Op.load_word 32).address ∉ set_tags r.cache 0 ∧
            (∀ op ∈ [Op.store_word 16 [1, 2, 3, 4]],
              tag_of two_blocks op.address ∈ set_tags r.cache 0) ∧
            tag_of two_blocks (Op.load_block 8 8).address ∈ set_tags r.cache 0 :=
  ⟨by decide, by decide, by decide, reachable_two_blocks, by decide, by decide, by decide,
    by decide, by decide,
    lru_eviction Frame.index_over_offset 32 1 2 8 two_blocks (by decide) (by decide) (by decide)
        reachable_two_blocks
      plain_memory plain_memory 0 (Op.load_word 32) [Op.store_word 16 [1, 2, 3, 4]]
      (by decide) (by decide) (by decide) (Op.load_block 8 8) (by decide) (by decide)⟩

theorem cache_new_tags (uninit : Nat → Nat → Byte) (word_size sets lines line_size : Nat)
    (i : Nat) (hi : i < sets) :
    set_tags (cache_new uninit word_size sets lines line_size) i
      = List.replicate lines INVALID_TAG := by
  have hinv := cache_new_inv uninit word_size sets lines line_size
  obtain ⟨s, hs, _⟩ := hinv.get_set_ok (show i < sets from hi)
  have hrep := hinv.rep i s hs
  apply List.eq_replicate_iff.mpr
  refine ⟨by rw [length_set_tags]; exact hinv.cnt i hi, ?_⟩
  intro t ht
  obtain ⟨p, hp, rfl⟩ := List.mem_map.mp ht
  exact (cache_new_fresh uninit word_size sets lines line_size p (hrep.valid p hp)).1

/-- C7, as the code runs it: on a fresh cache of geometry (32, 1, 2, 8), whatever the
fresh buffers and the next level hold, the loads of the words at 0, 8, 16, 0, 8 are
miss, miss, miss, miss, miss.  After the second both block 0 and block 1 are present;
the third evicts block 0 and retains block 1; the fourth evicts block 1, which is why
the fifth misses.  The frame `F` is arbitrary. -/
theorem scenario_two_lines (F : Frame) (uninit next_level : Nat → Nat → Byte) :
    miss_trace F next_level (cache_new uninit 32 1 2 8)
        [Op.load_word 0, Op.load_word 8, Op.load_word 16, Op.load_word 0, Op.load_word 8]
      = .ok [true, true, true, true, true] ∧
    ∃ c2 c3 c4, run F next_level (cache_new uninit 32 1 2 8) [Op.load_word 0, Op.load_word 8]
        = .ok c2 ∧ set_tags c2 0 = [1, 0] ∧
      run F next_level (cache_new uninit 32 1 2 8)
        [Op.load_word 0, Op.load_word 8, Op.load_word 16] = .ok c3 ∧ set_tags c3 0 = [2, 1] ∧
      run F next_level (cache_new uninit 32 1 2 8)
        [Op.load_word 0, Op.load_word 8, Op.load_word 16, Op.load_word 0] = .ok c4 ∧
      set_tags c4 0 = [0, 2] := by
  have hinv := cache_new_inv uninit 32 1 2 8
  have ht0 : set_tags (cache_new uninit 32 1 2 8) 0 = [INVALID_TAG, INVALID_TAG] :=
    cache_new_tags uninit 32 1 2 8 0 (by decide)
  have hops : ∀ ops : List Op, (∀ op ∈ ops, ∃ a, op = Op.load_word a ∧ a % 8 = 0) →
      ∀ op ∈ ops, index_of (cache_new uninit 32 1 2 8) op.address = 0 ∧
        op.fits_at F (cache_new uninit 32 1 2 8) := by
    intro ops h op hop
    obtain ⟨a, rfl, ha⟩ := h op hop
    refine ⟨Nat.mod_one _, fits_at_of_fits F ?_⟩
    show a % 8 + 32 / 8 ≤ 8
    omega
  have hgeo : ∀ a, tag_of (cache_new uninit 32 1 2 8) a = a / 8 / 1 := fun _ => rfl
  have g1 : 1 ≤ (cache_new uninit 32 1 2 8).set_cnt := Nat.le_refl 1
  have g2 : 1 ≤ (cache_new uninit 32 1 2 8).line_cnt := show 1 ≤ 2 by decide
  have g3 : 1 ≤ (cache_new uninit 32 1 2 8).line_size := show 1 ≤ 8 by decide
  obtain ⟨c5, _, _, _, _, _, _, _, hm5⟩ := run_tags F next_level 0
    [Op.load_word 0, Op.load_word 8, Op.load_word 16, Op.load_word 0, Op.load_word 8] hinv
    g1 g2 g3 (hops _ (by simp))
  obtain ⟨c2, hr2, _, _, _, _, _, ht2, _⟩ := run_tags F next_level 0
    [Op.load_word 0, Op.load_word 8] hinv g1 g2 g3 (hops _ (by simp))
  obtain ⟨c3, hr3, _, _, _, _, _, ht3, _⟩ := run_tags F next_level 0
    [Op.load_word 0, Op.load_word 8, Op.load_word 16] hinv g1 g2 g3
    (hops _ (by simp))
  obtain ⟨c4, hr4, _, _, _, _, _, ht4, _⟩ := run_tags F next_level 0
    [Op.load_word 0, Op.load_word 8, Op.load_word 16, Op.load_word 0] hinv g1
    g2 g3 (hops _ (by simp))
  simp only [ht0, List.map_cons, List.map_nil, hgeo, Op.address] at hm5 ht2 ht3 ht4
  refine ⟨hm5.trans ?_, c2, c3, c4, hr2, ht2.trans ?_, hr3, ht3.trans ?_, hr4, ht4.trans ?_⟩
  · rfl
  · decide
  · decide
  · decide

/-- C7, as the specification states it, fails: with zeroed fresh buffers and
`plain_memory` behind the cache, the fifth access (address 8) is a miss, not a hit. -/
theorem scenario_fifth_access_misses :
    miss_trace Frame.index_over_offset plain_memory (cache_new blank 32 1 2 8)
        [Op.load_word 0, Op.load_word 8, Op.load_word 16, Op.load_word 0, Op.load_word 8]
      = .ok [true, true, true, true, true] ∧
    miss_trace Frame.index_over_offset plain_memory (cache_new blank 32 1 2 8)
        [Op.load_word 0, Op.load_word 8, Op.load_word 16, Op.load_word 0, Op.load_word 8]
      ≠ .ok [true, true, true, true, false] := by
  have h : miss_trace Frame.index_over_offset plain_memory (cache_new blank 32 1 2 8)
      [Op.load_word 0, Op.load_word 8, Op.load_word 16, Op.load_word 0, Op.load_word 8]
      = .ok [true, true, true, true, true] := by rfl
  refine ⟨h, ?_⟩
  rw [h]
  intro e
  cases e

/-- C10, as the specification states it, fails: `cache_new` with `line_size = 0` returns
a cache (one set of two linked lines with empty buffers), and the first load on it
divides by zero in `split_addr`. -/
theorem cache_new_accepts_zero_line_size :
    (cache_new blank 32 1 2 0).sets = [{ head := some 0, tail := some 1 }] ∧
    (cache_new blank 32 1 2 0).line_size = 0 ∧
    cache_load_word Frame.index_over_offset plain_memory (cache_new blank 32 1 2 0) 0 = .error
        .div_by_zero :=
  ⟨rfl, rfl, rfl⟩

/-- C10, as the code behaves: `cache_new` checks none of its arguments.  For a geometry
with `sets = 0`, `lines = 0` or `line_size = 0` it still returns a cache, whose
geometry fields are the arguments; every load or store on that cache is undefined:
a division by zero in `split_addr` when `sets = 0` or `line_size = 0`, and otherwise
(`lines = 0`) a dereference of the `NULL` tail of the empty set in `mishandling`.
The frame `F` is arbitrary. -/
theorem cache_new_unchecked (F : Frame) (uninit next_level : Nat → Nat → Byte)
    (word_size sets lines line_size : Nat) (op : Op)
    (hz : sets = 0 ∨ lines = 0 ∨ line_size = 0) :
    (cache_new uninit word_size sets lines line_size).word_size = word_size ∧
    (cache_new uninit word_size sets lines line_size).set_cnt = sets ∧
    (cache_new uninit word_size sets lines line_size).line_cnt = lines ∧
    (cache_new uninit word_size sets lines line_size).line_size = line_size ∧
    (cache_new uninit word_size sets lines line_size).sets.length = sets ∧
    access F next_level (cache_new uninit word_size sets lines line_size) op
      = .error (if sets = 0 ∨ line_size = 0 then .div_by_zero else .null_deref) := by
  have hinv := cache_new_inv uninit word_size sets lines line_size
  refine ⟨rfl, rfl, rfl, rfl, hinv.sets_len, ?_⟩
  by_cases h : sets = 0 ∨ line_size = 0
  · rw [if_pos h]
    exact access_div_by_zero next_level _ op (by
      rcases h with h | h
      · exact Or.inr h
      · exact Or.inl h)
  · rw [if_neg h]
    have hl : lines = 0 := by omega
    exact access_no_lines next_level hinv (show 1 ≤ sets by omega)
      (show 1 ≤ line_size by omega) hl op

theorem cache_new_unchecked_witness :
    (1 = 0 ∨ 0 = 0 ∨ 8 = 0) ∧
    (cache_new blank 32 1 0 8).word_size = 32 ∧
    (cache_new blank 32 1 0 8).set_cnt = 1 ∧
    (cache_new blank 32 1 0 8).line_cnt = 0 ∧
    (cache_new blank 32 1 0 8).line_size = 8 ∧
    (cache_new blank 32 1 0 8).sets.length = 1 ∧
    access Frame.index_over_offset plain_memory (cache_new blank 32 1 0 8) (Op.load_word 0)
      = .error (if 1 = 0 ∨ 8 = 0 then .div_by_zero else .null_deref) :=
  ⟨by decide, cache_new_unchecked Frame.index_over_offset blank plain_memory 32 1 0 8
    (Op.load_word 0) (by decide)⟩

theorem two_blocks_rep : SetRep two_blocks.heap { head := some 0, tail := some 1 } [0, 1] :=
  (@reachable_two_blocks Frame.separate).inv.1.rep 0 { head := some 0, tail := some 1 } rfl

/-- C14: for `lines ≥ 1` (and any `sets`, `line_size`), `cache_new` returns a cache with
exactly `sets` sets and `sets * lines` lines; every line carries `INVALID_TAG` and a
buffer of `line_size` bytes; the stored geometry equals the arguments.  Lines are
allocated one after the other, so positions in the heap are creation order: set `i`
is the list of positions `i * lines, ..., i * lines + lines - 1` from head to tail,
its head is the first line created for it and its tail the last. -/
theorem cache_new_layout (uninit : Nat → Nat → Byte) (word_size sets lines line_size : Nat)
    (h2 : 1 ≤ lines) :
    (cache_new uninit word_size sets lines line_size).sets.length = sets ∧
    (cache_new uninit word_size sets lines line_size).heap.length = sets * lines ∧
    (cache_new uninit word_size sets lines line_size).word_size = word_size ∧
    (cache_new uninit word_size sets lines line_size).set_cnt = sets ∧
    (cache_new uninit word_size sets lines line_size).line_cnt = lines ∧
    (cache_new uninit word_size sets lines line_size).line_size = line_size ∧
    (∀ p, p < sets * lines →
      ∃ l, (cache_new uninit word_size sets lines line_size).heap[p]? = some l ∧
        l.tag = INVALID_TAG ∧ l.data.length = line_size) ∧
    ∀ i, i < sets →
      set_lines (cache_new uninit word_size sets lines line_size) i
        = List.range' (i * lines) lines ∧
      (set_lines (cache_new uninit word_size sets lines line_size) i).length = lines ∧
      ∃ s, (cache_new uninit word_size sets lines line_size).sets[i]? = some s ∧
        s.head = some (i * lines) ∧ s.tail = some (i * lines + (lines - 1)) := by
  have hst := cache_new_state uninit word_size sets lines line_size
  have hlen : (cache_new uninit word_size sets lines line_size).heap.length = sets * lines :=
    hst.heap_len
  refine ⟨hst.sets_len, hlen, rfl, rfl, rfl, rfl, ?_, ?_⟩
  · intro p hp
    have hp2 : p < (cache_new uninit word_size sets lines line_size).heap.length := by
      rw [hlen]; exact hp
    have hf := hst.fresh p hp2
    exact ⟨_, line_at_of_lt hp2, hf.1, hf.2⟩
  · intro i hi
    have hl := cache_new_lines uninit word_size sets lines line_size i hi
    obtain ⟨s, hs, r⟩ := hst.rep i hi
    refine ⟨hl, by rw [hl]; simp, s, hs, ?_, ?_⟩
    · rw [r.head_eq]
      obtain ⟨k, rfl⟩ : ∃ k, lines = k + 1 := ⟨lines - 1, by omega⟩
      simp [List.range'_succ]
    · rw [r.tail_eq]
      obtain ⟨k, rfl⟩ : ∃ k, lines = k + 1 := ⟨lines - 1, by omega⟩
      rw [List.range'_concat]
      simp

theorem cache_new_layout_witness :
    1 ≤ 2 ∧
    (cache_new blank 32 2 2 8).sets.length = 2 ∧
    (cache_new blank 32 2 2 8).heap.length = 2 * 2 ∧
    (cache_new blank 32 2 2 8).word_size = 32 ∧
    (cache_new blank 32 2 2 8).set_cnt = 2 ∧
    (cache_new blank 32 2 2 8).line_cnt = 2 ∧
    (cache_new blank 32 2 2 8).line_size = 8 ∧
    (∀ p, p < 2 * 2 →
      ∃ l, (cache_new blank 32 2 2 8).heap[p]? = some l ∧
        l.tag = INVALID_TAG ∧ l.data.length = 8) ∧
    ∀ i, i < 2 →
      set_lines (cache_new blank 32 2 2 8) i = List.range' (i * 2) 2 ∧
      (set_lines (cache_new blank 32 2 2 8) i).length = 2 ∧
      ∃ s, (cache_new blank 32 2 2 8).sets[i]? = some s ∧
        s.head = some (i * 2) ∧ s.tail = some (i * 2 + (2 - 1)) :=
  ⟨by decide, cache_new_layout blank 32 2 2 8 (by decide)⟩

/-- C19: set isolation.  In every reachable state, whenever `cache_load_word`,
`cache_load_block` or `cache_store_word` on address `a` returns, every set other than
set `index(a)` is unchanged: same head and tail, same lines in the same recency order,
and every one of its lines is unchanged (tag, data, links); the geometry fields
`word_size`, `set_cnt`, `line_cnt`, `line_size` are unchanged too.  The frame `F` is arbitrary. -/
theorem other_sets_unchanged (F : Frame) (word_size sets lines line_size : Nat) (c : cache_t1)
    (hc : Reachable F word_size sets lines line_size c) (next_level : Nat → Nat → Byte)
    (op : Op) (r : Result) (hr : access F next_level c op = .ok r) :
    r.cache.word_size = c.word_size ∧ r.cache.set_cnt = c.set_cnt ∧
    r.cache.line_cnt = c.line_cnt ∧ r.cache.line_size = c.line_size ∧
    ∀ j, j ≠ index_of c op.address →
      r.cache.sets[j]? = c.sets[j]? ∧ set_lines r.cache j = set_lines c j ∧
      ∀ p ∈ set_lines c j, r.cache.heap[p]? = c.heap[p]? := by
  obtain ⟨hinv, _, _, _, _, _⟩ := hc.inv
  by_cases hz : c.line_size = 0 ∨ c.set_cnt = 0
  · rw [access_div_by_zero next_level c op hz] at hr; cases hr
  have g1 : 1 ≤ c.line_size := by omega
  have g2 : 1 ≤ c.set_cnt := by omega
  by_cases hl : c.line_cnt = 0
  · rw [access_no_lines next_level hinv g2 g1 hl op] at hr; cases hr
  obtain ⟨A, p, B, ht, _, _⟩ := access_touched next_level hinv g2 (by omega) g1 op r hr
  have hs := ht.step
  refine ⟨hs.word_size, hs.set_cnt, hs.line_cnt, hs.line_size, ?_⟩
  intro j hj
  refine ⟨hs.sets_others j hj, hs.others j hj, ?_⟩
  intro x hx
  have hx2 : x ∉ set_lines c (op.address / c.line_size % c.set_cnt) :=
    fun h => hinv.disj j _ hj x hx h
  obtain ⟨s, hsj⟩ : ∃ s, c.sets[j]? = some s := by
    cases h : c.sets[j]? with
    | none => simp [set_lines, h] at hx
    | some s => exact ⟨s, rfl⟩
  have hxlt : x < c.heap.length := (hinv.rep j s hsj).valid x hx
  rw [line_at_of_lt hxlt, line_at_of_lt (by rw [hs.heap_len]; exact hxlt), hs.frame x hx2]

theorem other_sets_unchanged_witness :
    Reachable Frame.index_over_offset 32 2 2 8 (cache_new blank 32 2 2 8) ∧
    access Frame.index_over_offset plain_memory (cache_new blank 32 2 2 8) (Op.load_word 8) = .ok
        second_set_loaded ∧
    second_set_loaded.cache.word_size = (cache_new blank 32 2 2 8).word_size ∧
    second_set_loaded.cache.set_cnt = (cache_new blank 32 2 2 8).set_cnt ∧
    second_set_loaded.cache.line_cnt = (cache_new blank 32 2 2 8).line_cnt ∧
    second_set_loaded.cache.line_size = (cache_new blank 32 2 2 8).line_size ∧
    ∀ j, j ≠ index_of (cache_new blank 32 2 2 8) (Op.load_word 8).address →
      second_set_loaded.cache.sets[j]? = (cache_new blank 32 2 2 8).sets[j]? ∧
      set_lines second_set_loaded.cache j = set_lines (cache_new blank 32 2 2 8) j ∧
      ∀ p ∈ set_lines (cache_new blank 32 2 2 8) j,
        second_set_loaded.cache.heap[p]? = (cache_new blank 32 2 2 8).heap[p]? :=
  ⟨Reachable.new blank, rfl,
    other_sets_unchanged Frame.index_over_offset 32 2 2 8 (cache_new blank 32 2 2 8) (Reachable.new
        blank) plain_memory
      (Op.load_word 8) second_set_loaded rfl⟩

theorem move_to_head_at_head (c : cache_t1) (i : Nat) (s : set_t) (B : List Nat) (L : Nat)
    (hs : c.sets[i]? = some s) (r : SetRep c.heap s (L :: B)) :
    move_to_head c i (some L) = .ok c := by
  have : s.head = some L := by rw [r.head_eq]; simp
  simp [move_to_head, get_set, hs, ok_bind, this, pure_eq_ok]

/-- C18: `move_to_head` is a move-to-front.  For a well-formed set whose list is
`A ++ L :: B`: if `L` is the head (`A` empty) the cache is unchanged; otherwise the
list becomes `L :: A ++ B` (the other lines in their previous order), the tail becomes
`L`'s former predecessor exactly when `L` was the tail and is unchanged otherwise, no
line's tag or data changes, and no line outside the set changes. -/
theorem move_to_head_moves_to_front (c : cache_t1) (i : Nat) (s : set_t) (A B : List Nat)
    (L : Nat) (hs : c.sets[i]? = some s) (r : SetRep c.heap s (A ++ L :: B)) :
    (A = [] → move_to_head c i (some L) = .ok c) ∧
    (A ≠ [] → ∃ H s1,
      move_to_head c i (some L) = .ok { c with heap := H, sets := c.sets.set i s1 } ∧
      SetRep H s1 (L :: (A ++ B)) ∧ H.length = c.heap.length ∧
      (∀ x, (line_at H x).tag = (line_at c.heap x).tag) ∧
      (∀ x, (line_at H x).data = (line_at c.heap x).data) ∧
      (line_at c.heap L).prev = A.getLast? ∧
      (B = [] → s.tail = some L ∧ s1.tail = (line_at c.heap L).prev) ∧
      (B ≠ [] → s.tail ≠ some L ∧ s1.tail = s.tail) ∧
      (∀ x, x ∉ A ++ L :: B → line_at H x = line_at c.heap x)) := by
  constructor
  · rintro rfl
    exact move_to_head_at_head c i s B L hs r
  · intro hA
    obtain ⟨H, s1, hmv, hlen, htag, hdata, hfr, hrep⟩ := move_to_head_rep c i s A B L hs r hA
    have hlinks := r.links
    obtain ⟨a, ha⟩ : ∃ a, A.getLast? = some a := by
      rcases List.eq_nil_or_concat A with h | ⟨K, b, h⟩
      · exact absurd h hA
      · exact ⟨b, by simp [h]⟩
    have hLB : L ∉ B :=
      (List.nodup_cons.mp (List.nodup_append.mp r.nodup).2.1).1
    refine ⟨H, s1, hmv, hrep, hlen, htag, hdata, hlinks.1, ?_, ?_, hfr⟩
    · rintro rfl
      refine ⟨by rw [r.tail_eq]; simp, ?_⟩
      rw [hrep.tail_eq, hlinks.1, List.append_nil, ha]
      exact getLast?_cons_some L ha
    · intro hB
      obtain ⟨b, B2, rfl⟩ : ∃ b B2, B = b :: B2 := by
        cases B with
        | nil => exact absurd rfl hB
        | cons b B2 => exact ⟨b, B2, rfl⟩
      have h1 : s.tail = (b :: B2).getLast? := by
        rw [r.tail_eq]
        have : A ++ L :: b :: B2 = (A ++ [L]) ++ b :: B2 := by simp
        rw [this]; exact getLast?_append_cons _ b B2
      refine ⟨?_, ?_⟩
      · rw [h1]
        intro e
        exact hLB (List.mem_of_mem_getLast? e)
      · rw [hrep.tail_eq, h1, ← List.cons_append]
        exact getLast?_append_cons _ b B2

theorem move_to_head_moves_to_front_witness :
    two_blocks.sets[0]? = some { head := some 0, tail := some 1 } ∧
    SetRep two_blocks.heap { head := some 0, tail := some 1 } ([0] ++ 1 :: []) ∧
    (([0] : List Nat) = [] → move_to_head two_blocks 0 (some 1) = .ok two_blocks) ∧
    (([0] : List Nat) ≠ [] → ∃ H s1,
      move_to_head two_blocks 0 (some 1)
        = .ok { two_blocks with heap := H, sets := two_blocks.sets.set 0 s1 } ∧
      SetRep H s1 (1 :: ([0] ++ [])) ∧ H.length = two_blocks.heap.length ∧
      (∀ x, (line_at H x).tag = (line_at two_blocks.heap x).tag) ∧
      (∀ x, (line_at H x).data = (line_at two_blocks.heap x).data) ∧
      (line_at two_blocks.heap 1).prev = ([0] : List Nat).getLast? ∧
      (([] : List Nat) = [] → ({ head := some 0, tail := some 1 } : set_t).tail = some 1 ∧
        s1.tail = (line_at two_blocks.heap 1).prev) ∧
      (([] : List Nat) ≠ [] → ({ head := some 0, tail := some 1 } : set_t).tail ≠ some 1 ∧
        s1.tail = ({ head := some 0, tail := some 1 } : set_t).tail) ∧
      (∀ x, x ∉ [0] ++ 1 :: [] → line_at H x = line_at two_blocks.heap x)) :=
  ⟨rfl, two_blocks_rep,
    move_to_head_moves_to_front two_blocks 0 { head := some 0, tail := some 1 } [0] [] 1 rfl
      two_blocks_rep⟩

theorem mishandling_rep (next_level : Nat → Nat → Byte) (c : cache_t1) (i : Nat) (s : set_t)
    (A : List Nat) (z : Nat) (hs : c.sets[i]? = some s) (r : SetRep c.heap s (A ++ [z]))
    (t a : Nat) :
    ∃ H s1, mishandling next_level c i t a = .ok { c with heap := H, sets := c.sets.set i s1 } ∧
      SetRep H s1 (z :: A) ∧ H.length = c.heap.length ∧
      (line_at H z).tag = t ∧
      (line_at H z).data = load_block_from_next_level next_level a (line_at c.heap z).data ∧
      (∀ x, x ≠ z → (line_at H x).tag = (line_at c.heap x).tag ∧
        (line_at H x).data = (line_at c.heap x).data) ∧
      (∀ x, x ∉ A ++ [z] → line_at H x = line_at c.heap x) := by
  have htail : s.tail = some z := by rw [r.tail_eq]; simp
  have hzlt : z < c.heap.length := r.valid z (by simp)
  have hilt : i < c.sets.length := by
    rcases Nat.lt_or_ge i c.sets.length with h | h
    · exact h
    · rw [List.getElem?_eq_none h] at hs; cases hs
  -- the promotion of the tail
  obtain ⟨H, s1, hmv, hrep, hlen, htag, hdata, hfr⟩ :
      ∃ H s1, move_to_head c i (some z) = .ok { c with heap := H, sets := c.sets.set i s1 } ∧
        SetRep H s1 (z :: A) ∧ H.length = c.heap.length ∧
        (∀ x, (line_at H x).tag = (line_at c.heap x).tag) ∧
        (∀ x, (line_at H x).data = (line_at c.heap x).data) ∧
        (∀ x, x ∉ A ++ [z] → line_at H x = line_at c.heap x) := by
    by_cases hA : A = []
    · subst hA
      refine ⟨c.heap, s, ?_, by simpa using r, rfl, fun _ => rfl, fun _ => rfl, fun _ _ => rfl⟩
      have h1 := move_to_head_at_head c i s [] z hs r
      rw [h1]
      congr 1
      have : c.sets.set i s = c.sets := by
        apply List.ext_getElem?
        intro n
        by_cases hn : i = n
        · subst hn; rw [List.getElem?_set_self hilt, hs]
        · rw [List.getElem?_set_ne hn]
      rw [this]
    · obtain ⟨H, s1, h1, h3, h4, h5, h9, h2⟩ := move_to_head_rep c i s A [] z hs r hA
      exact ⟨H, s1, h1, by simpa using h2, h3, h4, h5, h9⟩
  have hzlt2 : z < H.length := by rw [hlen]; exact hzlt
  let f : line_t → line_t := fun l =>
    { tag := t, data := load_block_from_next_level next_level a l.data, prev := l.prev,
      next := l.next }
  have hline : ∀ x, line_at (upd H z f) x = if x = z then f (line_at H z) else line_at H x :=
    fun x => line_at_upd hzlt2 f x
  refine ⟨upd H z f, s1, ?_, ?_, by rw [length_upd, hlen], ?_, ?_, ?_, ?_⟩
  · unfold mishandling
    simp only [get_set, hs, ok_bind, htail, hmv, deref, wr_eq, hzlt2, length_upd, if_true,
      pure_eq_ok, upd_upd]
  · refine hrep.frame (length_upd _ _ _) ?_
    intro x _
    rw [hline]
    split_ifs with h
    · subst h; exact ⟨rfl, rfl⟩
    · exact ⟨rfl, rfl⟩
  · rw [hline, if_pos rfl]
  · rw [hline, if_pos rfl]
    show load_block_from_next_level next_level a (line_at H z).data = _
    rw [hdata]
  · intro x hx
    rw [hline, if_neg hx]
    exact ⟨htag x, hdata x⟩
  · intro x hx
    have hxz : x ≠ z := fun e => hx (by simp [e])
    rw [hline, if_neg hxz]
    exact hfr x hx

/-- C17: miss handling replaces the tail and nothing else.  For a well-formed set with
at least one line (list `ps`, buffers of `line_size` bytes), `mishandling(c, index,
tag, addr)` takes the tail `z` of the set, makes it the head, sets its tag to `tag`
and its whole buffer to the `line_size` bytes the next level returns for `addr`;
every other line keeps its tag and data, the other lines keep their order (the old
second-to-last line is the new tail when there are two lines or more), and no line
outside the set changes. -/
theorem mishandling_replaces_tail (next_level : Nat → Nat → Byte) (c : cache_t1) (i : Nat)
    (s : set_t) (ps : List Nat) (t a : Nat) (hs : c.sets[i]? = some s)
    (r : SetRep c.heap s ps) (hne : ps ≠ [])
    (hbuf : ∀ p ∈ ps, (line_at c.heap p).data.length = c.line_size) :
    ∃ A z H s1, ps = A ++ [z] ∧ s.tail = some z ∧
      mishandling next_level c i t a = .ok { c with heap := H, sets := c.sets.set i s1 } ∧
      SetRep H s1 (z :: A) ∧ s1.head = some z ∧ (A ≠ [] → s1.tail = A.getLast?) ∧
      H.length = c.heap.length ∧
      (line_at H z).tag = t ∧
      (line_at H z).data = (List.range c.line_size).map (next_level a) ∧
      (∀ x, x ≠ z → (line_at H x).tag = (line_at c.heap x).tag ∧
        (line_at H x).data = (line_at c.heap x).data) ∧
      (∀ x, x ∉ ps → line_at H x = line_at c.heap x) := by
  obtain ⟨A, z, rfl⟩ : ∃ A z, ps = A ++ [z] := by
    rcases List.eq_nil_or_concat ps with h | ⟨K, b, h⟩
    · exact absurd h hne
    · exact ⟨K, b, by simpa using h⟩
  obtain ⟨H, s1, hm, hrep, hlen, htag, hdata, hrest, hfr⟩ :=
    mishandling_rep next_level c i s A z hs r t a
  refine ⟨A, z, H, s1, rfl, by rw [r.tail_eq]; simp, hm, hrep, by rw [hrep.head_eq]; simp, ?_,
    hlen, htag, ?_, hrest, hfr⟩
  · intro hA
    rw [hrep.tail_eq]
    obtain ⟨b, hb⟩ : ∃ b, A.getLast? = some b := by
      rcases List.eq_nil_or_concat A with h | ⟨K, b, h⟩
      · exact absurd h hA
      · exact ⟨b, by simp [h]⟩
    rw [hb]; exact getLast?_cons_some z hb
  · rw [hdata, load_block_from_next_level, hbuf z (by simp)]

theorem mishandling_replaces_tail_witness :
    two_blocks.sets[0]? = some { head := some 0, tail := some 1 } ∧
    SetRep two_blocks.heap { head := some 0, tail := some 1 } [0, 1] ∧
    ([0, 1] : List Nat) ≠ [] ∧
    (∀ p ∈ ([0, 1] : List Nat), (line_at two_blocks.heap p).data.length = two_blocks.line_size) ∧
    ∃ A z H s1, [0, 1] = A ++ [z] ∧
      ({ head := some 0, tail := some 1 } : set_t).tail = some z ∧
      mishandling plain_memory two_blocks 0 5 40
        = .ok { two_blocks with heap := H, sets := two_blocks.sets.set 0 s1 } ∧
      SetRep H s1 (z :: A) ∧ s1.head = some z ∧ (A ≠ [] → s1.tail = A.getLast?) ∧
      H.length = two_blocks.heap.length ∧
      (line_at H z).tag = 5 ∧
      (line_at H z).data = (List.range two_blocks.line_size).map (plain_memory 40) ∧
      (∀ x, x ≠ z → (line_at H x).tag = (line_at two_blocks.heap x).tag ∧
        (line_at H x).data = (line_at two_blocks.heap x).data) ∧
      (∀ x, x ∉ ([0, 1] : List Nat) → line_at H x = line_at two_blocks.heap x) :=
  ⟨rfl, two_blocks_rep, by decide, by decide,
    mishandling_replaces_tail plain_memory two_blocks 0 { head := some 0, tail := some 1 }
      [0, 1] 5 40 rfl two_blocks_rep (by decide) (by decide)⟩

theorem load_block_resolved (next_level : Nat → Nat → Byte) {c : cache_t1} (a size : Nat)
    (c1 : cache_t1) (p : Nat) (fills : List Nat)
    (hres : resolve next_level c a = .ok (c1, some p, fills)) (hp : p < c1.heap.length) :
    cache_load_block next_level c a size
      = if size ≤ (line_at c1.heap p).data.length
        then .ok ⟨c1, (line_at c1.heap p).data.take size, fills⟩
        else .error .out_of_bounds := by
  simp only [cache_load_block_eq, ok_bind, hres, deref, rd_eq, hp, if_true, read_bytes,
    pure_eq_ok, Nat.zero_add, List.drop_zero]
  split_ifs <;> rfl

theorem resolve_same_block (next_level : Nat → Nat → Byte) (c : cache_t1) (a b : Nat)
    (ht : b / c.line_size / c.set_cnt = a / c.line_size / c.set_cnt)
    (hi : b / c.line_size % c.set_cnt = a / c.line_size % c.set_cnt)
    (hnl : next_level b = next_level a) (c1 : cache_t1) (line : Option Nat) (fa : List Nat)
    (h : resolve next_level c a = .ok (c1, line, fa)) :
    ∃ fb, resolve next_level c b = .ok (c1, line, fb) := by
  have hm : mishandling next_level c (a / c.line_size % c.set_cnt)
      (a / c.line_size / c.set_cnt) b
      = mishandling next_level c (a / c.line_size % c.set_cnt)
        (a / c.line_size / c.set_cnt) a := by
    unfold mishandling load_block_from_next_level
    rw [hnl]
  have hsa : ∀ x, split_addr c x = if c.line_size = 0 then .error .div_by_zero
      else if c.set_cnt = 0 then .error .div_by_zero
      else .ok (x / c.line_size / c.set_cnt, x / c.line_size % c.set_cnt, x % c.line_size) :=
    fun _ => rfl
  unfold resolve at h ⊢
  rw [hsa] at h ⊢
  by_cases h1 : c.line_size = 0
  · rw [if_pos h1] at h; cases h
  rw [if_neg h1] at h ⊢
  by_cases h2 : c.set_cnt = 0
  · rw [if_pos h2] at h; cases h
  rw [if_neg h2] at h ⊢
  simp only [ok_bind, ht, hi] at h ⊢
  revert h
  cases get_set c (a / c.line_size % c.set_cnt) with
  | error e => intro h; cases h
  | ok s =>
  simp only [ok_bind]
  cases find_line c.heap s (a / c.line_size / c.set_cnt) with
  | error e => intro h; cases h
  | ok ln =>
  simp only [ok_bind]
  cases ln with
  | some q =>
    simp only [ne_eq, reduceCtorEq, not_false_eq_true, if_true]
    cases move_to_head c (a / c.line_size % c.set_cnt) (some q) with
    | error e => intro h; cases h
    | ok c2 =>
    intro h
    cases h
    exact ⟨[], rfl⟩
  | none =>
    simp only [ne_eq, not_true_eq_false, if_false, hm]
    cases mishandling next_level c (a / c.line_size % c.set_cnt)
        (a / c.line_size / c.set_cnt) a with
    | error e => intro h; cases h
    | ok c2 =>
    simp only [ok_bind]
    cases get_set c2 (a / c.line_size % c.set_cnt) with
    | error e => intro h; cases h
    | ok s2 =>
    simp only [ok_bind]
    cases find_line c2.heap s2 (a / c.line_size / c.set_cnt) with
    | error e => intro h; cases h
    | ok l2 =>
    intro h
    cases h
    exact ⟨[b], rfl⟩

/-- C16: cache_load_block ignores the offset.  In every state reachable from `cache_new`
with `sets`, `lines`, `line_size ≥ 1` and for every `size ≤ line_size`,
`cache_load_block(a, size)` returns, the line it resolved is the head of the set of `a`
and carries the tag of `a`, and the output is bytes `0 .. size-1` of that line's
buffer, whatever the offset of `a`.  Every address `b` with the tag and index of `a`
then reads the same bytes from the resulting cache without changing it, and, started
from the same cache with a next level that answers `b` as it answers `a`, produces the
same cache and the same output.  The frame `F` is arbitrary. -/
theorem load_block_ignores_offset (F : Frame) (word_size sets lines line_size : Nat) (c : cache_t1)
    (h1 : 1 ≤ sets) (h2 : 1 ≤ lines) (h3 : 1 ≤ line_size)
    (hc : Reachable F word_size sets lines line_size c) (next_level next_level2 : Nat → Nat → Byte)
    (a size : Nat) (hsize : size ≤ line_size) :
    ∃ r s p l, cache_load_block next_level c a size = .ok r ∧
      r.cache.sets[index_of c a]? = some s ∧ s.head = some p ∧
      r.cache.heap[p]? = some l ∧ l.tag = tag_of c a ∧ l.data.length = line_size ∧
      r.out = l.data.take size ∧
      ∀ b, tag_of c b = tag_of c a → index_of c b = index_of c a →
        cache_load_block next_level2 r.cache b size = .ok ⟨r.cache, r.out, []⟩ ∧
        (next_level b = next_level a →
          ∃ rb, cache_load_block next_level c b size = .ok rb ∧ rb.cache = r.cache ∧
            rb.out = r.out) := by
  obtain ⟨hinv, hws, hsc, hlc, hls, _⟩ := hc.inv
  obtain ⟨A, p, B, c1, fills, hres, hR⟩ :=
    resolve_resolved next_level hinv (by omega) (by omega) (by omega) a
  have hs := hR.step
  have hi : a / c.line_size % c.set_cnt < c1.set_cnt := by
    rw [hs.set_cnt]; exact Nat.mod_lt _ (by omega)
  obtain ⟨s1, hs1, _⟩ := hs.inv.get_set_ok hi
  have hrep := hs.inv.rep _ s1 hs1
  rw [hs.lines] at hrep
  have hplt : p < c1.heap.length := hrep.valid p (by simp)
  have hbuf : (line_at c1.heap p).data.length = line_size := by
    rw [hs.inv.buf p hplt, hs.line_size, hls]
  have hle : size ≤ (line_at c1.heap p).data.length := by rw [hbuf]; exact hsize
  have hacc := load_block_resolved next_level a size c1 p fills hres hplt
  rw [if_pos hle] at hacc
  refine ⟨_, s1, p, _, hacc, hs1, hrep.head_eq, line_at_of_lt hplt, hR.tag, hbuf, rfl, ?_⟩
  intro b htb hib
  simp only [tag_of, index_of] at htb hib
  constructor
  · have hl2 : set_lines c1 (b / c1.line_size % c1.set_cnt) = p :: (A ++ B) := by
      rw [hs.line_size, hs.set_cnt, hib, hs.lines]
    have ht2 : (line_at c1.heap p).tag = b / c1.line_size / c1.set_cnt := by
      rw [hs.line_size, hs.set_cnt, htb]; exact hR.tag
    have hrh := resolve_head next_level2 hs.inv (by rw [hs.set_cnt]; omega)
      (by rw [hs.line_size]; omega) b p (A ++ B) hl2 ht2
    have hb := load_block_resolved next_level2 b size c1 p [] hrh hplt
    rw [if_pos hle] at hb
    exact hb
  · intro hnl
    obtain ⟨fb, hrb⟩ := resolve_same_block next_level c a b htb hib hnl c1 (some p) fills hres
    have hb := load_block_resolved next_level b size c1 p fb hrb hplt
    rw [if_pos hle] at hb
    exact ⟨_, hb, rfl, rfl⟩

theorem load_block_ignores_offset_witness :
    1 ≤ 1 ∧ 1 ≤ 2 ∧ 1 ≤ 8 ∧ Reachable Frame.index_over_offset 32 1 2 8 two_blocks ∧ 5 ≤ 8 ∧
    ∃ r s p l, cache_load_block plain_memory two_blocks 19 5 = .ok r ∧
      r.cache.sets[index_of two_blocks 19]? = some s ∧ s.head = some p ∧
      r.cache.heap[p]? = some l ∧ l.tag = tag_of two_blocks 19 ∧ l.data.length = 8 ∧
      r.out = l.data.take 5 ∧
      ∀ b, tag_of two_blocks b = tag_of two_blocks 19 →
        index_of two_blocks b = index_of two_blocks 19 →
        cache_load_block blank r.cache b 5 = .ok ⟨r.cache, r.out, []⟩ ∧
        (plain_memory b = plain_memory 19 →
          ∃ rb, cache_load_block plain_memory two_blocks b 5 = .ok rb ∧ rb.cache = r.cache ∧
            rb.out = r.out) :=
  ⟨by decide, by decide, by decide, reachable_two_blocks, by decide,
    load_block_ignores_offset Frame.index_over_offset 32 1 2 8 two_blocks (by decide) (by decide)
        (by decide)
      reachable_two_blocks plain_memory blank 19 5 (by decide)⟩

/-- C11, as the code behaves: a block bigger than a line is not rejected.  On a fresh
cache of geometry (32, 1, 2, 8), `cache_load_block(16, 9)` runs the lookup and the
miss handling like any other call (line 1, the tail, is refilled for address 16 and
holds the 8 bytes of the block), and then copies 9 bytes out of that 8-byte buffer:
the copy leaves the buffer, which is the fault `out_of_bounds` and not a refusal. -/
theorem load_block_oversized_on_fresh_cache :
    (∃ c1, resolve plain_memory (cache_new blank 32 1 2 8) 16 = .ok (c1, some 1, [16]) ∧
      (line_at c1.heap 1).data = [16, 17, 18, 19, 20, 21, 22, 23] ∧
      read_bytes (line_at c1.heap 1).data 0 9 = .error .out_of_bounds) ∧
    cache_load_block plain_memory (cache_new blank 32 1 2 8) 16 9 = .error .out_of_bounds :=
  ⟨⟨_, rfl, rfl, rfl⟩, rfl⟩

/-- C11 amended: `cache_load_block` has no check of `size`.  In every state reachable
from `cache_new` with `sets`, `lines`, `line_size ≥ 1`, a call with `size > line_size`
resolves its line like any other call (a hit promotes it, a miss replaces and refills
the tail), the buffer of that line has `line_size` bytes, and the copy of `size` bytes
out of it leaves the buffer, so the call has no defined result: it neither refuses
nor truncates.  The frame `F` is arbitrary. -/
theorem load_block_size_unchecked (F : Frame) (word_size sets lines line_size : Nat) (c : cache_t1)
    (h1 : 1 ≤ sets) (h2 : 1 ≤ lines) (h3 : 1 ≤ line_size)
    (hc : Reachable F word_size sets lines line_size c) (next_level : Nat → Nat → Byte)
    (a size : Nat) (hsize : line_size < size) :
    ∃ c1 p fills, resolve next_level c a = .ok (c1, some p, fills) ∧
      (fills = [] ∨ fills = [a]) ∧
      (line_at c1.heap p).data.length = line_size ∧
      read_bytes (line_at c1.heap p).data 0 size = .error .out_of_bounds ∧
      cache_load_block next_level c a size = .error .out_of_bounds := by
  obtain ⟨hinv, hws, hsc, hlc, hls, _⟩ := hc.inv
  obtain ⟨A, p, B, c1, fills, hres, hR⟩ :=
    resolve_resolved next_level hinv (by omega) (by omega) (by omega) a
  have hs := hR.step
  have hi : a / c.line_size % c.set_cnt < c1.set_cnt := by
    rw [hs.set_cnt]; exact Nat.mod_lt _ (by omega)
  obtain ⟨s1, hs1, _⟩ := hs.inv.get_set_ok hi
  have hrep := hs.inv.rep _ s1 hs1
  rw [hs.lines] at hrep
  have hplt : p < c1.heap.length := hrep.valid p (by simp)
  have hbuf : (line_at c1.heap p).data.length = line_size := by
    rw [hs.inv.buf p hplt, hs.line_size, hls]
  have hacc := load_block_resolved next_level a size c1 p fills hres hplt
  have hfills : fills = [] ∨ fills = [a] := by
    rcases hR with ⟨_, hf⟩ | ⟨_, _, hf⟩
    · exact Or.inl hf
    · exact Or.inr hf
  rw [if_neg (by rw [hbuf]; omega)] at hacc
  refine ⟨c1, p, fills, hres, hfills, hbuf, ?_, hacc⟩
  simp only [read_bytes, hbuf, Nat.zero_add]
  rw [if_neg (by omega)]

theorem load_block_size_unchecked_witness :
    1 ≤ 1 ∧ 1 ≤ 2 ∧ 1 ≤ 8 ∧ Reachable Frame.index_over_offset 32 1 2 8 two_blocks ∧ 8 < 9 ∧
    ∃ c1 p fills, resolve plain_memory two_blocks 16 = .ok (c1, some p, fills) ∧
      (fills = [] ∨ fills = [16]) ∧
      (line_at c1.heap p).data.length = 8 ∧
      read_bytes (line_at c1.heap p).data 0 9 = .error .out_of_bounds ∧
      cache_load_block plain_memory two_blocks 16 9 = .error .out_of_bounds :=
  ⟨by decide, by decide, by decide, reachable_two_blocks, by decide,
    load_block_size_unchecked Frame.index_over_offset 32 1 2 8 two_blocks (by decide) (by decide)
        (by decide)
      reachable_two_blocks plain_memory 16 9 (by decide)⟩

/-- C12, as the code behaves: the sentinel is a tag that addresses have.  With
`line_size = 1` and one set the address `0xFFFFFFFF` has tag `INVALID_TAG`, and with
lines of 8 bytes the address `0x7FFFFFFF8` has it.  The first access of a fresh cache to
such an address finds the never-filled head line by its sentinel tag: the call is
treated as a hit, the next level is not asked, the cache is unchanged and the bytes
returned are those `malloc` left in the buffer (here zeros), not those of the memory. -/
theorem sentinel_tag_hits_fresh_cache :
    split_addr (cache_new blank 8 1 2 1) 0xFFFFFFFF = .ok (INVALID_TAG, 0, 0) ∧
    cache_load_word Frame.index_over_offset plain_memory (cache_new blank 8 1 2 1) 0xFFFFFFFF
      = .ok ⟨cache_new blank 8 1 2 1, [0], []⟩ ∧
    split_addr (cache_new blank 32 1 2 8) 0x7FFFFFFF8 = .ok (INVALID_TAG, 0, 0) ∧
    cache_load_word Frame.index_over_offset plain_memory (cache_new blank 32 1 2 8) 0x7FFFFFFF8
      = .ok ⟨cache_new blank 32 1 2 8, [0, 0, 0, 0], []⟩ ∧
    load_block_from_next_level plain_memory 0x7FFFFFFF8 [0, 0, 0, 0]
      = [0x7FFFFFFF8, 0x7FFFFFFF9, 0x7FFFFFFFA, 0x7FFFFFFFB] :=
  ⟨rfl, rfl, rfl, rfl, rfl⟩

theorem take_drop_map_range (f : Nat → Byte) (ls off n : Nat) (h : off + n ≤ ls) :
    (((List.range ls).map f).drop off).take n = (List.range n).map (fun k => f (off + k)) := by
  apply List.ext_getElem
  · simp; omega
  · intro i h1 h2
    simp

theorem block_base (a ls sc : Nat) : (a / ls / sc * sc + a / ls % sc) * ls = a / ls * ls := by
  rw [Nat.div_add_mod']

theorem Step.mem_of_mem {c c1 : cache_t1} {i : Nat} {ps : List Nat} (hs : Step c c1 i ps)
    (j q : Nat) (hq : q ∈ set_lines c1 j) : q ∈ set_lines c j := by
  by_cases hj : j = i
  · subst hj
    rw [hs.lines] at hq
    exact hs.perm.mem_iff.mp hq
  · rw [hs.others j hj] at hq; exact hq

theorem resolved_coherent (M : Nat → Byte) {c c1 : cache_t1} (hinv : Inv c)
    (hsc : 1 ≤ c.set_cnt) (hcoh : Coherent M c) (a : Nat)
    (A : List Nat) (p : Nat) (B fills : List Nat)
    (hR : Resolved (block_memory M c.line_size) c c1 a A p B fills)
    (htag : a / c.line_size / c.set_cnt ≠ INVALID_TAG) :
    Coherent M c1 ∧ (line_at c1.heap p).data
      = (List.range c.line_size).map (fun k => M (a / c.line_size * c.line_size + k)) := by
  have hs := hR.step
  have hi : a / c.line_size % c.set_cnt < c.set_cnt := Nat.mod_lt _ (by omega)
  have hpm : p ∈ set_lines c (a / c.line_size % c.set_cnt) := by
    rw [hR.lines]; simp
  rcases hR with ⟨h, _⟩ | ⟨rfl, h, _⟩
  · have hdata : (line_at c1.heap p).data
        = (List.range c.line_size).map (fun k => M (a / c.line_size * c.line_size + k)) := by
      rw [h.data p, hcoh _ hi p hpm (by rw [h.tag]; exact htag), h.tag, block_base]
    refine ⟨?_, hdata⟩
    intro j hj q hq hqt
    rw [hs.set_cnt] at hj
    rw [h.tags q] at hqt
    rw [h.data q, h.tags q, hs.set_cnt, hs.line_size]
    exact hcoh j hj q (hs.mem_of_mem j q hq) hqt
  · obtain ⟨s, hs0, _⟩ := hinv.get_set_ok hi
    have hplt : p < c.heap.length := (hinv.rep _ s hs0).valid p hpm
    have hdata : (line_at c1.heap p).data
        = (List.range c.line_size).map (fun k => M (a / c.line_size * c.line_size + k)) := by
      rw [h.data]
      simp only [load_block_from_next_level, hinv.buf p hplt]
      rfl
    refine ⟨?_, hdata⟩
    intro j hj q hq hqt
    rw [hs.set_cnt] at hj
    have hq0 := hs.mem_of_mem j q hq
    by_cases hqp : q = p
    · subst hqp
      have hji : j = a / c.line_size % c.set_cnt := by
        by_contra hne
        exact hinv.disj _ _ hne q hq0 hpm
      subst hji
      rw [hdata, h.tag, hs.set_cnt, hs.line_size, block_base]
    · obtain ⟨e1, e2⟩ := h.rest q hqp
      rw [e1] at hqt
      rw [e2, e1, hs.set_cnt, hs.line_size]
      exact hcoh j hj q hq0 hqt

theorem cache_new_coherent (uninit : Nat → Nat → Byte) (M : Nat → Byte)
    (word_size sets lines line_size : Nat) :
    Coherent M (cache_new uninit word_size sets lines line_size) := by
  intro i hi p hp ht
  exfalso
  apply ht
  have hinv := cache_new_inv uninit word_size sets lines line_size
  obtain ⟨s, hs, _⟩ := hinv.get_set_ok hi
  exact (cache_new_fresh uninit word_size sets lines line_size p
    ((hinv.rep i s hs).valid p hp)).1

/-- C13, as the code behaves: not every address is a valid word access.  With words of
8 bytes and lines of 4 bytes (geometry (64, 1, 2, 4)) the word at address 0 has offset 0
and ends at byte 8 of a 4-byte buffer, whatever the frame: `cache_load_word` and
`cache_store_word` copy past the end of the buffer.  With geometry (32, 1, 2, 8) the word
at address 6 has offset 6 and 4 bytes: where the caller's `offset` holds what `split_addr`
computed, the copy ends at byte 10 of an 8-byte buffer. -/
theorem word_leaves_the_line :
    ¬ (0 % 4 + 64 / 8 ≤ 4) ∧
    cache_load_word Frame.separate plain_memory (cache_new blank 64 1 2 4) 0
      = .error .out_of_bounds ∧
    cache_load_word Frame.index_over_offset plain_memory (cache_new blank 64 1 2 4) 0
      = .error .out_of_bounds ∧
    cache_store_word Frame.separate plain_memory (cache_new blank 64 1 2 4) 0
      [1, 2, 3, 4, 5, 6, 7, 8] = .error .out_of_bounds ∧
    cache_store_word Frame.index_over_offset plain_memory (cache_new blank 64 1 2 4) 0
      [1, 2, 3, 4, 5, 6, 7, 8] = .error .out_of_bounds ∧
    split_addr (cache_new blank 32 1 2 8) 6 = .ok (0, 0, 6) ∧ ¬ (6 + 32 / 8 ≤ 8) ∧
    cache_load_word Frame.separate plain_memory (cache_new blank 32 1 2 8) 6
      = .error .out_of_bounds ∧
    cache_store_word Frame.separate plain_memory (cache_new blank 32 1 2 8) 6 [1, 2, 3, 4]
      = .error .out_of_bounds :=
  ⟨by decide, rfl, rfl, rfl, rfl, rfl, by decide, rfl, rfl⟩

/-- C13 amended: a word access is in bounds when the word ends inside the line, and
there is no check.  In every state reachable from `cache_new` with `sets`, `lines`,
`line_size ≥ 1`, on every frame, for every address `a` and every word buffer of at least
`word_size/8` bytes: if `a % line_size + word_size/8 ≤ line_size` then `cache_load_word`
returns `word_size/8` bytes and `cache_store_word` returns, the bytes they copy lying
inside the buffer of the line; if `word_size/8 > line_size` then both copy past the end
of the buffer and have no defined result, whatever the address.  The frame `F` is arbitrary. -/
theorem word_access_bounds (F : Frame) (word_size sets lines line_size : Nat) (c : cache_t1)
    (h1 : 1 ≤ sets) (h2 : 1 ≤ lines) (h3 : 1 ≤ line_size)
    (hc : Reachable F word_size sets lines line_size c) (next_level : Nat → Nat → Byte)
    (a : Nat) (w : List Byte) (hw : word_size / 8 ≤ w.length) :
    (a % line_size + word_size / 8 ≤ line_size →
      (∃ r, cache_load_word F next_level c a = .ok r ∧ r.out.length = word_size / 8) ∧
      (∃ r, cache_store_word F next_level c a w = .ok r)) ∧
    (line_size < word_size / 8 →
      cache_load_word F next_level c a = .error .out_of_bounds ∧
      cache_store_word F next_level c a w = .error .out_of_bounds) := by
  obtain ⟨hinv, hws, hsc, hlc, hls, _⟩ := hc.inv
  obtain ⟨A, p, B, c1, fills, hR, hok, hbad⟩ := access_spec F next_level hinv (by omega)
    (by omega) (by omega) (Op.load_word a)
  obtain ⟨A2, p2, B2, c2, fills2, hR2, hok2, hbad2⟩ := access_spec F next_level hinv (by omega)
    (by omega) (by omega) (Op.store_word a w)
  simp only [Op.fits_at, access, hls, hws] at hok hbad hok2 hbad2
  have hoff := F.offset_le (a % line_size)
  have hs := hR.step
  simp only [Op.address] at hs
  have hi : a / c.line_size % c.set_cnt < c1.set_cnt := by
    rw [hs.set_cnt]; exact Nat.mod_lt _ (by omega)
  obtain ⟨s1, hs1, _⟩ := hs.inv.get_set_ok hi
  have hrep := hs.inv.rep _ s1 hs1
  rw [hs.lines] at hrep
  have hplt : p < c1.heap.length := hrep.valid p (by simp)
  have hbuf : (line_at c1.heap p).data.length = line_size := by
    rw [hs.inv.buf p hplt, hs.line_size, hls]
  constructor
  · intro hfit
    refine ⟨⟨_, hok (by omega), ?_⟩, ⟨_, hok2 ⟨by omega, hw⟩⟩⟩
    simp only [finish, List.length_take, List.length_drop, hbuf, hs.line_size, hs.word_size,
      hls, hws]
    omega
  · intro hbig
    exact ⟨hbad (by omega), hbad2 (fun h => by omega)⟩

theorem word_access_bounds_witness :
    (1 ≤ 1 ∧ 1 ≤ 2 ∧ 1 ≤ 8 ∧ Reachable Frame.index_over_offset 32 1 2 8 two_blocks ∧
      32 / 8 ≤ [1, 2, 3, 4].length ∧
      (12 % 8 + 32 / 8 ≤ 8 →
        (∃ r, cache_load_word Frame.index_over_offset plain_memory two_blocks 12 = .ok r ∧
          r.out.length = 32 / 8) ∧
        (∃ r, cache_store_word Frame.index_over_offset plain_memory two_blocks 12 [1, 2, 3, 4]
          = .ok r)) ∧
      (8 < 32 / 8 →
        cache_load_word Frame.index_over_offset plain_memory two_blocks 12
          = .error .out_of_bounds ∧
        cache_store_word Frame.index_over_offset plain_memory two_blocks 12 [1, 2, 3, 4]
          = .error .out_of_bounds)) ∧
    (1 ≤ 1 ∧ 1 ≤ 2 ∧ 1 ≤ 4 ∧ Reachable Frame.separate 64 1 2 4 (cache_new blank 64 1 2 4) ∧
      64 / 8 ≤ [1, 2, 3, 4, 5, 6, 7, 8].length ∧
      (0 % 4 + 64 / 8 ≤ 4 →
        (∃ r, cache_load_word Frame.separate plain_memory (cache_new blank 64 1 2 4) 0 = .ok r ∧
          r.out.length = 64 / 8) ∧
        (∃ r, cache_store_word Frame.separate plain_memory (cache_new blank 64 1 2 4) 0
          [1, 2, 3, 4, 5, 6, 7, 8] = .ok r)) ∧
      (4 < 64 / 8 →
        cache_load_word Frame.separate plain_memory (cache_new blank 64 1 2 4) 0
          = .error .out_of_bounds ∧
        cache_store_word Frame.separate plain_memory (cache_new blank 64 1 2 4) 0
          [1, 2, 3, 4, 5, 6, 7, 8] = .error .out_of_bounds)) :=
  ⟨⟨by decide, by decide, by decide, reachable_two_blocks, by decide,
    word_access_bounds Frame.index_over_offset 32 1 2 8 two_blocks (by decide) (by decide)
      (by decide) reachable_two_blocks plain_memory 12 [1, 2, 3, 4] (by decide)⟩,
   ⟨by decide, by decide, by decide, Reachable.new blank, by decide,
    word_access_bounds Frame.separate 64 1 2 4 (cache_new blank 64 1 2 4) (by decide)
      (by decide) (by decide) (Reachable.new blank) plain_memory 0 [1, 2, 3, 4, 5, 6, 7, 8]
      (by decide)⟩⟩

/-- Stored data is discarded on eviction, on every frame.  In every state reachable from
`cache_new` with `sets`, `lines`, `line_size ≥ 1`, for every address `a` whose word lies
inside its line and every word `w`: after `cache_store_word(a, w)` and then `lines` calls
(any mix of the three operations, each within its line) on pairwise distinct tags other
than the tag of `a` that map to the set of `a`, the call `cache_load_word(a)` is a miss:
it asks the next level for `a` and returns bytes of that fill, those at the offset the
caller holds; `w` does not occur in them. -/
theorem store_discarded_on_eviction (F : Frame) (word_size sets lines line_size : Nat)
    (c : cache_t1)
    (h1 : 1 ≤ sets) (h2 : 1 ≤ lines) (h3 : 1 ≤ line_size)
    (hc : Reachable F word_size sets lines line_size c)
    (next_level next_level2 next_level3 : Nat → Nat → Byte) (a : Nat) (w : List Byte)
    (hfit : a % line_size + word_size / 8 ≤ line_size) (hw : word_size / 8 ≤ w.length)
    (ops : List Op) (hlen : ops.length = lines)
    (hmap : ∀ op ∈ ops, index_of c op.address = index_of c a)
    (hdist : (ops.map (fun op => tag_of c op.address)).Nodup)
    (hother : tag_of c a ∉ ops.map (fun op => tag_of c op.address))
    (hfits : ∀ op ∈ ops, op.fits c) :
    ∃ r1 c2 r3, cache_store_word F next_level c a w = .ok r1 ∧
      run F next_level2 r1.cache ops = .ok c2 ∧
      cache_load_word F next_level3 c2 a = .ok r3 ∧ r3.fills = [a] ∧
      r3.out = (((List.range line_size).map (next_level3 a)).drop
        (F.offset (a % line_size))).take (word_size / 8) := by
  obtain ⟨hinv, hws, hsc, hlc, hls, _⟩ := hc.inv
  -- the store
  obtain ⟨A, p, B, c1, fills, hR, hok, _⟩ := access_spec F next_level hinv (by omega) (by omega)
    (by omega) (Op.store_word a w)
  have hoff := F.offset_le (a % line_size)
  have hacc := hok (by simp only [Op.fits_at, hls, hws]; exact ⟨by omega, hw⟩)
  have hc1 := Reachable.step next_level (Op.store_word a w) _ hc hacc
  obtain ⟨hinv1, hws1, hsc1, hlc1, hls1, _⟩ := hc1.inv
  -- the calls that fill the set
  have hgeo1 : ∀ x, tag_of (finish F c1 p fills (Op.store_word a w)).cache x = tag_of c x ∧
      index_of (finish F c1 p fills (Op.store_word a w)).cache x = index_of c x := by
    intro x; simp only [tag_of, index_of, hls1, hsc1, hls, hsc, and_self]
  obtain ⟨c2, hrun, hinv2, g1, g2, g3, g4, htags, _⟩ :=
    run_tags F next_level2 (index_of c a) ops hinv1 (by omega) (by omega) (by omega)
      (by
        intro op hop
        refine ⟨by rw [(hgeo1 _).2]; exact hmap op hop, ?_⟩
        have := fits_at_of_fits F (hfits op hop)
        cases op <;> simp only [Op.fits_at, hls1, hws1, hls, hws] at this ⊢ <;> exact this)
  have hi : index_of c a < sets := by
    simp only [index_of, hsc]; exact Nat.mod_lt _ (by omega)
  have hfull : set_tags c2 (index_of c a) = (ops.map (fun op => tag_of c op.address)).reverse := by
    rw [htags]
    simp only [hgeo1]
    apply lru_run_full _ _ hdist
    rw [length_set_tags, hinv1.cnt _ (by rw [hsc1]; exact hi), hlc1, List.length_map, hlen]
  -- the load
  have e2 : c2.set_cnt = sets := by rw [g2, hsc1]
  have e4 : c2.line_size = line_size := by rw [g4, hls1]
  have e1 : c2.word_size = word_size := by rw [g1, hws1]
  obtain ⟨A3, p3, B3, c3, fills3, hR3, hok3, _⟩ := access_spec F next_level3 hinv2 (by omega)
    (by omega) (by omega) (Op.load_word a)
  have hacc3 := hok3 (by simp only [Op.fits_at, e4, e1]; omega)
  have hidx : a / c2.line_size % c2.set_cnt = index_of c a := by
    simp only [index_of, hls, hsc, e2, e4]
  have htg : a / c2.line_size / c2.set_cnt = tag_of c a := by
    simp only [tag_of, hls, hsc, e2, e4]
  simp only [Op.address, Resolved, hidx, htg] at hR3
  rcases hR3 with ⟨hhit, _⟩ | ⟨_, hmiss, hf⟩
  · exfalso
    apply hother
    have : tag_of c a ∈ set_tags c2 (index_of c a) := by
      simp only [set_tags, List.mem_map]
      exact ⟨p3, by rw [hhit.lines]; simp, hhit.tag⟩
    rw [hfull] at this
    exact List.mem_reverse.mp this
  · have hs := hmiss.step
    obtain ⟨s2, hs2, _⟩ := hinv2.get_set_ok (show index_of c a < c2.set_cnt by rw [e2]; exact hi)
    have hplt : p3 < c2.heap.length :=
      (hinv2.rep _ s2 hs2).valid p3 (by rw [hmiss.lines]; simp)
    have hbuf := hinv2.buf p3 hplt
    refine ⟨_, c2, _, hacc, hrun, hacc3, hf, ?_⟩
    simp only [access, finish, hmiss.data, load_block_from_next_level, hbuf, hs.line_size,
      hs.word_size, e4, e1]

/-- C15, as the code runs where the store to `*index` runs over `offset` (frame
`index_over_offset`), on the cache `two_blocks` of geometry (32, 1, 2, 8): after
`cache_store_word(4, w)` and calls on the two other tags 2 and 3 of the set, the call
`cache_load_word(4)` is a miss that asks the next level for address 4, and it returns
bytes 0 .. 3 of the fill, `[4, 5, 6, 7]`, where the bytes of the fill at the offset of
the address, 4 .. 7, are `[8, 9, 10, 11]`.  The stored word is gone in both. -/
theorem evicted_word_read_at_offset_zero :
    ∃ r1 c2 r3,
      cache_store_word Frame.index_over_offset plain_memory two_blocks 4 [9, 9, 9, 9] = .ok r1 ∧
      run Frame.index_over_offset plain_memory r1.cache [Op.load_word 16, Op.load_block 24 8]
        = .ok c2 ∧
      cache_load_word Frame.index_over_offset plain_memory c2 4 = .ok r3 ∧ r3.fills = [4] ∧
      r3.out = [4, 5, 6, 7] ∧
      (((List.range 8).map (plain_memory 4)).drop (4 % 8)).take (32 / 8) = [8, 9, 10, 11] :=
  ⟨_, _, _, rfl, rfl, rfl, rfl, rfl, rfl⟩

theorem run_coherent (F : Frame) (M : Nat → Byte) : ∀ (ops : List Op) {c : cache_t1},
    Inv c → 1 ≤ c.set_cnt → 1 ≤ c.line_cnt → 1 ≤ c.line_size → Coherent M c →
    (∀ op ∈ ops, op.is_load = true ∧ tag_of c op.address ≠ INVALID_TAG ∧ op.fits_at F c) →
    ∃ c1, run F (block_memory M c.line_size) c ops = .ok c1 ∧ Inv c1 ∧
      c1.word_size = c.word_size ∧ c1.set_cnt = c.set_cnt ∧ c1.line_cnt = c.line_cnt ∧
      c1.line_size = c.line_size ∧ Coherent M c1 := by
  intro ops
  induction ops with
  | nil =>
    intro c hinv _ _ _ hcoh _
    exact ⟨c, rfl, hinv, rfl, rfl, rfl, rfl, hcoh⟩
  | cons op ops ih =>
    intro c hinv hsc hlc hls hcoh hops
    obtain ⟨hload, htag, hfit⟩ := hops op (by simp)
    obtain ⟨A, p, B, c1, fills, hR, hok, _⟩ :=
      access_spec F (block_memory M c.line_size) hinv hsc hlc hls op
    have hacc := hok hfit
    have hs := hR.step
    have hcache : (finish F c1 p fills op).cache = c1 := by
      cases op with
      | load_word a => rfl
      | load_block a size => rfl
      | store_word a w => simp [Op.is_load] at hload
    obtain ⟨hcoh1, _⟩ := resolved_coherent M hinv hsc hcoh op.address A p B fills hR htag
    obtain ⟨c2, hrun, hinv2, g1, g2, g3, g4, hcoh2⟩ := ih (c := c1) hs.inv
      (by rw [hs.set_cnt]; exact hsc) (by rw [hs.line_cnt]; exact hlc)
      (by rw [hs.line_size]; exact hls) hcoh1
      (by
        intro o ho
        obtain ⟨e1, e2, e3⟩ := hops o (by simp [ho])
        refine ⟨e1, ?_, ?_⟩
        · simp only [tag_of, hs.line_size, hs.set_cnt] at e2 ⊢; exact e2
        · cases o <;> simp only [Op.fits_at, hs.line_size, hs.word_size] at e3 ⊢ <;> exact e3)
    rw [hs.line_size] at hrun
    refine ⟨c2, ?_, hinv2, g1.trans hs.word_size, g2.trans hs.set_cnt, g3.trans hs.line_cnt,
      g4.trans hs.line_size, hcoh2⟩
    simp only [run, hacc, ok_bind, hcache, hrun]

/-- Where a cached read comes from.  Let the next level supply, for an address, the
`line_size` bytes of the block of the memory `M` that contains it.  On a cache from
`cache_new` with `sets`, `lines`, `line_size ≥ 1`, whatever the fresh buffers hold, after
every sequence of `cache_load_word` and `cache_load_block` calls on addresses whose tag
is not `INVALID_TAG`, each within its line, the sequence returns and a
`cache_load_word(a)` with tag other than `INVALID_TAG` and its word inside the line
returns `word_size/8` bytes of `M` from the block of `a`, on a hit and on a miss: those
at the offset the caller holds.  On the frame `separate` they are the bytes of `M` at
`a`. -/
theorem read_at_frame_offset (F : Frame) (word_size sets lines line_size : Nat)
    (h1 : 1 ≤ sets) (h2 : 1 ≤ lines) (h3 : 1 ≤ line_size) (uninit : Nat → Nat → Byte)
    (M : Nat → Byte) (ops : List Op)
    (hload : ∀ op ∈ ops, op.is_load = true)
    (htag : ∀ op ∈ ops,
      tag_of (cache_new uninit word_size sets lines line_size) op.address ≠ INVALID_TAG)
    (hfit : ∀ op ∈ ops, op.fits (cache_new uninit word_size sets lines line_size))
    (a : Nat)
    (hta : tag_of (cache_new uninit word_size sets lines line_size) a ≠ INVALID_TAG)
    (hfa : a % line_size + word_size / 8 ≤ line_size) :
    ∃ c1 r, run F (block_memory M line_size) (cache_new uninit word_size sets lines line_size) ops
        = .ok c1 ∧
      cache_load_word F (block_memory M line_size) c1 a = .ok r ∧
      r.out = direct_read M (a / line_size * line_size + F.offset (a % line_size))
        (word_size / 8) ∧
      (F = Frame.separate → r.out = direct_read M a (word_size / 8)) := by
  have hinv := cache_new_inv uninit word_size sets lines line_size
  obtain ⟨c1, hrun, hinv1, g1, g2, g3, g4, hcoh⟩ :=
    run_coherent F M ops hinv h1 h2 h3 (cache_new_coherent uninit M _ _ _ _)
      (fun op hop => ⟨hload op hop, htag op hop, fits_at_of_fits F (hfit op hop)⟩)
  have e1 : c1.word_size = word_size := g1
  have e2 : c1.set_cnt = sets := g2
  have e3 : c1.line_cnt = lines := g3
  have e4 : c1.line_size = line_size := g4
  obtain ⟨A, p, B, c2, fills, hR, hok, _⟩ :=
    access_spec F (block_memory M c1.line_size) hinv1 (by omega) (by omega) (by omega)
      (Op.load_word a)
  have hoff := F.offset_le (a % line_size)
  have hacc := hok (by simp only [Op.fits_at, e1, e4]; omega)
  have hs := hR.step
  obtain ⟨_, hdata⟩ := resolved_coherent M hinv1 (by omega) hcoh a A p B fills hR
    (by simp only [e2, e4]; exact hta)
  rw [e4] at hacc
  have hout : (finish F c2 p fills (Op.load_word a)).out
      = direct_read M (a / line_size * line_size + F.offset (a % line_size))
        (word_size / 8) := by
    simp only [finish, hdata, hs.line_size, hs.word_size, e1, e4]
    rw [take_drop_map_range _ _ _ _ (by omega)]
    simp only [direct_read]
    apply List.map_congr_left
    intro k _
    congr 1
    omega
  refine ⟨c1, _, hrun, hacc, hout, ?_⟩
  intro hF
  subst hF
  rw [hout]
  simp only [Frame.offset, Nat.div_add_mod']

/-- C20, as the code runs where the store to `*index` runs over `offset` (frame
`index_over_offset`), with geometry (32, 1, 2, 8), the memory whose byte at `x` is `x`
and the next level supplying the block that contains the address.  On the fresh cache
`cache_load_word(4)` returns the bytes of the memory at 0 .. 3; after loads of the word
at 0, the block at 8, the words at 16 and at 0, `cache_load_word(18)` returns the bytes
at 16 .. 19.  The direct reads at 4 and at 18 are `[4, 5, 6, 7]` and
`[18, 19, 20, 21]`. -/
theorem cached_read_at_offset_zero :
    (∃ r, cache_load_word Frame.index_over_offset (block_memory (fun x => x) 8)
        (cache_new blank 32 1 2 8) 4 = .ok r ∧ r.out = [0, 1, 2, 3] ∧ r.fills = [4]) ∧
    direct_read (fun x => x) 4 (32 / 8) = [4, 5, 6, 7] ∧
    (∃ c1 r, run Frame.index_over_offset (block_memory (fun x => x) 8) (cache_new blank 32 1 2 8)
        [Op.load_word 0, Op.load_block 8 8, Op.load_word 16, Op.load_word 0] = .ok c1 ∧
      cache_load_word Frame.index_over_offset (block_memory (fun x => x) 8) c1 18 = .ok r ∧
      r.out = [16, 17, 18, 19] ∧ r.fills = []) ∧
    direct_read (fun x => x) 18 (32 / 8) = [18, 19, 20, 21] :=
  ⟨⟨_, rfl, rfl, rfl⟩, rfl, ⟨_, _, rfl, rfl, rfl, rfl⟩, rfl⟩

end CacheSim
